import Mathlib

/-!
# Buffer cache of `kernel/bio.c`

A shallow embedding of the sharded buffer cache: the pool of `NBUF` buffers, the
`NBUCKETS` circular doubly-linked lists with sentinel heads, the per-bucket
`freelist` counters, and the operations `binit`, `bget`, `bread`, `bwrite`,
`brelse`, `bpin`, `bunpin` with their helpers.

Memory is an arena: buffer `k` of `bcache.buf` has address `k`, the sentinel
`bcache.bucket[i]` has address `NBUF + i`.  Every field of `struct buf` is a
function from addresses to values, and a C assignment is a pointwise update.
`NBUF` comes from `param.h`, which is not part of the sources, so it is a
parameter of every definition that needs it.
-/

namespace Bcache

/-- The constant `NBUCKETS` of `bio.c`. -/
def NBUCKETS : Nat := 13

/-- Modulus of the C type `uint` of the `refcnt` field (32 bits on RISC-V). -/
def UINT : Nat := 4294967296

/-- Pointwise store `f[i] = v`. -/
def upd {α : Type} (f : Nat → α) (i : Nat) (v : α) : Nat → α :=
  fun j => if j = i then v else f j

/-- Lock events, in the order in which a call produces them. -/
inductive Ev where
  | acquire (i : Nat)
  | release (i : Nat)
  | acquiresleep (b : Nat)
  | releasesleep (b : Nat)
  deriving DecidableEq

/-- The three `panic` call sites of `bio.c`. -/
inductive Panic where
  | bget_no_buffers
  | bwrite
  | brelse
  deriving DecidableEq

/-- The memory of `bcache`, the sleep-lock words of the buffers, the device and
the instrumentation (number of device transfers, lock events). -/
structure State where
  next : Nat → Nat
  prev : Nat → Nat
  dev : Nat → Nat
  blockno : Nat → Nat
  valid : Nat → Nat
  refcnt : Nat → Nat
  data : Nat → Nat
  locked : Nat → Bool
  lkpid : Nat → Nat
  freelist : Nat → Int
  disk : Nat → Nat → Nat
  reads : Nat
  writes : Nat
  log : List Ev

/-- Outcome of a call: it returns, it sleeps on a buffer's access lock, it
panics (the kernel halts in the given state), or a list scan never ends. -/
inductive Res (α : Type) where
  | ok (a : α) (s : State)
  | sleep (a : α) (s : State)
  | panic (m : Panic) (s : State)
  | hang

/-- Address of the sentinel `&bcache.bucket[i]`. -/
def bucketAddr (nbuf i : Nat) : Nat := nbuf + i

/-- Bound on the length of a scan: a walk over `NBUF + NBUCKETS` nodes that has
not met the sentinel after that many steps never meets it. -/
def scanFuel (nbuf : Nat) : Nat := nbuf + NBUCKETS + 1

/-- Append a lock event to the log. -/
def logEv (s : State) (e : Ev) : State := { s with log := s.log ++ [e] }

/-- The function `buf_insert_head`. -/
def buf_insert_head (s : State) (head b : Nat) : State :=
  let s1 := { s with next := upd s.next b (s.next head) }
  let s2 := { s1 with prev := upd s1.prev b head }
  let s3 := { s2 with prev := upd s2.prev (s2.next head) b }
  { s3 with next := upd s3.next head b }

/-- The function `buf_insert_tail`. -/
def buf_insert_tail (s : State) (head b : Nat) : State :=
  let s1 := { s with next := upd s.next b head }
  let s2 := { s1 with prev := upd s1.prev b (s1.prev head) }
  let s3 := { s2 with next := upd s2.next (s2.prev head) b }
  { s3 with prev := upd s3.prev head b }

/-- The two statements `b->next->prev = b->prev; b->prev->next = b->next;` that
occur in `buf_remove_lru` and in `brelse`. -/
def buf_unlink (s : State) (b : Nat) : State :=
  let s1 := { s with prev := upd s.prev (s.next b) (s.prev b) }
  { s1 with next := upd s1.next (s1.prev b) (s1.next b) }

/-- The loop `for(b = head->prev; b != head; b = b->prev) if(b->refcnt == 0)`
shared by `buf_remove_lru` and the allocation scan of `bget`: `some (some b)`
when it stops at `b`, `some none` when it comes back to `head`, `none` when it
runs out of fuel. -/
def lru_scan (s : State) (head : Nat) : Nat → Nat → Option (Option Nat)
  | 0, _ => none
  | fuel + 1, b =>
    if b = head then some none
    else if s.refcnt b = 0 then some (some b)
    else lru_scan s head fuel (s.prev b)

/-- The function `buf_remove_lru`; the outer `none` is a scan that never ends,
the inner `none` is the null pointer it returns when no buffer is free. -/
def buf_remove_lru (nbuf : Nat) (s : State) (head : Nat) : Option (Option Nat × State) :=
  match lru_scan s head (scanFuel nbuf) (s.prev head) with
  | none => none
  | some none => some (none, s)
  | some (some b) => some (some b, buf_unlink s b)

/-- The function `hash`. -/
def hash (_dev blockno : Nat) : Nat := blockno % NBUCKETS

/-- Modelled from the spec: `initsleeplock` of `sleeplock.c`, which is not part
of the sources; the access lock starts free. -/
def initsleeplock (s : State) (b : Nat) : State :=
  { s with locked := upd s.locked b false, lkpid := upd s.lkpid b 0 }

/-- Modelled from the spec: `holdingsleep` of `sleeplock.c`, the held-by-caller
query of the access lock, for the calling process `p`. -/
def holdingsleep (s : State) (p b : Nat) : Bool := s.locked b && decide (s.lkpid b = p)

/-- Modelled from the spec: `releasesleep` of `sleeplock.c`. -/
def releasesleep (s : State) (b : Nat) : State :=
  logEv { s with locked := upd s.locked b false, lkpid := upd s.lkpid b 0 } (Ev.releasesleep b)

/-- The state in which process `p` has taken the free access lock of `b`. -/
def lockedBy (s : State) (p b : Nat) : State :=
  logEv { s with locked := upd s.locked b true, lkpid := upd s.lkpid b p } (Ev.acquiresleep b)

/-- Modelled from the spec: `acquiresleep` of `sleeplock.c`, the blocking
acquire of the access lock by process `p`: the caller gets a free lock and
sleeps on a held one. -/
def acquiresleep (s : State) (p b : Nat) : Res Nat :=
  if s.locked b then Res.sleep b s else Res.ok b (lockedBy s p b)

/-- Modelled from the spec: `virtio_disk_rw` of the device adaptor, which is
not part of the sources: a read fills the content from the block at
`(dev, blockno)`, a write stores the content there. -/
def virtio_disk_rw (s : State) (b : Nat) (write : Bool) : State :=
  if write then
    { s with
      disk := fun d n => if d = s.dev b ∧ n = s.blockno b then s.data b else s.disk d n,
      writes := s.writes + 1 }
  else
    { s with data := upd s.data b (s.disk (s.dev b) (s.blockno b)), reads := s.reads + 1 }

/-- Memory before `binit`: `bcache` is a zero-initialised global, the null
pointer is the address `NBUF + NBUCKETS` outside the arena. -/
def boot (nbuf : Nat) (disk : Nat → Nat → Nat) : State :=
  { next := fun _ => nbuf + NBUCKETS
    prev := fun _ => nbuf + NBUCKETS
    dev := fun _ => 0
    blockno := fun _ => 0
    valid := fun _ => 0
    refcnt := fun _ => 0
    data := fun _ => 0
    locked := fun _ => false
    lkpid := fun _ => 0
    freelist := fun _ => 0
    disk := disk
    reads := 0
    writes := 0
    log := [] }

/-- Body of the first loop of `binit` for bucket `i`. -/
def binit_bucket (nbuf : Nat) (s : State) (i : Nat) : State :=
  let s1 := { s with next := upd s.next (bucketAddr nbuf i) (bucketAddr nbuf i) }
  let s2 := { s1 with prev := upd s1.prev (bucketAddr nbuf i) (bucketAddr nbuf i) }
  { s2 with freelist := upd s2.freelist i 0 }

/-- Body of the second loop of `binit` for the buffer at pool index `b`. -/
def binit_buf (nbuf : Nat) (s : State) (b : Nat) : State :=
  let i := b % NBUCKETS
  let s1 := initsleeplock s b
  let s2 := buf_insert_head s1 (bucketAddr nbuf i) b
  { s2 with freelist := upd s2.freelist i (s2.freelist i + 1) }

/-- The function `binit`. -/
def binit (nbuf : Nat) (s : State) : State :=
  (List.range nbuf).foldl (binit_buf nbuf) ((List.range NBUCKETS).foldl (binit_bucket nbuf) s)

/-- The loop of `find_richest_bucket` over the remaining indices, on the pair
`(max_free, donor)`. -/
def find_richest_loop (s : State) : List Nat → Int × Int → Int × Int
  | [], acc => acc
  | i :: rest, acc =>
    if s.freelist i > acc.1 then find_richest_loop s rest (s.freelist i, (i : Int))
    else find_richest_loop s rest acc

/-- The function `find_richest_bucket`. -/
def find_richest_bucket (s : State) : Int :=
  (find_richest_loop s (List.range NBUCKETS) (0, -1)).2

/-- The loop of `steal_buffers`, `k` iterations left. -/
def steal_loop (nbuf target donor : Nat) : Nat → State → Option State
  | 0, s => some s
  | k + 1, s =>
    match buf_remove_lru nbuf s (bucketAddr nbuf donor) with
    | none => none
    | some (none, s1) => steal_loop nbuf target donor k s1
    | some (some stolen, s1) =>
      steal_loop nbuf target donor k (buf_insert_tail s1 (bucketAddr nbuf target) stolen)

/-- The function `steal_buffers`; `none` is a scan that never ends. -/
def steal_buffers (nbuf target : Nat) (donor : Int) (s : State) : Option (Int × State) :=
  if donor < 0 then some (0, s)
  else
    let d := donor.toNat
    let s0 := logEv s (Ev.acquire d)
    let steal_count := Int.tdiv (s0.freelist d) 2
    if steal_count > 0 then
      let s1 := { s0 with freelist := upd s0.freelist target (s0.freelist target + steal_count) }
      let s2 := { s1 with freelist := upd s1.freelist d (s1.freelist d - steal_count) }
      match steal_loop nbuf target d steal_count.toNat s2 with
      | none => none
      | some s3 => some (steal_count, logEv s3 (Ev.release d))
    else some (steal_count, logEv s0 (Ev.release d))

/-- The lookup loop of `bget`:
`for(b = head->next; b != head; b = b->next) if(b->dev == dev && b->blockno == blockno)`. -/
def hit_scan (s : State) (head dev blockno : Nat) : Nat → Nat → Option (Option Nat)
  | 0, _ => none
  | fuel + 1, b =>
    if b = head then some none
    else if s.dev b = dev ∧ s.blockno b = blockno then some (some b)
    else hit_scan s head dev blockno fuel (s.next b)

/-- The statements of the hit branch of `bget` (lines 151 to 153) on the buffer
`b` found by the lookup, up to the release of the bucket lock. -/
def bget_hit_cs (s : State) (bucket b : Nat) : State :=
  let s1 := { s with refcnt := upd s.refcnt b ((s.refcnt b + 1) % UINT) }
  let s2 := { s1 with
    freelist := upd s1.freelist bucket (s1.freelist bucket - (if s1.refcnt b = 1 then 1 else 0)) }
  logEv s2 (Ev.release bucket)

/-- The hit branch of `bget` on the buffer `b` found by the lookup. -/
def bget_hit (s : State) (p bucket b : Nat) : Res Nat :=
  acquiresleep (bget_hit_cs s bucket b) p b

/-- The statements of the allocation (lines 170 to 175) on the buffer `b` found
by the eviction scan, up to the release of the bucket lock. -/
def bget_claim (s : State) (bucket dev blockno b : Nat) : State :=
  let s1 := { s with dev := upd s.dev b dev }
  let s2 := { s1 with blockno := upd s1.blockno b blockno }
  let s3 := { s2 with valid := upd s2.valid b 0 }
  let s4 := { s3 with refcnt := upd s3.refcnt b 1 }
  let s5 := { s4 with freelist := upd s4.freelist bucket (s4.freelist bucket - 1) }
  logEv s5 (Ev.release bucket)

/-- The allocation scan of `bget` (lines 167 to 181), after the rebalancing. -/
def bget_alloc (nbuf : Nat) (s : State) (p bucket dev blockno : Nat) : Res Nat :=
  match lru_scan s (bucketAddr nbuf bucket) (scanFuel nbuf) (s.prev (bucketAddr nbuf bucket)) with
  | none => Res.hang
  | some none => Res.panic Panic.bget_no_buffers s
  | some (some b) => acquiresleep (bget_claim s bucket dev blockno b) p b

/-- The miss branch of `bget` (lines 159 to 181): rebalance when the home
bucket has no free buffer, then allocate. -/
def bget_miss (nbuf : Nat) (s : State) (p bucket dev blockno : Nat) : Res Nat :=
  if s.freelist bucket = 0 then
    let donor := find_richest_bucket s
    if donor < 0 then Res.panic Panic.bget_no_buffers s
    else
      match steal_buffers nbuf bucket donor s with
      | none => Res.hang
      | some (n, s1) =>
        if n = 0 then Res.panic Panic.bget_no_buffers s1
        else bget_alloc nbuf s1 p bucket dev blockno
  else bget_alloc nbuf s p bucket dev blockno

/-- The function `bget`, called by process `p`. -/
def bget (nbuf p dev blockno : Nat) (s : State) : Res Nat :=
  let bucket := hash dev blockno
  let s0 := logEv s (Ev.acquire bucket)
  match hit_scan s0 (bucketAddr nbuf bucket) dev blockno (scanFuel nbuf)
      (s0.next (bucketAddr nbuf bucket)) with
  | none => Res.hang
  | some (some b) => bget_hit s0 p bucket b
  | some none => bget_miss nbuf s0 p bucket dev blockno

/-- The statements of `bread` after `bget` has returned `b`. -/
def bread_fill (s : State) (b : Nat) : State :=
  if s.valid b = 0 then
    let s1 := virtio_disk_rw s b false
    { s1 with valid := upd s1.valid b 1 }
  else s

/-- The function `bread`, called by process `p`.  When `bget` sleeps on the
access lock the call has not returned; `bread_resume` is its continuation. -/
def bread (nbuf p dev blockno : Nat) (s : State) : Res Nat :=
  match bget nbuf p dev blockno s with
  | Res.ok b s1 => Res.ok b (bread_fill s1 b)
  | r => r

/-- Continuation of a `bread` of process `p` that sleeps on the access lock of
`b`: it runs once the lock is free. -/
def bread_resume (p b : Nat) (s : State) : Option State :=
  match acquiresleep s p b with
  | Res.ok _ s1 => some (bread_fill s1 b)
  | _ => none

/-- The function `bwrite`, called by process `p`. -/
def bwrite (p b : Nat) (s : State) : Res Unit :=
  if holdingsleep s p b then Res.ok () (virtio_disk_rw s b true)
  else Res.panic Panic.bwrite s

/-- The statements of `brelse` after the check of the access lock (lines 211
to 225). -/
def brelse_cs (nbuf b : Nat) (s : State) : State :=
  let s0 := releasesleep s b
  let bucket := hash (s0.dev b) (s0.blockno b)
  let s1 := logEv s0 (Ev.acquire bucket)
  let s2 := { s1 with refcnt := upd s1.refcnt b ((s1.refcnt b + UINT - 1) % UINT) }
  if s2.refcnt b = 0 then
    let s3 := buf_unlink s2 b
    let s4 := buf_insert_head s3 (bucketAddr nbuf bucket) b
    let s5 := { s4 with freelist := upd s4.freelist bucket (s4.freelist bucket + 1) }
    logEv s5 (Ev.release bucket)
  else logEv s2 (Ev.release bucket)

/-- The function `brelse`, called by process `p`. -/
def brelse (nbuf p b : Nat) (s : State) : Res Unit :=
  if holdingsleep s p b then Res.ok () (brelse_cs nbuf b s)
  else Res.panic Panic.brelse s

/-- The function `bpin`. -/
def bpin (s : State) (b : Nat) : State :=
  let bucket := hash (s.dev b) (s.blockno b)
  let s1 := logEv s (Ev.acquire bucket)
  let s2 := { s1 with refcnt := upd s1.refcnt b ((s1.refcnt b + 1) % UINT) }
  logEv s2 (Ev.release bucket)

/-- The function `bunpin`. -/
def bunpin (s : State) (b : Nat) : State :=
  let bucket := hash (s.dev b) (s.blockno b)
  let s1 := logEv s (Ev.acquire bucket)
  let s2 := { s1 with refcnt := upd s1.refcnt b ((s1.refcnt b + UINT - 1) % UINT) }
  logEv s2 (Ev.release bucket)

/-- The buffers of a list, from `head->next` onwards, read off the `next`
pointers (at most `fuel` of them). -/
def walk (s : State) (head : Nat) : Nat → Nat → List Nat
  | 0, _ => []
  | fuel + 1, b => if b = head then [] else b :: walk s head fuel (s.next b)

/-- The list of bucket `i`, most recently used first. -/
def bucketList (nbuf : Nat) (s : State) (i : Nat) : List Nat :=
  walk s (bucketAddr nbuf i) (scanFuel nbuf) (s.next (bucketAddr nbuf i))

/-- The test `b->dev == dev && b->blockno == blockno` of the lookup. -/
def sameId (s : State) (dev blockno : Nat) : Nat → Bool :=
  fun c => decide (s.dev c = dev ∧ s.blockno c = blockno)

/-- The test `b->refcnt == 0` of the eviction scan. -/
def isFree (s : State) : Nat → Bool := fun c => decide (s.refcnt c = 0)

/-- The buffer the eviction scan stops at in the list `l` (most recently used
first): the free buffer nearest the tail. -/
def lastFree (s : State) (l : List Nat) : Option Nat := l.reverse.find? (isFree s)

/-- Number of free buffers in the list `l`. -/
def nfree (s : State) (l : List Nat) : Nat := (l.filter (isFree s)).length

/-- Number of buffers with `refcnt == 0` in the list of bucket `i`. -/
def freeCount (nbuf : Nat) (s : State) (i : Nat) : Nat := nfree s (bucketList nbuf s i)

/-- The loop of `steal_buffers` on the lists of the donor and of the target. -/
def stealL (s : State) : Nat → List Nat → List Nat → List Nat × List Nat
  | 0, ld, lt => (ld, lt)
  | k + 1, ld, lt =>
    match lastFree s ld with
    | none => stealL s k ld lt
    | some b => stealL s k (ld.erase b) (lt ++ [b])

/-- The number `steal_count` computed by `steal_buffers` for the donor `d`. -/
def stealCount (s : State) (d : Nat) : Int := Int.tdiv (s.freelist d) 2

/-- The counters after `steal_buffers (t, d)`. -/
def stealFl (s : State) (t d : Nat) : Nat → Int :=
  if 0 < stealCount s d then
    upd (upd s.freelist t (s.freelist t + stealCount s d)) d
      (upd s.freelist t (s.freelist t + stealCount s d) d - stealCount s d)
  else s.freelist

/-- The lists after `steal_buffers (t, d)`. -/
def stealLists (s : State) (L : Nat → List Nat) (t d : Nat) : Nat → List Nat :=
  if 0 < stealCount s d then
    upd (upd L d (stealL s (stealCount s d).toNat (L d) (L t)).1) t
      (stealL s (stealCount s d).toNat (L d) (L t)).2
  else L

/-! ## Calls and the caller contract -/

/-- A call into the cache, or the wake-up of a sleeping `bread`. -/
inductive Call where
  | bread (p dev blockno : Nat)
  | wake (p b : Nat)
  | bwrite (p b : Nat)
  | brelse (p b : Nat)
  | bpin (b : Nat)
  | bunpin (b : Nat)

/-- The cache together with the callers' bookkeeping, which the code does not
store: `pend b` counts the references to `b` that are not backed by its access
lock (pins, and callers asleep in `bread`); `rel b` is the time, on the counter
`clock`, of the last `brelse` of `b`; `placed b` says that this last `brelse`
dropped `refcnt` to 0 and that `b` has not changed bucket since. -/
structure Sys where
  st : State
  pend : Nat → Nat
  clock : Nat
  rel : Nat → Nat
  placed : Nat → Bool

/-- Buffer `c` has entered bucket `i` between the states `s` and `s1`. -/
def migrated (nbuf : Nat) (s s1 : State) (i c : Nat) : Bool :=
  decide (c ∈ bucketList nbuf s1 i ∧ c ∉ bucketList nbuf s i)

/-- Bookkeeping after a `bread` of a block of bucket `i` whose `bget` has run
up to the access lock. -/
def afterBget (nbuf : Nat) (g : Sys) (s1 : State) (i : Nat) (pend : Nat → Nat) : Sys :=
  { g with st := s1, pend := pend,
           placed := fun c => g.placed c && !migrated nbuf g.st s1 i c }

/-- Bookkeeping after a `brelse` of `b`. -/
def afterBrelse (g : Sys) (s1 : State) (b : Nat) : Sys :=
  { g with st := s1, clock := g.clock + 1, rel := upd g.rel b (g.clock + 1),
           placed := upd g.placed b (decide (s1.refcnt b = 0)) }

/-- One call made under the caller contract, `none` when the contract forbids
the call or the kernel halts in it: `brelse` and `bwrite` need the access lock,
`bpin` needs a live reference, `bunpin` needs an outstanding pin, a sleeping
`bread` resumes when the lock is free, and no call may take the reference
counter of a buffer to its last value `UINT - 1`. -/
def exec (nbuf : Nat) (g : Sys) : Call → Option Sys
  | Call.bread p dev blockno =>
    match bread nbuf p dev blockno g.st with
    | Res.ok b s1 =>
      if g.st.refcnt b + 2 < UINT then some (afterBget nbuf g s1 (hash dev blockno) g.pend)
      else none
    | Res.sleep b s1 =>
      if g.st.refcnt b + 2 < UINT then
        some (afterBget nbuf g s1 (hash dev blockno) (upd g.pend b (g.pend b + 1)))
      else none
    | _ => none
  | Call.wake p b =>
    if b < nbuf ∧ 0 < g.pend b then
      match bread_resume p b g.st with
      | some s1 => some { g with st := s1, pend := upd g.pend b (g.pend b - 1) }
      | none => none
    else none
  | Call.bwrite p b =>
    if b < nbuf then
      match bwrite p b g.st with
      | Res.ok _ s1 => some { g with st := s1 }
      | _ => none
    else none
  | Call.brelse p b =>
    if b < nbuf then
      match brelse nbuf p b g.st with
      | Res.ok _ s1 => some (afterBrelse g s1 b)
      | _ => none
    else none
  | Call.bpin b =>
    if b < nbuf ∧ 0 < g.st.refcnt b ∧ g.st.refcnt b + 2 < UINT then
      some { g with st := bpin g.st b, pend := upd g.pend b (g.pend b + 1) }
    else none
  | Call.bunpin b =>
    if b < nbuf ∧ 0 < g.pend b then
      some { g with st := bunpin g.st b, pend := upd g.pend b (g.pend b - 1) }
    else none

/-- The system after `binit`, on a device with the content `disk`. -/
def init (nbuf : Nat) (disk : Nat → Nat → Nat) : Sys :=
  { st := binit nbuf (boot nbuf disk), pend := fun _ => 0, clock := 0, rel := fun _ => 0,
    placed := fun _ => false }

/-- Run a sequence of calls. -/
def run (nbuf : Nat) : Sys → List Call → Option Sys
  | g, [] => some g
  | g, c :: cs =>
    match exec nbuf g c with
    | none => none
    | some g1 => run nbuf g1 cs

/-- States reachable from `binit` by calls that respect the caller contract. -/
def Reach (nbuf : Nat) (g : Sys) : Prop :=
  ∃ disk cs, run nbuf (init nbuf disk) cs = some g

/-! ## Observations of outcomes and concrete runs -/

/-- The call returned. -/
def Res.isOk {α : Type} : Res α → Bool
  | Res.ok _ _ => true
  | _ => false

/-- The call panicked. -/
def Res.isPanic {α : Type} : Res α → Bool
  | Res.panic _ _ => true
  | _ => false

/-- The buffer of an outcome of `bget` or `bread` (0 when there is none). -/
def Res.val : Res Nat → Nat
  | Res.ok a _ => a
  | Res.sleep a _ => a
  | _ => 0

/-- The state of an outcome (`d` when the call hangs). -/
def Res.st {α : Type} (r : Res α) (d : State) : State :=
  match r with
  | Res.ok _ s => s
  | Res.sleep _ s => s
  | Res.panic _ s => s
  | Res.hang => d

/-- A device whose blocks are all zero. -/
def blankDisk : Nat → Nat → Nat := fun _ _ => 0

/-- The system after `binit` and the calls `cs` on a pool of `nbuf` buffers
(the system after `binit` when the calls are not all permitted). -/
def after (nbuf : Nat) (cs : List Call) : Sys :=
  (run nbuf (init nbuf blankDisk) cs).getD (init nbuf blankDisk)

/-- Calls, on a pool of 30 buffers, that grow bucket 0 to four buffers by a
steal from bucket 1 and then release its four buffers in the order 0, 13, 26,
1. -/
def callsGrow : List Call :=
  [Call.bread 1 0 13, Call.bread 1 0 26, Call.bread 1 0 39, Call.bread 1 0 52,
   Call.brelse 1 0, Call.brelse 1 13, Call.brelse 1 26, Call.brelse 1 1]

/-- After `callsGrow`: the two buffers of bucket 4 are taken, so that the next
block of bucket 4 needs a steal. -/
def callsStarve : List Call := callsGrow ++ [Call.bread 1 0 4, Call.bread 1 0 17]

/-- After `callsStarve`: block 30 of bucket 4 steals the buffers 0 and 13 from
bucket 0 and takes buffer 13; buffer 0 stays in bucket 4 with its old identity
`(0, 13)`.  Then bucket 4 is released, bucket 0 is taken, and block 13 of
bucket 0 steals the buffers 0 and 13 back and takes buffer 13. -/
def callsStale : List Call :=
  callsStarve ++ [Call.bread 1 0 30, Call.brelse 1 13, Call.brelse 1 17, Call.brelse 1 4,
    Call.bread 1 0 52, Call.bread 1 0 39, Call.bread 1 0 13]

/-- After `callsStale`: a second process reads block 13. -/
def callsTwice : List Call := callsStale ++ [Call.bread 2 0 13]

/-- A read, a pin, the release and the unpin of one buffer. -/
def callsPin : List Call :=
  [Call.bread 1 0 0, Call.bpin 26, Call.brelse 1 26, Call.bunpin 26]

/-- Reads, on a pool of 30 buffers, that take every buffer of bucket 0 and
leave one free buffer in each other bucket. -/
def callsDrain : List Call :=
  [Call.bread 1 0 0, Call.bread 1 0 13, Call.bread 1 0 26, Call.bread 1 0 1, Call.bread 1 0 14,
   Call.bread 1 0 2, Call.bread 1 0 15, Call.bread 1 0 3, Call.bread 1 0 16, Call.bread 1 0 4,
   Call.bread 1 0 5, Call.bread 1 0 6, Call.bread 1 0 7, Call.bread 1 0 8, Call.bread 1 0 9,
   Call.bread 1 0 10, Call.bread 1 0 11, Call.bread 1 0 12]

/-- Reads that take the two buffers of bucket 4 of a pool of 30 buffers. -/
def callsTake4 : List Call := [Call.bread 1 0 4, Call.bread 1 0 17]

/-- The fields of buffer `b` that an eviction would overwrite, and its
reference counter, are the same in `s1` as in `s`. -/
def SameBuf (s s1 : State) (b : Nat) : Prop :=
  s1.dev b = s.dev b ∧ s1.blockno b = s.blockno b ∧ s1.valid b = s.valid b ∧
    s1.data b = s.data b ∧ s1.refcnt b = s.refcnt b

/-! ## Lists behind the pointers, and the invariant -/

/-- A chain of doubly-linked nodes from `a` through the nodes of `l` to `z`:
each `next` pointer leads to the following node and each `prev` pointer back. -/
def Path (nx pv : Nat → Nat) : Nat → List Nat → Nat → Prop
  | a, [], z => nx a = z ∧ pv z = a
  | a, x :: xs, z => (nx a = x ∧ pv x = a) ∧ Path nx pv x xs z

/-- The pointers `nx`, `pv` thread, for every bucket `i`, the sentinel and the
buffers of `L i` into a circular doubly-linked list, and no buffer is in two
lists or twice in one. -/
structure Rings (nbuf : Nat) (nx pv : Nat → Nat) (L : Nat → List Nat) : Prop where
  path : ∀ i, i < NBUCKETS → Path nx pv (nbuf + i) (L i) (nbuf + i)
  lt : ∀ i, i < NBUCKETS → ∀ b ∈ L i, b < nbuf
  nodup : ∀ i, i < NBUCKETS → (L i).Nodup
  disj : ∀ i j, i < NBUCKETS → j < NBUCKETS → ∀ b, b ∈ L i → b ∈ L j → i = j

/-- State `s1` differs from `s` in the link pointers only. -/
def Relinked (s s1 : State) : Prop := s1 = { s with next := s1.next, prev := s1.prev }

/-- What the loop of `steal_buffers` does to the two lists. -/
structure StealSpec (s : State) (k : Nat) (ld lt ld1 lt1 : List Nat) : Prop where
  moved : ∃ mv, lt1 = lt ++ mv ∧ mv.Nodup ∧ mv.length = min k (nfree s ld) ∧
    (∀ c ∈ mv, s.refcnt c = 0 ∧ c ∈ ld ∧ c ∉ ld1) ∧ (∀ c ∈ ld, c ∈ ld1 ∨ c ∈ mv)
  sub : ld1.Sublist ld
  count : nfree s ld1 + min k (nfree s ld) = nfree s ld

/-- Loop invariant of `find_richest_bucket` after the buckets below `a`. -/
def RichestUpTo (s : State) (a : Nat) (acc : Int × Int) : Prop :=
  (acc.2 = -1 ∧ acc.1 = 0 ∧ ∀ i, i < a → s.freelist i ≤ 0) ∨
  (∃ d, d < a ∧ acc.2 = (d : Int) ∧ acc.1 = s.freelist d ∧ 0 < s.freelist d ∧
    (∀ i, i < a → s.freelist i ≤ s.freelist d) ∧ ∀ i, i < d → s.freelist i < s.freelist d)

/-- Every pool buffer is in the list of some bucket, and the lists are
well-formed rings. -/
structure Shape (nbuf : Nat) (s : State) (L : Nat → List Nat) : Prop where
  rings : Rings nbuf s.next s.prev L
  cover : ∀ b, b < nbuf → ∃ i, i < NBUCKETS ∧ b ∈ L i

/-- A buffer with `refcnt > 0` is in the list of its home bucket. -/
def Home (s : State) (L : Nat → List Nat) : Prop :=
  ∀ i, i < NBUCKETS → ∀ b ∈ L i, s.refcnt b ≠ 0 → s.blockno b % NBUCKETS = i

/-- No counter exceeds the number of free buffers of its list. -/
def Acct (s : State) (L : Nat → List Nat) : Prop :=
  ∀ i, i < NBUCKETS → s.freelist i ≤ (nfree s (L i) : Int)

/-- Relation between the state `s` with lists `L` in which `bget (dev, blk)` is
called and the state `s1` with lists `L1` in which it reaches the access lock
of the buffer `b`. -/
structure BgetOut (nbuf : Nat) (s : State) (L : Nat → List Nat) (dev blk b : Nat)
    (s1 : State) (L1 : Nat → List Nat) : Prop where
  shape : Shape nbuf s1 L1
  mem : b ∈ L1 (blk % NBUCKETS)
  dev_eq : s1.dev b = dev
  blockno_eq : s1.blockno b = blk
  refcnt : s1.refcnt = upd s.refcnt b ((s.refcnt b + 1) % UINT)
  locked : s1.locked = s.locked
  lkpid : s1.lkpid = s.lkpid
  data : s1.data = s.data
  disk : s1.disk = s.disk
  reads : s1.reads = s.reads
  writes : s1.writes = s.writes
  frame : ∀ x, x ≠ b → s1.dev x = s.dev x ∧ s1.blockno x = s.blockno x ∧ s1.valid x = s.valid x
  sub : ∀ i, i ≠ blk % NBUCKETS → (L1 i).Sublist (L i)
  app : ∃ mv, L1 (blk % NBUCKETS) = L (blk % NBUCKETS) ++ mv ∧
    ∀ c ∈ mv, c ∉ L (blk % NBUCKETS)
  keep : ∀ i x, x ∈ L i → s.refcnt x ≠ 0 → x ∈ L1 i
  inv : Home s L → Acct s L → Home s1 L1 ∧ Acct s1 L1
  kind :
    ((L (blk % NBUCKETS)).find? (sameId s dev blk) = some b ∧ L1 = L ∧ s1.valid = s.valid ∧
      s1.dev = s.dev ∧ s1.blockno = s.blockno ∧ s1.next = s.next ∧ s1.prev = s.prev ∧
      s1.freelist = upd s.freelist (blk % NBUCKETS) (s.freelist (blk % NBUCKETS)
        - (if (s.refcnt b + 1) % UINT = 1 then 1 else 0))) ∨
    ((L (blk % NBUCKETS)).find? (sameId s dev blk) = none ∧
      lastFree s (L1 (blk % NBUCKETS)) = some b ∧ s1.valid b = 0 ∧
      ∃ F, s1.freelist = upd F (blk % NBUCKETS) (F (blk % NBUCKETS) - 1) ∧
        ((s.freelist (blk % NBUCKETS) ≠ 0 ∧ L1 = L ∧ F = s.freelist ∧
            s1.next = s.next ∧ s1.prev = s.prev) ∨
         (s.freelist (blk % NBUCKETS) = 0 ∧ ∃ d, d < NBUCKETS ∧
            find_richest_bucket s = (d : Int) ∧ d ≠ blk % NBUCKETS ∧ 0 < stealCount s d ∧
            L1 = stealLists s L (blk % NBUCKETS) d ∧ F = stealFl s (blk % NBUCKETS) d)))

/-- Why `bget` panics. -/
def PanicWhy (s : State) (L : Nat → List Nat) (dev blk : Nat) : Prop :=
  (L (blk % NBUCKETS)).find? (sameId s dev blk) = none ∧
  ((s.freelist (blk % NBUCKETS) ≠ 0 ∧ lastFree s (L (blk % NBUCKETS)) = none) ∨
   (s.freelist (blk % NBUCKETS) = 0 ∧ find_richest_bucket s < 0) ∨
   (s.freelist (blk % NBUCKETS) = 0 ∧ ∃ d, d < NBUCKETS ∧ find_richest_bucket s = (d : Int) ∧
      d ≠ blk % NBUCKETS ∧
      (stealCount s d = 0 ∨
        (0 < stealCount s d ∧
          lastFree s (stealLists s L (blk % NBUCKETS) d (blk % NBUCKETS)) = none))))

/-- The invariant of the reachable states, for the lists `L` of the buckets:
well-formed lists that partition the pool, held buffers in their home bucket,
counters that do not exceed the free buffers, reference counters that equal
the outstanding references, and lists ordered by release time among the
buffers that `brelse` has placed. -/
structure Inv (nbuf : Nat) (g : Sys) (L : Nat → List Nat) : Prop where
  shape : Shape nbuf g.st L
  home : Home g.st L
  acct : Acct g.st L
  refs : ∀ b, b < nbuf →
    g.st.refcnt b = (if g.st.locked b then 1 else 0) + g.pend b ∧ g.st.refcnt b + 1 < UINT
  order : ∀ i, i < NBUCKETS →
    (L i).Pairwise (fun x y => g.placed x = true → g.placed y = true → g.rel y < g.rel x)
  clock : ∀ b, g.rel b ≤ g.clock
  valid : ∀ b, g.st.valid b = 0 ∨ g.st.valid b = 1

/-- The outcome `r` of a call made in state `s` has not selected the buffer
`b` and has left its fields as they were. -/
def Untouched (s : State) (b : Nat) (r : Res Nat) : Prop :=
  (∀ c s1, r = Res.ok c s1 ∨ r = Res.sleep c s1 → c ≠ b ∧ SameBuf s s1 b) ∧
  (∀ m s1, r = Res.panic m s1 → SameBuf s s1 b)

/-! ## Lock events of one call, and further concrete states -/

/-- Effect of one lock event on the bucket locks that the caller holds, most
recently taken first; `none` when the event breaks the discipline: a bucket
lock is taken while two are held or while the same one is held, a bucket lock
is released that is not the most recently taken one, or an access lock is
acquired while a bucket lock is held. -/
def lockStep (held : List Nat) : Ev → Option (List Nat)
  | Ev.acquire i => if i ∈ held ∨ 2 ≤ held.length then none else some (i :: held)
  | Ev.release i =>
    match held with
    | j :: rest => if i = j then some rest else none
    | [] => none
  | Ev.acquiresleep _ => if held.length = 0 then some held else none
  | Ev.releasesleep _ => some held

/-- The bucket locks held after a sequence of lock events, `none` when one of
the events breaks the discipline. -/
def lockRun : List Nat → List Ev → Option (List Nat)
  | held, [] => some held
  | held, e :: es =>
    match lockStep held e with
    | none => none
    | some held1 => lockRun held1 es

/-- The bucket-lock events of a `bget` for a block of bucket `h` called in
state `s`: either the lock of `h` alone, or the lock of `h` around the two
events of a `steal_buffers (h, d)` for a donor `d` other than `h`. -/
def BgetLocks (nbuf : Nat) (s : State) (h : Nat) (evs : List Ev) : Prop :=
  evs = [Ev.acquire h, Ev.release h] ∨
  ∃ d n s2, d < NBUCKETS ∧ d ≠ h ∧
    steal_buffers nbuf h (d : Int) (logEv s (Ev.acquire h)) = some (n, s2) ∧
    s2.log = s.log ++ [Ev.acquire h] ++ [Ev.acquire d, Ev.release d] ∧
    evs = [Ev.acquire h, Ev.acquire d, Ev.release d, Ev.release h]

/-- The lock events that a call with outcome `r`, made in state `s` for a
block of bucket `h`, has appended to the log. -/
def LocksOut (nbuf : Nat) (s : State) (h : Nat) (r : Res Nat) : Prop :=
  (∀ b s1, r = Res.ok b s1 →
    ∃ evs, BgetLocks nbuf s h evs ∧ s1.log = s.log ++ evs ++ [Ev.acquiresleep b]) ∧
  (∀ b s1, r = Res.sleep b s1 → ∃ evs, BgetLocks nbuf s h evs ∧ s1.log = s.log ++ evs)

/-- After `callsStarve`: the read of block 30, whose `steal_buffers` moves the
free buffers 0 and 13 from bucket 0 to bucket 4. -/
def callsMoved : List Call := callsStarve ++ [Call.bread 1 0 30]

/-- The call sleeps on an access lock. -/
def Res.isSleep {α : Type} : Res α → Bool
  | Res.sleep _ _ => true
  | _ => false

/-- After `callsTwice`: process 3 reads block 13 and sleeps on the access lock
of buffer 0, which process 2 holds; process 2 pins and releases buffer 0,
process 1 releases buffer 13, and the read of process 3 resumes and returns
buffer 0. -/
def callsWait : List Call :=
  callsTwice ++ [Call.bread 3 0 13] ++ [Call.bpin 0, Call.brelse 2 0, Call.brelse 1 13]
    ++ [Call.wake 3 0]

/-! ## Theorems -/

set_option maxRecDepth 100000

theorem upd_same {α : Type} (f : Nat → α) (i : Nat) (v : α) : upd f i v i = v := by
  simp [upd]

theorem upd_other {α : Type} (f : Nat → α) (i j : Nat) (v : α) (h : j ≠ i) :
    upd f i v j = f j := by
  simp [upd, h]

theorem Path.frame {nx pv nx1 pv1 : Nat → Nat} :
    ∀ (l : List Nat) (a z : Nat), Path nx pv a l z →
      (∀ y ∈ a :: l, nx1 y = nx y) → (∀ y ∈ l ++ [z], pv1 y = pv y) → Path nx1 pv1 a l z
  | [], a, z, h, hn, hp => by
    simp only [Path] at h ⊢
    rw [hn a (by simp), hp z (by simp)]
    exact h
  | x :: xs, a, z, h, hn, hp => by
    simp only [Path] at h ⊢
    refine ⟨?_, Path.frame xs x z h.2 (fun y hy => hn y (List.mem_cons_of_mem _ hy))
      (fun y hy => hp y (by simp at hy ⊢; tauto))⟩
    rw [hn a (by simp), hp x (by simp)]
    exact h.1

theorem Path.append {nx pv : Nat → Nat} :
    ∀ (l1 : List Nat) (a x : Nat) (l2 : List Nat) (z : Nat),
      Path nx pv a (l1 ++ x :: l2) z ↔ Path nx pv a l1 x ∧ Path nx pv x l2 z
  | [], a, x, l2, z => by simp [Path]
  | y :: ys, a, x, l2, z => by
    have ih := @Path.append nx pv ys y x l2 z
    show (_ ∧ Path nx pv y (ys ++ x :: l2) z) ↔ (_ ∧ Path nx pv y ys x) ∧ _
    rw [ih]
    tauto

theorem Path.reverse {nx pv : Nat → Nat} :
    ∀ (l : List Nat) (a z : Nat), Path nx pv a l z → Path pv nx z l.reverse a
  | [], a, z, h => by
    simp only [Path, List.reverse_nil] at h ⊢
    exact ⟨h.2, h.1⟩
  | x :: xs, a, z, h => by
    simp only [Path] at h
    rw [List.reverse_cons, Path.append]
    exact ⟨Path.reverse xs x z h.2, by simp only [Path]; exact ⟨h.1.2, h.1.1⟩⟩

theorem Path.next_mem {nx pv : Nat → Nat} {l : List Nat} {a z : Nat}
    (h : Path nx pv a l z) : nx a ∈ l ++ [z] := by
  cases l with
  | nil => simp [Path] at h ⊢; exact h.1
  | cons x xs => simp [Path] at h ⊢; left; exact h.1.1

theorem Path.prev_mem {nx pv : Nat → Nat} {l : List Nat} {a z : Nat}
    (h : Path nx pv a l z) : pv z ∈ a :: l := by
  have h1 := (Path.reverse l a z h).next_mem
  simp at h1 ⊢
  tauto

/-- Pointers after `buf_insert_head`. -/
theorem Path.insert_head {nx pv : Nat → Nat} {h b : Nat} {l : List Nat}
    (hp : Path nx pv h l h) (hb : b ∉ h :: l) (hnd : (h :: l).Nodup) :
    Path (upd (upd nx b (nx h)) h b) (upd (upd pv b h) (nx h) b) h (b :: l) h := by
  have hbh : b ≠ h := fun e => hb (by simp [e])
  cases l with
  | nil =>
    simp only [Path] at hp ⊢
    simp [upd, hp.1, hp.2, hbh]
  | cons x xs =>
    simp only [Path] at hp ⊢
    have hbx : b ≠ x := fun e => hb (by simp [e])
    have hxh : x ≠ h := fun e => by simp [e] at hnd
    refine ⟨?_, ?_, ?_⟩
    · simp [upd, hp.1.1, hbh, hbx]
    · simp [upd, hp.1.1, hbh, hbx, hxh]
    · apply Path.frame xs x h hp.2
      · intro y hy
        have hyh : y ≠ h := fun e => by subst e; simp at hnd; simp at hy; tauto
        have hyb : y ≠ b := fun e => by subst e; exact hb (List.mem_cons_of_mem _ hy)
        simp [upd, hyh, hyb]
      · intro y hy
        have hyx : y ≠ x := by
          intro e; subst e
          simp at hy hnd
          rcases hy with hy | hy
          · exact hnd.2.1 hy
          · exact hxh hy
        have hyb : y ≠ b := by
          intro e; subst e
          simp at hy hb
          rcases hy with hy | hy
          · exact hb.2.2 hy
          · exact hb.1 hy
        simp [upd, hp.1.1, hyx, hyb]

/-- Pointers after `buf_insert_tail`. -/
theorem Path.insert_tail {nx pv : Nat → Nat} {h b : Nat} {l : List Nat}
    (hp : Path nx pv h l h) (hb : b ∉ h :: l) (hnd : (h :: l).Nodup) :
    Path (upd (upd nx b h) (pv h) b) (upd (upd pv b (pv h)) h b) h (l ++ [b]) h := by
  have h1 := Path.reverse l h h hp
  have h2 := Path.insert_head h1 (b := b) (by simpa using hb) (by simpa using hnd)
  have h3 := Path.reverse _ _ _ h2
  simpa using h3

/-- Pointers after the two unlinking statements. -/
theorem Path.unlink {nx pv : Nat → Nat} {b z : Nat} {l2 : List Nat} :
    ∀ (l1 : List Nat) (a : Nat), Path nx pv a (l1 ++ b :: l2) z →
      (a :: (l1 ++ b :: l2)).Nodup → z ∉ l1 ++ b :: l2 →
      Path (upd nx (pv b) (nx b)) (upd pv (nx b) (pv b)) a (l1 ++ l2) z
  | [], a, hp, hnd, hz => by
    simp only [List.nil_append, Path] at hp
    simp only [List.nil_append]
    obtain ⟨⟨h1, h2⟩, h3⟩ := hp
    cases l2 with
    | nil =>
      simp only [Path] at h3 ⊢
      simp [upd, h1, h2, h3.1, h3.2]
    | cons y ys =>
      simp only [Path] at h3 ⊢
      obtain ⟨⟨h4, h5⟩, h6⟩ := h3
      refine ⟨by simp [upd, h2, h4], ?_⟩
      apply Path.frame ys y z h6
      · intro w hw
        have : w ≠ a := by
          intro e; subst e
          simp at hnd hw
          rcases hw with hw | hw
          · exact hnd.1.2.1 hw
          · exact hnd.1.2.2 hw
        simp [upd, h2, this]
      · intro w hw
        have : w ≠ y := by
          intro e; subst e
          simp at hnd hw hz
          rcases hw with hw | hw
          · exact hnd.2.2.1 hw
          · exact hz.2.1 hw.symm
        simp [upd, h4, this]
  | x :: xs, a, hp, hnd, hz => by
    simp only [List.cons_append, Path] at hp ⊢
    obtain ⟨⟨h1, h2⟩, h3⟩ := hp
    have ih := Path.unlink xs x h3 (List.nodup_cons.1 hnd).2
      (fun hm => hz (List.mem_cons_of_mem _ hm))
    refine ⟨?_, ih⟩
    have hpb : pv b ∈ x :: xs := ((Path.append xs x b l2 z).1 h3).1.prev_mem
    have hnb : nx b ∈ l2 ++ [z] := ((Path.append xs x b l2 z).1 h3).2.next_mem
    have ha : a ≠ pv b := by
      intro e; rw [← e] at hpb
      simp at hnd hpb
      rcases hpb with hpb | hpb
      · exact hnd.1.1 hpb
      · exact hnd.1.2.1 hpb
    have hx : x ≠ nx b := by
      intro e; rw [← e] at hnb
      simp at hnd hnb hz
      rcases hnb with hnb | hnb
      · exact hnd.2.1.2.2 hnb
      · exact hz.1 hnb.symm
    simp [upd, ha, hx, h1, h2]

theorem hit_scan_path (s : State) (h dev blk : Nat) :
    ∀ (l : List Nat) (a fuel : Nat), Path s.next s.prev a l h → h ∉ l → l.length < fuel →
      hit_scan s h dev blk fuel (s.next a)
        = some (l.find? (fun c => decide (s.dev c = dev ∧ s.blockno c = blk)))
  | [], a, fuel, hp, _, hf => by
    obtain ⟨k, rfl⟩ : ∃ k, fuel = k + 1 := ⟨fuel - 1, by simp at hf; omega⟩
    simp only [Path] at hp
    simp [hit_scan, hp.1]
  | x :: xs, a, fuel, hp, hh, hf => by
    obtain ⟨k, rfl⟩ : ∃ k, fuel = k + 1 := ⟨fuel - 1, by simp at hf; omega⟩
    simp only [Path] at hp
    have hxh : x ≠ h := fun e => hh (by simp [e])
    have ih := hit_scan_path s h dev blk xs x k hp.2 (fun hm => hh (List.mem_cons_of_mem _ hm))
      (by simp at hf; omega)
    rw [hp.1.1]
    simp only [hit_scan, hxh, if_false, List.find?_cons]
    by_cases hm : s.dev x = dev ∧ s.blockno x = blk
    · simp [hm]
    · simp only [hm, if_false, decide_False]
      exact ih

theorem lru_scan_path (s : State) (h : Nat) :
    ∀ (l : List Nat) (a fuel : Nat), Path s.prev s.next a l h → h ∉ l → l.length < fuel →
      lru_scan s h fuel (s.prev a) = some (l.find? (fun c => decide (s.refcnt c = 0)))
  | [], a, fuel, hp, _, hf => by
    obtain ⟨k, rfl⟩ : ∃ k, fuel = k + 1 := ⟨fuel - 1, by simp at hf; omega⟩
    simp only [Path] at hp
    simp [lru_scan, hp.1]
  | x :: xs, a, fuel, hp, hh, hf => by
    obtain ⟨k, rfl⟩ : ∃ k, fuel = k + 1 := ⟨fuel - 1, by simp at hf; omega⟩
    simp only [Path] at hp
    have hxh : x ≠ h := fun e => hh (by simp [e])
    have ih := lru_scan_path s h xs x k hp.2 (fun hm => hh (List.mem_cons_of_mem _ hm))
      (by simp at hf; omega)
    rw [hp.1.1]
    simp only [lru_scan, hxh, if_false, List.find?_cons]
    by_cases hm : s.refcnt x = 0
    · simp [hm]
    · simp only [hm, if_false, decide_False]
      exact ih

theorem walk_path (s : State) (h : Nat) :
    ∀ (l : List Nat) (a fuel : Nat), Path s.next s.prev a l h → h ∉ l → l.length < fuel →
      walk s h fuel (s.next a) = l
  | [], a, fuel, hp, _, hf => by
    obtain ⟨k, rfl⟩ : ∃ k, fuel = k + 1 := ⟨fuel - 1, by simp at hf; omega⟩
    simp only [Path] at hp
    simp [walk, hp.1]
  | x :: xs, a, fuel, hp, hh, hf => by
    obtain ⟨k, rfl⟩ : ∃ k, fuel = k + 1 := ⟨fuel - 1, by simp at hf; omega⟩
    simp only [Path] at hp
    have hxh : x ≠ h := fun e => hh (by simp [e])
    have ih := walk_path s h xs x k hp.2 (fun hm => hh (List.mem_cons_of_mem _ hm))
      (by simp at hf; omega)
    rw [hp.1.1]
    simp only [walk, hxh, if_false, ih]

theorem buf_insert_head_next (s : State) (h b : Nat) :
    (buf_insert_head s h b).next = upd (upd s.next b (s.next h)) h b := rfl

theorem buf_insert_head_prev (s : State) (h b : Nat) :
    (buf_insert_head s h b).prev = upd (upd s.prev b h) (s.next h) b := by
  simp [buf_insert_head, upd]

theorem buf_insert_tail_prev (s : State) (h b : Nat) :
    (buf_insert_tail s h b).prev = upd (upd s.prev b (s.prev h)) h b := rfl

theorem buf_insert_tail_next (s : State) (h b : Nat) :
    (buf_insert_tail s h b).next = upd (upd s.next b h) (s.prev h) b := by
  simp [buf_insert_tail, upd]

theorem buf_unlink_prev (s : State) (b : Nat) :
    (buf_unlink s b).prev = upd s.prev (s.next b) (s.prev b) := rfl

theorem buf_unlink_next (s : State) (b : Nat) :
    (buf_unlink s b).next = upd s.next (s.prev b) (s.next b) := by
  simp [buf_unlink, upd]

theorem nodup_length_le {l : List Nat} {n : Nat} (hnd : l.Nodup) (hlt : ∀ b ∈ l, b < n) :
    l.length ≤ n := by
  have hsub : l ⊆ List.range n := fun b hb => List.mem_range.2 (hlt b hb)
  have := (List.subperm_of_subset hnd hsub).length_le
  simpa using this

theorem Rings.head_nodup {nbuf : Nat} {nx pv : Nat → Nat} {L : Nat → List Nat}
    (R : Rings nbuf nx pv L) {i : Nat} (hi : i < NBUCKETS) : ((nbuf + i) :: L i).Nodup := by
  refine List.nodup_cons.2 ⟨fun hm => ?_, R.nodup i hi⟩
  have := R.lt i hi _ hm
  omega

theorem Rings.length_lt {nbuf : Nat} {nx pv : Nat → Nat} {L : Nat → List Nat}
    (R : Rings nbuf nx pv L) {i : Nat} (hi : i < NBUCKETS) : (L i).length < scanFuel nbuf := by
  have := nodup_length_le (R.nodup i hi) (R.lt i hi)
  simp only [scanFuel]; omega

theorem Rings.head_not_mem {nbuf : Nat} {nx pv : Nat → Nat} {L : Nat → List Nat}
    (R : Rings nbuf nx pv L) {i : Nat} (hi : i < NBUCKETS) (j : Nat) : nbuf + j ∉ L i := by
  intro hm
  have := R.lt i hi _ hm
  omega

/-- Replace the list of bucket `i`, when the pointers of the other lists are
untouched. -/
theorem Rings.update {nbuf : Nat} {nx pv nx1 pv1 : Nat → Nat} {L : Nat → List Nat}
    (R : Rings nbuf nx pv L) {i : Nat} (hi : i < NBUCKETS) {l : List Nat}
    (hp : Path nx1 pv1 (nbuf + i) l (nbuf + i)) (hlt : ∀ b ∈ l, b < nbuf) (hnd : l.Nodup)
    (hdj : ∀ j, j < NBUCKETS → j ≠ i → ∀ b ∈ l, b ∉ L j)
    (hfr : ∀ j, j < NBUCKETS → j ≠ i → ∀ y ∈ (nbuf + j) :: L j, nx1 y = nx y ∧ pv1 y = pv y) :
    Rings nbuf nx1 pv1 (upd L i l) := by
  constructor
  · intro j hj
    by_cases hji : j = i
    · subst hji; simpa [upd] using hp
    · simp only [upd, hji, if_false]
      apply Path.frame _ _ _ (R.path j hj)
      · intro y hy; exact (hfr j hj hji y hy).1
      · intro y hy
        refine (hfr j hj hji y ?_).2
        simp at hy ⊢; tauto
  · intro j hj b hb
    by_cases hji : j = i
    · subst hji; simp [upd] at hb; exact hlt b hb
    · simp only [upd, hji, if_false] at hb; exact R.lt j hj b hb
  · intro j hj
    by_cases hji : j = i
    · subst hji; simpa [upd] using hnd
    · simp only [upd, hji, if_false]; exact R.nodup j hj
  · intro j k hj hk b hbj hbk
    by_cases hji : j = i <;> by_cases hki : k = i
    · rw [hji, hki]
    · subst hji
      simp only [upd, hki, if_false] at hbk
      simp [upd] at hbj
      exact absurd hbk (hdj k hk hki b hbj)
    · subst hki
      simp only [upd, hji, if_false] at hbj
      simp [upd] at hbk
      exact absurd hbj (hdj j hj hji b hbk)
    · simp only [upd, hji, hki, if_false] at hbj hbk
      exact R.disj j k hj hk b hbj hbk

theorem Rings.ring_insert_head {nbuf : Nat} {s : State} {L : Nat → List Nat}
    (R : Rings nbuf s.next s.prev L) {i b : Nat} (hi : i < NBUCKETS) (hb : b < nbuf)
    (hfree : ∀ j, j < NBUCKETS → b ∉ L j) :
    Rings nbuf (buf_insert_head s (nbuf + i) b).next (buf_insert_head s (nbuf + i) b).prev
      (upd L i (b :: L i)) := by
  rw [buf_insert_head_next, buf_insert_head_prev]
  have hnx := (R.path i hi).next_mem
  apply R.update hi
  · apply Path.insert_head (R.path i hi) _ (R.head_nodup hi)
    simp only [List.mem_cons, not_or]
    exact ⟨by omega, hfree i hi⟩
  · intro c hc
    simp at hc
    rcases hc with rfl | hc
    · exact hb
    · exact R.lt i hi c hc
  · exact List.nodup_cons.2 ⟨hfree i hi, R.nodup i hi⟩
  · intro j hj hji c hc hcj
    simp at hc
    rcases hc with rfl | hc
    · exact hfree j hj hcj
    · exact hji (R.disj j i hj hi c hcj hc)
  · intro j hj hji y hy
    have hyb : y ≠ b := by
      intro e; subst e
      simp at hy
      rcases hy with hy | hy
      · omega
      · exact hfree j hj hy
    have hyi : y ≠ nbuf + i := by
      intro e; subst e
      simp at hy
      rcases hy with hy | hy
      · omega
      · exact R.head_not_mem hj i hy
    have hyn : y ≠ s.next (nbuf + i) := by
      intro e
      rw [← e] at hnx
      simp at hnx
      rcases hnx with hnx | hnx
      · simp at hy
        rcases hy with hy | hy
        · subst hy; exact R.head_not_mem hi j hnx
        · exact hji (R.disj j i hj hi y hy hnx)
      · exact hyi hnx
    simp [upd, hyb, hyi, hyn]

theorem Rings.ring_insert_tail {nbuf : Nat} {s : State} {L : Nat → List Nat}
    (R : Rings nbuf s.next s.prev L) {i b : Nat} (hi : i < NBUCKETS) (hb : b < nbuf)
    (hfree : ∀ j, j < NBUCKETS → b ∉ L j) :
    Rings nbuf (buf_insert_tail s (nbuf + i) b).next (buf_insert_tail s (nbuf + i) b).prev
      (upd L i (L i ++ [b])) := by
  rw [buf_insert_tail_next, buf_insert_tail_prev]
  have hpv := (R.path i hi).prev_mem
  apply R.update hi
  · apply Path.insert_tail (R.path i hi) _ (R.head_nodup hi)
    simp only [List.mem_cons, not_or]
    exact ⟨by omega, hfree i hi⟩
  · intro c hc
    simp at hc
    rcases hc with hc | rfl
    · exact R.lt i hi c hc
    · exact hb
  · refine List.Nodup.append (R.nodup i hi) (List.nodup_singleton b) ?_
    intro c hc hcb
    simp at hcb; subst hcb
    exact hfree i hi hc
  · intro j hj hji c hc hcj
    simp at hc
    rcases hc with hc | rfl
    · exact hji (R.disj j i hj hi c hcj hc)
    · exact hfree j hj hcj
  · intro j hj hji y hy
    have hyb : y ≠ b := by
      intro e; subst e
      simp at hy
      rcases hy with hy | hy
      · omega
      · exact hfree j hj hy
    have hyi : y ≠ nbuf + i := by
      intro e; subst e
      simp at hy
      rcases hy with hy | hy
      · omega
      · exact R.head_not_mem hj i hy
    have hyn : y ≠ s.prev (nbuf + i) := by
      intro e
      rw [← e] at hpv
      simp at hpv
      rcases hpv with hpv | hpv
      · exact hyi hpv
      · simp at hy
        rcases hy with hy | hy
        · subst hy; exact R.head_not_mem hi j hpv
        · exact hji (R.disj j i hj hi y hy hpv)
    simp [upd, hyb, hyi, hyn]

theorem Rings.ring_unlink {nbuf : Nat} {s : State} {L : Nat → List Nat}
    (R : Rings nbuf s.next s.prev L) {i b : Nat} (hi : i < NBUCKETS) (hb : b ∈ L i) :
    Rings nbuf (buf_unlink s b).next (buf_unlink s b).prev (upd L i ((L i).erase b)) := by
  rw [buf_unlink_next, buf_unlink_prev]
  obtain ⟨l1, l2, hl⟩ := List.mem_iff_append.1 hb
  have hnd := R.head_nodup hi
  have hpath := R.path i hi
  have hhead : nbuf + i ∉ L i := R.head_not_mem hi i
  have herase : (L i).erase b = l1 ++ l2 := by
    have hnd2 := R.nodup i hi
    rw [hl] at hnd2 ⊢
    have hb1 : b ∉ l1 := by
      intro hm
      have := List.nodup_append.1 hnd2
      exact this.2.2 hm (List.mem_cons_self _ _)
    rw [List.erase_append_right _ hb1]
    simp
  have hpb : s.prev b ∈ (nbuf + i) :: l1 := by
    rw [hl] at hpath
    exact ((Path.append l1 _ b l2 _).1 hpath).1.prev_mem
  have hnb : s.next b ∈ l2 ++ [nbuf + i] := by
    rw [hl] at hpath
    exact ((Path.append l1 _ b l2 _).1 hpath).2.next_mem
  apply R.update hi
  · rw [herase]
    rw [hl] at hpath hnd hhead
    exact Path.unlink l1 _ hpath hnd hhead
  · intro c hc
    exact R.lt i hi c (List.mem_of_mem_erase hc)
  · exact (R.nodup i hi).erase b
  · intro j hj hji c hc hcj
    exact hji (R.disj j i hj hi c hcj (List.mem_of_mem_erase hc))
  · intro j hj hji y hy
    have hyI : y ∉ (nbuf + i) :: L i := by
      intro hm
      simp at hy hm
      rcases hy with hy | hy <;> rcases hm with hm | hm
      · omega
      · subst hy; exact R.head_not_mem hi j hm
      · subst hm; exact R.head_not_mem hj i hy
      · exact hji (R.disj j i hj hi y hy hm)
    have h1 : y ≠ s.prev b := by
      intro e; rw [← e] at hpb
      apply hyI
      rw [hl]
      simp at hpb ⊢
      tauto
    have h2 : y ≠ s.next b := by
      intro e; rw [← e] at hnb
      apply hyI
      rw [hl]
      simp at hnb ⊢
      tauto
    simp [upd, h1, h2]

theorem lastFree_some {s : State} {l : List Nat} {b : Nat} (h : lastFree s l = some b) :
    b ∈ l ∧ s.refcnt b = 0 := by
  unfold lastFree at h
  have h1 := List.mem_of_find?_eq_some h
  have h2 := List.find?_some h
  simp [isFree] at h2
  exact ⟨by simpa using h1, h2⟩

theorem lastFree_none {s : State} {l : List Nat} (h : lastFree s l = none) :
    ∀ b ∈ l, s.refcnt b ≠ 0 := by
  unfold lastFree at h
  intro b hb
  have := List.find?_eq_none.1 h b (by simpa using hb)
  simpa [isFree] using this

theorem lru_scan_ring {nbuf : Nat} {s : State} {L : Nat → List Nat}
    (R : Rings nbuf s.next s.prev L) {j : Nat} (hj : j < NBUCKETS) :
    lru_scan s (nbuf + j) (scanFuel nbuf) (s.prev (nbuf + j)) = some (lastFree s (L j)) := by
  have h := lru_scan_path s (nbuf + j) (L j).reverse (nbuf + j) (scanFuel nbuf)
    (Path.reverse _ _ _ (R.path j hj)) (by simpa using R.head_not_mem hj j)
    (by simpa using R.length_lt hj)
  simpa [lastFree, isFree] using h

theorem hit_scan_ring {nbuf : Nat} {s : State} {L : Nat → List Nat}
    (R : Rings nbuf s.next s.prev L) {j : Nat} (hj : j < NBUCKETS) (dev blk : Nat) :
    hit_scan s (nbuf + j) dev blk (scanFuel nbuf) (s.next (nbuf + j))
      = some ((L j).find? (sameId s dev blk)) :=
  hit_scan_path s (nbuf + j) dev blk (L j) (nbuf + j) (scanFuel nbuf) (R.path j hj)
    (R.head_not_mem hj j) (R.length_lt hj)

theorem bucketList_ring {nbuf : Nat} {s : State} {L : Nat → List Nat}
    (R : Rings nbuf s.next s.prev L) {j : Nat} (hj : j < NBUCKETS) :
    bucketList nbuf s j = L j :=
  walk_path s (nbuf + j) (L j) (nbuf + j) (scanFuel nbuf) (R.path j hj)
    (R.head_not_mem hj j) (R.length_lt hj)

theorem buf_remove_lru_ring {nbuf : Nat} {s : State} {L : Nat → List Nat}
    (R : Rings nbuf s.next s.prev L) {j : Nat} (hj : j < NBUCKETS) :
    buf_remove_lru nbuf s (bucketAddr nbuf j)
      = some (match lastFree s (L j) with
              | none => (none, s)
              | some b => (some b, buf_unlink s b)) := by
  simp only [buf_remove_lru, bucketAddr, lru_scan_ring R hj]
  cases lastFree s (L j) <;> rfl

theorem upd_upd_same {α : Type} (f : Nat → α) (i : Nat) (v w : α) :
    upd (upd f i v) i w = upd f i w := by
  funext j; simp only [upd]; split <;> rfl

theorem upd_comm {α : Type} (f : Nat → α) (i j : Nat) (v w : α) (h : i ≠ j) :
    upd (upd f i v) j w = upd (upd f j w) i v := by
  funext k; simp only [upd]
  by_cases h1 : k = j <;> by_cases h2 : k = i
  · subst h1; subst h2; exact absurd rfl h
  · subst h1; simp [h2]
  · subst h2; simp [h1]
  · simp [h1, h2]

theorem upd_self {α : Type} (f : Nat → α) (i : Nat) : upd f i (f i) = f := by
  funext j; simp only [upd]; split
  · subst_vars; rfl
  · rfl

theorem Relinked.refl (s : State) : Relinked s s := rfl

theorem Relinked.trans {s s1 s2 : State} (h1 : Relinked s s1) (h2 : Relinked s1 s2) :
    Relinked s s2 := by
  unfold Relinked at *
  rw [h2, h1]

theorem stealL_congr (s s1 : State) (h : s1.refcnt = s.refcnt) :
    ∀ (k : Nat) (ld lt : List Nat), stealL s1 k ld lt = stealL s k ld lt
  | 0, _, _ => rfl
  | k + 1, ld, lt => by
    have e : lastFree s1 ld = lastFree s ld := by
      have : isFree s1 = isFree s := by funext c; simp [isFree, h]
      simp [lastFree, this]
    simp only [stealL, e]
    cases lastFree s ld with
    | none => exact stealL_congr s s1 h k ld lt
    | some b => exact stealL_congr s s1 h k _ _

/-- The loop of `steal_buffers` ends, changes only the link pointers, and
moves buffers between the two lists as `stealL` says. -/
theorem steal_loop_spec (nbuf t d : Nat) (ht : t < NBUCKETS) (hd : d < NBUCKETS) (hdt : d ≠ t) :
    ∀ (k : Nat) (s : State) (L : Nat → List Nat), Rings nbuf s.next s.prev L →
      ∃ s1, steal_loop nbuf t d k s = some s1 ∧ Relinked s s1 ∧
        Rings nbuf s1.next s1.prev
          (upd (upd L d (stealL s k (L d) (L t)).1) t (stealL s k (L d) (L t)).2)
  | 0, s, L, R => by
    refine ⟨s, rfl, rfl, ?_⟩
    simpa [stealL, upd_self] using R
  | k + 1, s, L, R => by
    simp only [steal_loop, buf_remove_lru_ring R hd, stealL]
    cases hlf : lastFree s (L d) with
    | none => exact steal_loop_spec nbuf t d ht hd hdt k s L R
    | some b =>
      simp only
      have hb := lastFree_some hlf
      have R1 := R.ring_unlink hd hb.1
      have hbn : b < nbuf := R.lt d hd b hb.1
      have R2 := R1.ring_insert_tail (b := b) ht hbn (by
        intro j hj
        by_cases hjd : j = d
        · subst hjd
          simp only [upd, if_true]
          exact fun hm => ((List.Nodup.mem_erase_iff (R.nodup j hj)).1 hm).1 rfl
        · simp only [upd, hjd, if_false]
          exact fun hm => hjd (R.disj j d hj hd b hm hb.1))
      obtain ⟨s1, h1, h2, h3⟩ := steal_loop_spec nbuf t d ht hd hdt k _ _ R2
      have hrl : Relinked s (buf_insert_tail (buf_unlink s b) (nbuf + t) b) := rfl
      refine ⟨s1, h1, Relinked.trans hrl h2, ?_⟩
      rw [stealL_congr s (buf_insert_tail (buf_unlink s b) (nbuf + t) b) rfl] at h3
      simp only [upd_same, upd_other _ _ _ _ hdt, upd_other _ _ _ _ hdt.symm] at h3
      convert h3 using 1
      funext j
      simp only [upd]
      by_cases hjt : j = t <;> by_cases hjd : j = d <;> simp [hjt, hjd]

theorem nfree_erase {s : State} {l : List Nat} {b : Nat} (hb : b ∈ l) (hf : s.refcnt b = 0) :
    nfree s (l.erase b) + 1 = nfree s l := by
  unfold nfree
  have h := ((List.perm_cons_erase hb).filter (isFree s)).length_eq
  have h1 : isFree s b = true := by simp [isFree, hf]
  rw [List.filter_cons_of_pos h1] at h
  simp at h
  omega

theorem nfree_append (s : State) (l1 l2 : List Nat) :
    nfree s (l1 ++ l2) = nfree s l1 + nfree s l2 := by
  simp [nfree]

theorem lastFree_eq_none_iff {s : State} {l : List Nat} : lastFree s l = none ↔ nfree s l = 0 := by
  unfold lastFree nfree
  rw [List.find?_eq_none, List.length_eq_zero, List.filter_eq_nil_iff]
  simp

theorem stealL_spec (s : State) :
    ∀ (k : Nat) (ld lt : List Nat), ld.Nodup →
      StealSpec s k ld lt (stealL s k ld lt).1 (stealL s k ld lt).2
  | 0, ld, lt, _ => by
    refine ⟨⟨[], by simp [stealL], by simp, by simp, by simp, by simp [stealL]⟩,
      List.Sublist.refl _, by simp [stealL]⟩
  | k + 1, ld, lt, hnd => by
    simp only [stealL]
    cases hlf : lastFree s ld with
    | none =>
      have h0 := lastFree_eq_none_iff.1 hlf
      have ih := stealL_spec s k ld lt hnd
      simp only
      obtain ⟨mv, h1, h2, h3, h4, h5⟩ := ih.moved
      exact ⟨⟨mv, h1, h2, by rw [h3, h0]; simp, h4, h5⟩, ih.sub, by
        have := ih.count; rw [h0] at this ⊢; simpa using this⟩
    | some b =>
      simp only
      have hb := lastFree_some hlf
      have ih := stealL_spec s k (ld.erase b) (lt ++ [b]) (hnd.erase b)
      have hn := nfree_erase hb.1 hb.2
      have hbe : b ∉ ld.erase b := fun hm => ((List.Nodup.mem_erase_iff hnd).1 hm).1 rfl
      obtain ⟨mv, h1, h2, h3, h4, h5⟩ := ih.moved
      refine ⟨⟨b :: mv, ?_, ?_, ?_, ?_, ?_⟩, ih.sub.trans (List.erase_sublist b ld), ?_⟩
      · rw [h1]; simp
      · refine List.nodup_cons.2 ⟨fun hm => hbe (h4 b hm).2.1, h2⟩
      · simp only [List.length_cons, h3]; omega
      · intro c hc
        simp at hc
        rcases hc with rfl | hc
        · exact ⟨hb.2, hb.1, fun hm => hbe (ih.sub.subset hm)⟩
        · exact ⟨(h4 c hc).1, List.mem_of_mem_erase (h4 c hc).2.1, (h4 c hc).2.2⟩
      · intro c hc
        by_cases hcb : c = b
        · right; simp [hcb]
        · rcases h5 c ((List.mem_erase_of_ne hcb).2 hc) with h | h
          · left; exact h
          · right; simp [h]
      · have := ih.count
        omega

theorem find_richest_loop_spec (s : State) :
    ∀ (n a : Nat) (acc : Int × Int), RichestUpTo s a acc →
      RichestUpTo s (a + n) (find_richest_loop s (List.range' a n) acc)
  | 0, a, acc, h => by simpa [find_richest_loop] using h
  | n + 1, a, acc, h => by
    rw [List.range'_succ]
    simp only [find_richest_loop]
    have e : a + (n + 1) = (a + 1) + n := by omega
    rw [e]
    split
    · rename_i hgt
      apply find_richest_loop_spec s n (a + 1)
      right
      refine ⟨a, by omega, rfl, rfl, ?_, ?_, ?_⟩
      · rcases h with ⟨_, h0, _⟩ | ⟨d, _, _, h1, h2, _⟩
        · omega
        · omega
      · intro i hi
        rcases h with ⟨_, h0, h3⟩ | ⟨d, _, _, h1, _, h3, _⟩
        · rcases Nat.lt_succ_iff_lt_or_eq.1 hi with hi | rfl
          · have := h3 i hi; omega
          · exact le_refl _
        · rcases Nat.lt_succ_iff_lt_or_eq.1 hi with hi | rfl
          · have := h3 i hi; omega
          · exact le_refl _
      · intro i hi
        rcases h with ⟨_, h0, h3⟩ | ⟨d, _, _, h1, _, h3, _⟩
        · have := h3 i hi; omega
        · have := h3 i hi; omega
    · rename_i hle
      apply find_richest_loop_spec s n (a + 1)
      rcases h with ⟨h1, h0, h3⟩ | ⟨d, hd, h1, h2, h3, h4, h5⟩
      · left
        refine ⟨h1, h0, fun i hi => ?_⟩
        rcases Nat.lt_succ_iff_lt_or_eq.1 hi with hi | rfl
        · exact h3 i hi
        · omega
      · right
        refine ⟨d, by omega, h1, h2, h3, fun i hi => ?_, h5⟩
        rcases Nat.lt_succ_iff_lt_or_eq.1 hi with hi | rfl
        · exact h4 i hi
        · omega

/-- Result of `find_richest_bucket`: `-1` when no counter is positive, else the
lowest index among the buckets with the largest counter. -/
theorem find_richest_spec (s : State) :
    (find_richest_bucket s = -1 ∧ ∀ i, i < NBUCKETS → s.freelist i ≤ 0) ∨
    (∃ d, d < NBUCKETS ∧ find_richest_bucket s = (d : Int) ∧ 0 < s.freelist d ∧
      (∀ i, i < NBUCKETS → s.freelist i ≤ s.freelist d) ∧
      ∀ i, i < d → s.freelist i < s.freelist d) := by
  have h := find_richest_loop_spec s NBUCKETS 0 (0, -1) (Or.inl ⟨rfl, rfl, fun i hi => by omega⟩)
  rw [← List.range_eq_range', Nat.zero_add] at h
  rcases h with ⟨h1, _, h3⟩ | ⟨d, hd, h1, _, h3, h4, h5⟩
  · exact Or.inl ⟨h1, h3⟩
  · exact Or.inr ⟨d, hd, h1, h3, h4, h5⟩

/-- On well-formed lists `steal_buffers` returns `steal_count`, rewrites the
counters and the links and nothing else. -/
theorem steal_buffers_spec {nbuf : Nat} {s : State} {L : Nat → List Nat}
    (R : Rings nbuf s.next s.prev L) {t d : Nat} (ht : t < NBUCKETS) (hd : d < NBUCKETS)
    (hdt : d ≠ t) :
    ∃ s1, steal_buffers nbuf t (d : Int) s = some (stealCount s d, s1) ∧
      s1 = { s with next := s1.next, prev := s1.prev, freelist := stealFl s t d,
                    log := s.log ++ [Ev.acquire d, Ev.release d] } ∧
      Rings nbuf s1.next s1.prev (stealLists s L t d) := by
  have hnn : ¬ ((d : Int) < 0) := by omega
  simp only [steal_buffers, hnn, if_false, Int.toNat_ofNat, logEv]
  by_cases hk : 0 < stealCount s d
  · have hk1 : Int.tdiv (s.freelist d) 2 > 0 := hk
    simp only [hk1, if_true]
    obtain ⟨s1, h1, h2, h3⟩ := steal_loop_spec nbuf t d ht hd hdt (stealCount s d).toNat
      { s with freelist := stealFl s t d, log := s.log ++ [Ev.acquire d] } L R
    have hfl : stealFl s t d
        = upd (upd s.freelist t (s.freelist t + Int.tdiv (s.freelist d) 2)) d
            (upd s.freelist t (s.freelist t + Int.tdiv (s.freelist d) 2) d
              - Int.tdiv (s.freelist d) 2) := by
      unfold stealFl; rw [if_pos hk]; rfl
    rw [hfl] at h1
    simp only [stealCount] at h1 ⊢
    rw [h1]
    refine ⟨_, rfl, ?_, ?_⟩
    · unfold Relinked at h2
      rw [h2]
      simp
    · rw [stealL_congr s
        { s with freelist := stealFl s t d, log := s.log ++ [Ev.acquire d] } rfl] at h3
      unfold stealLists
      rw [if_pos hk]
      exact h3
  · have hk1 : ¬ Int.tdiv (s.freelist d) 2 > 0 := hk
    simp only [hk1, if_false]
    refine ⟨_, rfl, ?_, ?_⟩
    · simp [stealFl, hk]
    · simpa [stealLists, hk] using R

theorem nfree_congr {s s1 : State} {l : List Nat} (h : ∀ x ∈ l, s1.refcnt x = s.refcnt x) :
    nfree s1 l = nfree s l := by
  unfold nfree
  congr 1
  apply List.filter_congr
  intro x hx
  simp [isFree, h x hx]

theorem nfree_cons (s : State) (b : Nat) (l : List Nat) :
    nfree s (b :: l) = (if s.refcnt b = 0 then 1 else 0) + nfree s l := by
  unfold nfree
  by_cases h : s.refcnt b = 0
  · simp [isFree, h]; omega
  · simp [isFree, h]

/-- Free count of a list when only the counter of `b` changes. -/
theorem nfree_upd (s s1 : State) {l : List Nat} {b : Nat} (hnd : l.Nodup) (hb : b ∈ l)
    (h : ∀ x, x ≠ b → s1.refcnt x = s.refcnt x) :
    nfree s1 l + (if s.refcnt b = 0 then 1 else 0)
      = nfree s l + (if s1.refcnt b = 0 then 1 else 0) := by
  have hbe : b ∉ l.erase b := fun hm => ((List.Nodup.mem_erase_iff hnd).1 hm).1 rfl
  have e : nfree s1 (l.erase b) = nfree s (l.erase b) :=
    nfree_congr (fun x hx => h x (fun e => hbe (e ▸ hx)))
  have p1 : nfree s1 l = nfree s1 (b :: l.erase b) := by
    unfold nfree; exact ((List.perm_cons_erase hb).filter _).length_eq
  have p2 : nfree s l = nfree s (b :: l.erase b) := by
    unfold nfree; exact ((List.perm_cons_erase hb).filter _).length_eq
  rw [p1, p2, nfree_cons, nfree_cons, e]
  omega

theorem Home.home_congr {s s1 : State} {L : Nat → List Nat} (h : Home s L)
    (hb : s1.blockno = s.blockno) (hr : s1.refcnt = s.refcnt) : Home s1 L := by
  intro i hi b hbi hrb
  rw [hb]
  rw [hr] at hrb
  exact h i hi b hbi hrb

theorem Acct.acct_congr {s s1 : State} {L : Nat → List Nat} (h : Acct s L)
    (hf : s1.freelist = s.freelist) (hr : s1.refcnt = s.refcnt) : Acct s1 L := by
  intro i hi
  rw [hf, nfree_congr (s := s) (fun x _ => by rw [hr])]
  exact h i hi

theorem Shape.shape_congr {nbuf : Nat} {s s1 : State} {L : Nat → List Nat} (h : Shape nbuf s L)
    (hn : s1.next = s.next) (hp : s1.prev = s.prev) : Shape nbuf s1 L :=
  ⟨by rw [hn, hp]; exact h.rings, h.cover⟩

/-- `Home` when only the counter of one buffer changes. -/
theorem Home.refcnt {s : State} (s1 : State) {L : Nat → List Nat} (b : Nat) (h : Home s L)
    (hbn : s1.blockno = s.blockno) (hr : ∀ x, x ≠ b → s1.refcnt x = s.refcnt x)
    (hb : s1.refcnt b ≠ 0 → ∀ i, i < NBUCKETS → b ∈ L i → s.blockno b % NBUCKETS = i) :
    Home s1 L := by
  intro i hi x hxi hrx
  rw [hbn]
  by_cases hxb : x = b
  · subst hxb; exact hb hrx i hi hxi
  · rw [hr x hxb] at hrx
    exact h i hi x hxi hrx

/-- `Acct` when the counter of one buffer of bucket `h` changes. -/
theorem Acct.step {nbuf : Nat} {s : State} (s1 : State) {L : Nat → List Nat} (b : Nat) {h : Nat}
    (R : Rings nbuf s.next s.prev L) (A : Acct s L) (hh : h < NBUCKETS) (hb : b ∈ L h)
    (hr : ∀ x, x ≠ b → s1.refcnt x = s.refcnt x)
    (hf : ∀ i, i ≠ h → s1.freelist i = s.freelist i)
    (hfh : s1.freelist h + (if s.refcnt b = 0 then 1 else 0)
      ≤ s.freelist h + (if s1.refcnt b = 0 then 1 else 0)) : Acct s1 L := by
  intro i hi
  by_cases hih : i = h
  · subst hih
    have := nfree_upd s s1 (R.nodup i hi) hb hr
    have A1 := A i hi
    split_ifs at hfh this <;> omega
  · rw [hf i hih, nfree_congr (s := s) (fun x hx => hr x (fun e => hih (R.disj i h hi hh x hx (e ▸ hb))))]
    exact A i hi

theorem stealCount_of_nonneg {s : State} {d : Nat} (h : 0 ≤ s.freelist d) :
    stealCount s d = s.freelist d / 2 :=
  Int.tdiv_eq_ediv h (by decide)

theorem stealCount_pos {s : State} {d : Nat} (h : 0 < stealCount s d) :
    2 ≤ s.freelist d ∧ stealCount s d = s.freelist d / 2 := by
  have h0 : 0 ≤ s.freelist d := by
    by_contra hc
    have h1 : 0 ≤ -s.freelist d := by omega
    have h2 := Int.tdiv_nonneg h1 (show (0 : Int) ≤ 2 by decide)
    rw [Int.neg_tdiv] at h2
    unfold stealCount at h
    omega
  have e := stealCount_of_nonneg h0
  rw [e] at h
  exact ⟨by omega, e⟩

/-- The invariants of the lists survive the release of the last reference. -/
theorem release_inv {nbuf : Nat} {s : State} (s1 : State) {L : Nat → List Nat} {h b : Nat}
    (S : Shape nbuf s L) (H : Home s L) (A : Acct s L) (hh : h < NBUCKETS) (hb : b ∈ L h)
    (hr0 : s.refcnt b ≠ 0)
    (hn : s1.next = (buf_insert_head (buf_unlink s b) (nbuf + h) b).next)
    (hp : s1.prev = (buf_insert_head (buf_unlink s b) (nbuf + h) b).prev)
    (hbn : s1.blockno = s.blockno) (hr : s1.refcnt = upd s.refcnt b 0)
    (hf : s1.freelist = upd s.freelist h (s.freelist h + 1)) :
    Shape nbuf s1 (upd L h (b :: (L h).erase b)) ∧ Home s1 (upd L h (b :: (L h).erase b)) ∧
      Acct s1 (upd L h (b :: (L h).erase b)) := by
  have R := S.rings
  have hbn1 : b < nbuf := R.lt h hh b hb
  have hbe : b ∉ (L h).erase b := fun hm => ((List.Nodup.mem_erase_iff (R.nodup h hh)).1 hm).1 rfl
  have R1 := R.ring_unlink hh hb
  have R2 := R1.ring_insert_head (b := b) hh hbn1 (by
    intro j hj
    by_cases hjh : j = h
    · subst hjh; simpa [upd] using hbe
    · simp only [upd, hjh, if_false]
      exact fun hm => hjh (R.disj j h hj hh b hm hb))
  rw [upd_same, upd_upd_same] at R2
  refine ⟨⟨by rw [hn, hp]; exact R2, ?_⟩, ?_, ?_⟩
  · intro c hc
    obtain ⟨i, hi, hci⟩ := S.cover c hc
    refine ⟨i, hi, ?_⟩
    by_cases hih : i = h
    · subst hih
      simp only [upd, if_true]
      by_cases hcb : c = b
      · simp [hcb]
      · exact List.mem_cons_of_mem _ ((List.mem_erase_of_ne hcb).2 hci)
    · simpa [upd, hih] using hci
  · intro i hi x hxi hrx
    rw [hbn]
    have hxb : x ≠ b := by
      intro e1; subst e1; rw [hr] at hrx; simp [upd] at hrx
    have hrx1 : s.refcnt x ≠ 0 := by rw [hr] at hrx; simpa [upd, hxb] using hrx
    by_cases hih : i = h
    · subst hih
      simp only [upd, if_true] at hxi
      have hx1 : x ∈ L i := by
        rcases List.mem_cons.1 hxi with e1 | e1
        · exact absurd e1 hxb
        · exact List.mem_of_mem_erase e1
      exact H i hi x hx1 hrx1
    · simp only [upd, hih, if_false] at hxi
      exact H i hi x hxi hrx1
  · intro i hi
    by_cases hih : i = h
    · subst hih
      rw [hf]
      simp only [upd_same]
      have h1 : nfree s1 (b :: (L i).erase b) = 1 + nfree s ((L i).erase b) := by
        rw [nfree_cons, hr, upd_same, if_pos rfl]
        congr 1
        apply nfree_congr
        intro x hx
        have : x ≠ b := fun e1 => hbe (e1 ▸ hx)
        rw [hr]; simp [upd, this]
      have h2 : nfree s (L i) = nfree s (b :: (L i).erase b) := by
        unfold nfree; exact ((List.perm_cons_erase hb).filter _).length_eq
      rw [nfree_cons, if_neg hr0] at h2
      have := A i hi
      rw [h1]
      omega
    · rw [hf]
      simp only [upd, hih, if_false]
      have : nfree s1 (L i) = nfree s (L i) := by
        apply nfree_congr
        intro x hx
        have : x ≠ b := fun e1 => hih (R.disj i h hi hh x hx (e1 ▸ hb))
        rw [hr]; simp [upd, this]
      rw [this]
      exact A i hi

/-- The invariants of the lists survive the allocation of the buffer `c`
found by the eviction scan. -/
theorem alloc_inv {nbuf : Nat} {s : State} (s1 : State) {L : Nat → List Nat} {h c blk : Nat}
    (S : Shape nbuf s L) (H : Home s L) (A : Acct s L) (hh : h < NBUCKETS)
    (hblk : blk % NBUCKETS = h) (hc : lastFree s (L h) = some c)
    (hn : s1.next = s.next) (hp : s1.prev = s.prev)
    (hbn : s1.blockno = upd s.blockno c blk) (hr : s1.refcnt = upd s.refcnt c 1)
    (hf : s1.freelist = upd s.freelist h (s.freelist h - 1)) :
    Shape nbuf s1 L ∧ Home s1 L ∧ Acct s1 L := by
  have R := S.rings
  obtain ⟨hcl, hc0⟩ := lastFree_some hc
  refine ⟨S.shape_congr hn hp, ?_, ?_⟩
  · intro i hi x hxi hrx
    by_cases hxc : x = c
    · subst hxc
      have hih : i = h := R.disj i h hi hh x hxi hcl
      rw [hbn, upd_same, hblk, hih]
    · have hrx1 : s.refcnt x ≠ 0 := by rw [hr] at hrx; simpa [upd, hxc] using hrx
      rw [hbn, upd_other _ _ _ _ hxc]
      exact H i hi x hxi hrx1
  · apply Acct.step s1 c R A hh hcl
    · intro x hx; rw [hr]; simp [upd, hx]
    · intro i hi; rw [hf]; simp [upd, hi]
    · rw [hf, hr]
      simp [upd, hc0]

theorem nfree_all_free {s : State} {l : List Nat} (h : ∀ c ∈ l, s.refcnt c = 0) :
    nfree s l = l.length := by
  unfold nfree
  rw [List.filter_eq_self.2]
  intro c hc
  simp [isFree, h c hc]

/-- How `steal_buffers (t, d)` changes the lists: buffers are appended to the
target list, the donor list loses buffers, the other lists are as before. -/
theorem stealLists_rel {nbuf : Nat} {s : State} {L : Nat → List Nat} {t d : Nat}
    (R : Rings nbuf s.next s.prev L) (ht : t < NBUCKETS) (hd : d < NBUCKETS) (hdt : d ≠ t) :
    (∀ i, i ≠ t → (stealLists s L t d i).Sublist (L i)) ∧
    (∃ mv, stealLists s L t d t = L t ++ mv ∧ (∀ c ∈ mv, c ∉ L t ∧ c ∈ L d ∧ s.refcnt c = 0) ∧
      mv.length = min (stealCount s d).toNat (nfree s (L d))) ∧
    ∀ i x, x ∈ L i → s.refcnt x ≠ 0 → x ∈ stealLists s L t d i := by
  unfold stealLists
  by_cases hk : 0 < stealCount s d
  · rw [if_pos hk]
    have sp := stealL_spec s (stealCount s d).toNat (L d) (L t) (R.nodup d hd)
    obtain ⟨mv, h1, _, h3, h4, h5⟩ := sp.moved
    refine ⟨fun i hi => ?_, ⟨mv, ?_, ?_, h3⟩, ?_⟩
    · by_cases hid : i = d
      · subst hid; simpa [upd, hi] using sp.sub
      · simp [upd, hi, hid]
    · simpa [upd] using h1
    · intro c hc
      exact ⟨fun hm => hdt (R.disj d t hd ht c (h4 c hc).2.1 hm), (h4 c hc).2.1, (h4 c hc).1⟩
    · intro i x hx hrx
      by_cases hit : i = t
      · subst hit
        rw [upd_same, h1]
        exact List.mem_append_left _ hx
      · rw [upd_other _ _ _ _ hit]
        by_cases hid : i = d
        · subst hid
          rw [upd_same]
          rcases h5 x hx with h | h
          · exact h
          · exact absurd (h4 x h).1 hrx
        · rw [upd_other _ _ _ _ hid]
          exact hx
  · rw [if_neg hk]
    refine ⟨fun i _ => List.Sublist.refl _, ⟨[], by simp, by simp, ?_⟩, fun i x hx _ => hx⟩
    have : (stealCount s d).toNat = 0 := by omega
    simp [this]

/-- The invariants of the lists survive `steal_buffers`. -/
theorem steal_inv {nbuf : Nat} {s s1 : State} {L : Nat → List Nat} {t d : Nat}
    (S : Shape nbuf s L) (H : Home s L) (A : Acct s L) (ht : t < NBUCKETS) (hd : d < NBUCKETS)
    (hdt : d ≠ t) (hR : Rings nbuf s1.next s1.prev (stealLists s L t d))
    (hbn : s1.blockno = s.blockno) (hr : s1.refcnt = s.refcnt)
    (hf : s1.freelist = stealFl s t d) :
    Shape nbuf s1 (stealLists s L t d) ∧ Home s1 (stealLists s L t d) ∧
      Acct s1 (stealLists s L t d) := by
  have R := S.rings
  by_cases hk : 0 < stealCount s d
  swap
  · have e : stealLists s L t d = L := by unfold stealLists; rw [if_neg hk]
    have ef : stealFl s t d = s.freelist := by unfold stealFl; rw [if_neg hk]
    rw [e] at hR ⊢
    exact ⟨⟨hR, S.cover⟩, H.home_congr hbn hr, A.acct_congr (by rw [hf, ef]) hr⟩
  have sp := stealL_spec s (stealCount s d).toNat (L d) (L t) (R.nodup d hd)
  obtain ⟨mv, h1, h2, h3, h4, h5⟩ := sp.moved
  have eL : stealLists s L t d
      = upd (upd L d (stealL s (stealCount s d).toNat (L d) (L t)).1) t (L t ++ mv) := by
    unfold stealLists; rw [if_pos hk, h1]
  have eLt : stealLists s L t d t = L t ++ mv := by rw [eL, upd_same]
  have eLd : stealLists s L t d d = (stealL s (stealCount s d).toNat (L d) (L t)).1 := by
    rw [eL, upd_other _ _ _ _ hdt, upd_same]
  have eLo : ∀ i, i ≠ t → i ≠ d → stealLists s L t d i = L i := by
    intro i h1 h2; rw [eL, upd_other _ _ _ _ h1, upd_other _ _ _ _ h2]
  obtain ⟨hfl2, hkdiv⟩ := stealCount_pos hk
  have hAd := A d hd
  have hkle : (stealCount s d).toNat ≤ nfree s (L d) := by omega
  have hmin : min (stealCount s d).toNat (nfree s (L d)) = (stealCount s d).toNat :=
    Nat.min_eq_left hkle
  refine ⟨⟨hR, ?_⟩, ?_, ?_⟩
  · intro c hc
    obtain ⟨i, hi, hci⟩ := S.cover c hc
    by_cases hit : i = t
    · subst hit
      exact ⟨i, hi, by rw [eLt]; exact List.mem_append_left _ hci⟩
    · by_cases hid : i = d
      · subst hid
        rcases h5 c hci with h | h
        · exact ⟨i, hi, by rw [eLd]; exact h⟩
        · exact ⟨t, ht, by rw [eLt]; exact List.mem_append_right _ h⟩
      · exact ⟨i, hi, by rw [eLo i hit hid]; exact hci⟩
  · intro i hi x hxi hrx
    rw [hbn]
    rw [hr] at hrx
    by_cases hit : i = t
    · subst hit
      rw [eLt] at hxi
      have hx : x ∈ L i := by
        rcases List.mem_append.1 hxi with h | h
        · exact h
        · exact absurd (h4 x h).1 hrx
      exact H i hi x hx hrx
    · by_cases hid : i = d
      · subst hid
        rw [eLd] at hxi
        exact H i hi x (sp.sub.subset hxi) hrx
      · rw [eLo i hit hid] at hxi
        exact H i hi x hxi hrx
  · intro i hi
    have en : ∀ l, nfree s1 l = nfree s l := fun l => nfree_congr (fun x _ => by rw [hr])
    rw [en, hf]
    have efl : stealFl s t d = upd (upd s.freelist t (s.freelist t + stealCount s d)) d
        (s.freelist d - stealCount s d) := by
      unfold stealFl; rw [if_pos hk, upd_other _ _ _ _ hdt]
    rw [efl]
    by_cases hit : i = t
    · subst hit
      rw [eLt, upd_other _ _ _ _ (Ne.symm hdt), upd_same, nfree_append,
        nfree_all_free (fun c hc => (h4 c hc).1), h3, hmin]
      have := A i hi
      push_cast
      omega
    · by_cases hid : i = d
      · subst hid
        rw [eLd, upd_same]
        have := sp.count
        rw [hmin] at this
        omega
      · rw [eLo i hit hid, upd_other _ _ _ _ hid, upd_other _ _ _ _ hit]
        exact A i hi

theorem acquiresleep_cases (s : State) (p b : Nat) :
    (s.locked b = true ∧ acquiresleep s p b = Res.sleep b s) ∨
    (s.locked b = false ∧ acquiresleep s p b = Res.ok b (lockedBy s p b)) := by
  unfold acquiresleep
  cases h : s.locked b <;> simp

theorem bget_alloc_ring {nbuf : Nat} {s : State} {L : Nat → List Nat}
    (R : Rings nbuf s.next s.prev L) {h : Nat} (hh : h < NBUCKETS) (p dev blk : Nat) :
    bget_alloc nbuf s p h dev blk
      = match lastFree s (L h) with
        | none => Res.panic Panic.bget_no_buffers s
        | some c => acquiresleep (bget_claim s h dev blk c) p c := by
  simp only [bget_alloc, bucketAddr, lru_scan_ring R hh]
  cases lastFree s (L h) <;> rfl

/-- The paths through `bget` on well-formed lists. -/
theorem bget_cases {nbuf : Nat} {s : State} {L : Nat → List Nat}
    (R : Rings nbuf s.next s.prev L) (p dev blk : Nat) :
    (∃ b, (L (blk % NBUCKETS)).find? (sameId s dev blk) = some b ∧
      bget nbuf p dev blk s
        = acquiresleep (bget_hit_cs (logEv s (Ev.acquire (blk % NBUCKETS))) (blk % NBUCKETS) b) p b) ∨
    ((L (blk % NBUCKETS)).find? (sameId s dev blk) = none ∧
      ((s.freelist (blk % NBUCKETS) ≠ 0 ∧
        bget nbuf p dev blk s
          = bget_alloc nbuf (logEv s (Ev.acquire (blk % NBUCKETS))) p (blk % NBUCKETS) dev blk) ∨
       (s.freelist (blk % NBUCKETS) = 0 ∧ find_richest_bucket s < 0 ∧
        bget nbuf p dev blk s
          = Res.panic Panic.bget_no_buffers (logEv s (Ev.acquire (blk % NBUCKETS)))) ∨
       (s.freelist (blk % NBUCKETS) = 0 ∧
        ∃ d, d < NBUCKETS ∧ find_richest_bucket s = (d : Int) ∧ d ≠ blk % NBUCKETS ∧
          ∃ s1, Rings nbuf s1.next s1.prev (stealLists s L (blk % NBUCKETS) d) ∧
            s1 = { s with next := s1.next, prev := s1.prev,
                          freelist := stealFl s (blk % NBUCKETS) d,
                          log := s.log ++ [Ev.acquire (blk % NBUCKETS), Ev.acquire d,
                            Ev.release d] } ∧
            ((stealCount s d = 0 ∧
                bget nbuf p dev blk s = Res.panic Panic.bget_no_buffers s1) ∨
             (0 < stealCount s d ∧
                bget nbuf p dev blk s = bget_alloc nbuf s1 p (blk % NBUCKETS) dev blk))))) := by
  have hh : blk % NBUCKETS < NBUCKETS := Nat.mod_lt _ (by decide)
  have R0 : Rings nbuf (logEv s (Ev.acquire (blk % NBUCKETS))).next
      (logEv s (Ev.acquire (blk % NBUCKETS))).prev L := R
  have hscan := hit_scan_ring R0 hh dev blk
  have hsame : sameId (logEv s (Ev.acquire (blk % NBUCKETS))) dev blk = sameId s dev blk := rfl
  rw [hsame] at hscan
  have hb : bget nbuf p dev blk s
      = match (L (blk % NBUCKETS)).find? (sameId s dev blk) with
        | some b => bget_hit (logEv s (Ev.acquire (blk % NBUCKETS))) p (blk % NBUCKETS) b
        | none => bget_miss nbuf (logEv s (Ev.acquire (blk % NBUCKETS))) p (blk % NBUCKETS)
            dev blk := by
    simp only [bget, hash, bucketAddr, hscan]
    cases (L (blk % NBUCKETS)).find? (sameId s dev blk) <;> rfl
  cases hf : (L (blk % NBUCKETS)).find? (sameId s dev blk) with
  | some b =>
    left
    rw [hf] at hb
    exact ⟨b, rfl, hb⟩
  | none =>
    right
    rw [hf] at hb
    refine ⟨rfl, ?_⟩
    simp only at hb
    by_cases h0 : s.freelist (blk % NBUCKETS) = 0
    swap
    · left
      refine ⟨h0, ?_⟩
      rw [hb]
      unfold bget_miss
      rw [if_neg (by exact h0)]
    · right
      have hfr : find_richest_bucket (logEv s (Ev.acquire (blk % NBUCKETS)))
          = find_richest_bucket s := rfl
      rcases find_richest_spec s with ⟨h1, _⟩ | ⟨d, hd, h1, h2, _, _⟩
      · left
        refine ⟨h0, by rw [h1]; decide, ?_⟩
        rw [hb]
        unfold bget_miss
        rw [if_pos (by exact h0), hfr, h1]
        rfl
      · right
        have hdh : d ≠ blk % NBUCKETS := by
          intro e; rw [e] at h2; omega
        obtain ⟨s1, e1, e2, e3⟩ := steal_buffers_spec R0 hh hd hdh
        have hsc : stealCount (logEv s (Ev.acquire (blk % NBUCKETS))) d = stealCount s d := rfl
        have hsl : stealLists (logEv s (Ev.acquire (blk % NBUCKETS))) L (blk % NBUCKETS) d
            = stealLists s L (blk % NBUCKETS) d := by
          unfold stealLists
          rw [hsc, stealL_congr s (logEv s (Ev.acquire (blk % NBUCKETS))) rfl]
        have hsf : stealFl (logEv s (Ev.acquire (blk % NBUCKETS))) (blk % NBUCKETS) d
            = stealFl s (blk % NBUCKETS) d := rfl
        rw [hsl] at e3
        rw [hsc] at e1
        refine ⟨h0, d, hd, h1, hdh, s1, e3, ?_, ?_⟩
        · rw [e2, hsf]
          simp [logEv]
        · have hnn : ¬ ((d : Int) < 0) := by omega
          have hm : bget_miss nbuf (logEv s (Ev.acquire (blk % NBUCKETS))) p (blk % NBUCKETS)
              dev blk
              = if stealCount s d = 0 then Res.panic Panic.bget_no_buffers s1
                else bget_alloc nbuf s1 p (blk % NBUCKETS) dev blk := by
            unfold bget_miss
            rw [if_pos (by exact h0), hfr, h1]
            simp only [hnn, if_false, e1]
          rw [hb, hm]
          by_cases hz : stealCount s d = 0
          · left; exact ⟨hz, by rw [if_pos hz]⟩
          · right
            refine ⟨?_, by rw [if_neg hz]⟩
            have : 0 ≤ stealCount s d := by
              rw [stealCount_of_nonneg (le_of_lt h2)]; omega
            omega

theorem lastFree_congr {s s1 : State} (h : s1.refcnt = s.refcnt) (l : List Nat) :
    lastFree s1 l = lastFree s l := by
  have : isFree s1 = isFree s := by funext c; simp [isFree, h]
  simp [lastFree, this]

/-- The allocation on a state `s1` that differs from the state `s` of the call
by a rebalancing (or by nothing). -/
theorem alloc_out {nbuf : Nat} {s s1 : State} {L L1 : Nat → List Nat} {dev blk b : Nat}
    (S1 : Shape nbuf s1 L1) (hc : lastFree s1 (L1 (blk % NBUCKETS)) = some b)
    (hmiss : (L (blk % NBUCKETS)).find? (sameId s dev blk) = none)
    (hd : s1.dev = s.dev) (hbn : s1.blockno = s.blockno) (hv : s1.valid = s.valid)
    (hr : s1.refcnt = s.refcnt) (hl : s1.locked = s.locked) (hk : s1.lkpid = s.lkpid)
    (hda : s1.data = s.data) (hdi : s1.disk = s.disk) (hre : s1.reads = s.reads)
    (hwr : s1.writes = s.writes)
    (hsub : ∀ i, i ≠ blk % NBUCKETS → (L1 i).Sublist (L i))
    (happ : ∃ mv, L1 (blk % NBUCKETS) = L (blk % NBUCKETS) ++ mv ∧
      ∀ c ∈ mv, c ∉ L (blk % NBUCKETS))
    (hkeep : ∀ i x, x ∈ L i → s.refcnt x ≠ 0 → x ∈ L1 i)
    (hinv : Home s L → Acct s L → Home s1 L1 ∧ Acct s1 L1)
    (hkind : (s.freelist (blk % NBUCKETS) ≠ 0 ∧ L1 = L ∧ s1.freelist = s.freelist ∧
            s1.next = s.next ∧ s1.prev = s.prev) ∨
         (s.freelist (blk % NBUCKETS) = 0 ∧ ∃ d, d < NBUCKETS ∧
            find_richest_bucket s = (d : Int) ∧ d ≠ blk % NBUCKETS ∧ 0 < stealCount s d ∧
            L1 = stealLists s L (blk % NBUCKETS) d ∧
            s1.freelist = stealFl s (blk % NBUCKETS) d)) :
    BgetOut nbuf s L dev blk b (bget_claim s1 (blk % NBUCKETS) dev blk b) L1 := by
  have hh : blk % NBUCKETS < NBUCKETS := Nat.mod_lt _ (by decide)
  obtain ⟨hbl, hb0⟩ := lastFree_some hc
  have hb0s : s.refcnt b = 0 := by rw [← hr]; exact hb0
  have hfl : (bget_claim s1 (blk % NBUCKETS) dev blk b).freelist
      = upd s1.freelist (blk % NBUCKETS) (s1.freelist (blk % NBUCKETS) - 1) := rfl
  refine
    { shape := S1.shape_congr rfl rfl
      mem := hbl
      dev_eq := by simp [bget_claim, logEv, upd]
      blockno_eq := by simp [bget_claim, logEv, upd]
      refcnt := ?_
      locked := hl
      lkpid := hk
      data := hda
      disk := hdi
      reads := hre
      writes := hwr
      frame := ?_
      sub := hsub
      app := happ
      keep := hkeep
      inv := ?_
      kind := ?_ }
  · show upd s1.refcnt b 1 = _
    rw [hr, hb0s]
    rfl
  · intro x hx
    simp [bget_claim, logEv, upd, hx, hd, hbn, hv]
  · intro H A
    obtain ⟨H1, A1⟩ := hinv H A
    have := alloc_inv (bget_claim s1 (blk % NBUCKETS) dev blk b) S1 H1 A1 hh rfl hc
      rfl rfl rfl rfl rfl
    exact ⟨this.2.1, this.2.2⟩
  · right
    refine ⟨hmiss, by rw [← lastFree_congr hr]; exact hc, by simp [bget_claim, logEv, upd],
      s1.freelist, hfl, ?_⟩
    rcases hkind with ⟨h1, h2, h3, h4, h5⟩ | ⟨h1, d, h2, h3, h4, h5, h6, h7⟩
    · exact Or.inl ⟨h1, h2, h3, h4, h5⟩
    · exact Or.inr ⟨h1, d, h2, h3, h4, h5, h6, h7⟩

/-- On well-formed lists `bget` either panics, for one of the reasons of
`PanicWhy`, or reaches the access lock of a buffer `b` in a state described by
`BgetOut`. -/
theorem bget_out {nbuf : Nat} {s : State} {L : Nat → List Nat} (S : Shape nbuf s L)
    (p dev blk : Nat) :
    (∃ s1, bget nbuf p dev blk s = Res.panic Panic.bget_no_buffers s1 ∧ PanicWhy s L dev blk) ∨
    (∃ b s1 L1, bget nbuf p dev blk s = acquiresleep s1 p b ∧ BgetOut nbuf s L dev blk b s1 L1) := by
  have hh : blk % NBUCKETS < NBUCKETS := Nat.mod_lt _ (by decide)
  have R := S.rings
  rcases bget_cases R p dev blk with ⟨b, hf, hb⟩ | ⟨hf, hrest⟩
  · right
    refine ⟨b, _, L, hb, ?_⟩
    have hbl : b ∈ L (blk % NBUCKETS) := List.mem_of_find?_eq_some hf
    have hid : s.dev b = dev ∧ s.blockno b = blk := by
      have := List.find?_some hf
      simpa [sameId] using this
    have hrc : (bget_hit_cs (logEv s (Ev.acquire (blk % NBUCKETS))) (blk % NBUCKETS) b).refcnt
        = upd s.refcnt b ((s.refcnt b + 1) % UINT) := rfl
    have hfl : (bget_hit_cs (logEv s (Ev.acquire (blk % NBUCKETS))) (blk % NBUCKETS) b).freelist
        = upd s.freelist (blk % NBUCKETS) (s.freelist (blk % NBUCKETS)
          - (if (s.refcnt b + 1) % UINT = 1 then 1 else 0)) := by
      simp [bget_hit_cs, logEv, upd]
    refine
      { shape := S.shape_congr rfl rfl
        mem := hbl
        dev_eq := hid.1
        blockno_eq := hid.2
        refcnt := hrc
        locked := rfl
        lkpid := rfl
        data := rfl
        disk := rfl
        reads := rfl
        writes := rfl
        frame := fun x _ => ⟨rfl, rfl, rfl⟩
        sub := fun i _ => List.Sublist.refl _
        app := ⟨[], by simp, by simp⟩
        keep := fun _ _ hx _ => hx
        inv := ?_
        kind := Or.inl ⟨hf, rfl, rfl, rfl, rfl, rfl, rfl, hfl⟩ }
    intro H A
    constructor
    · refine Home.refcnt _ b H rfl ?_ ?_
      · intro x hx; rw [hrc]; simp [upd, hx]
      · intro _ i hi hbi
        rw [hid.2]
        exact R.disj (blk % NBUCKETS) i hh hi b hbl hbi
    · refine Acct.step _ b R A hh hbl ?_ ?_ ?_
      · intro x hx; rw [hrc]; simp [upd, hx]
      · intro i hi; rw [hfl]; simp [upd, hi]
      · rw [hfl, hrc]
        simp only [upd_same]
        by_cases h0 : s.refcnt b = 0
        · have : (0 + 1) % UINT = 1 := by decide
          simp [h0, this]
        · simp only [h0, if_false]
          split_ifs <;> omega
  · rcases hrest with ⟨h0, hb⟩ | ⟨h0, h1, hb⟩ | ⟨h0, d, hd, h1, hdh, s1, R1, e1, hb⟩
    · -- allocation without rebalancing
      have R0 : Rings nbuf (logEv s (Ev.acquire (blk % NBUCKETS))).next
          (logEv s (Ev.acquire (blk % NBUCKETS))).prev L := R
      rw [bget_alloc_ring R0 hh] at hb
      cases hc : lastFree (logEv s (Ev.acquire (blk % NBUCKETS))) (L (blk % NBUCKETS)) with
      | none =>
        left
        rw [hc] at hb
        exact ⟨_, hb, hf, Or.inl ⟨h0, hc⟩⟩
      | some b =>
        right
        rw [hc] at hb
        refine ⟨b, _, L, hb, ?_⟩
        exact alloc_out (s := s) (L := L) ⟨R0, S.cover⟩ hc hf rfl rfl rfl rfl rfl rfl rfl rfl rfl
          rfl (fun i _ => List.Sublist.refl _) ⟨[], by simp, by simp⟩ (fun _ _ hx _ => hx)
          (fun H A => ⟨H, A⟩) (Or.inl ⟨h0, rfl, rfl, rfl, rfl⟩)
    · left
      exact ⟨_, hb, hf, Or.inr (Or.inl ⟨h0, h1⟩)⟩
    · have hdev : s1.dev = s.dev := by rw [e1]
      have hbn : s1.blockno = s.blockno := by rw [e1]
      have hv : s1.valid = s.valid := by rw [e1]
      have hr : s1.refcnt = s.refcnt := by rw [e1]
      have hl : s1.locked = s.locked := by rw [e1]
      have hk : s1.lkpid = s.lkpid := by rw [e1]
      have hda : s1.data = s.data := by rw [e1]
      have hdi : s1.disk = s.disk := by rw [e1]
      have hre : s1.reads = s.reads := by rw [e1]
      have hwr : s1.writes = s.writes := by rw [e1]
      have hfl : s1.freelist = stealFl s (blk % NBUCKETS) d := by rw [e1]
      rcases hb with ⟨hz, hb⟩ | ⟨hz, hb⟩
      · left
        exact ⟨_, hb, hf, Or.inr (Or.inr ⟨h0, d, hd, h1, hdh, Or.inl hz⟩)⟩
      · rw [bget_alloc_ring R1 hh] at hb
        have hrel := stealLists_rel R hh hd hdh
        have hcov : Shape nbuf s1 (stealLists s L (blk % NBUCKETS) d) := by
          refine ⟨R1, ?_⟩
          intro c hc
          obtain ⟨i, hi, hci⟩ := S.cover c hc
          by_cases hit : i = blk % NBUCKETS
          · obtain ⟨mv, hm, _⟩ := hrel.2.1
            exact ⟨blk % NBUCKETS, hh, by rw [hm]; exact List.mem_append_left _ (hit ▸ hci)⟩
          · by_cases hid : i = d
            · subst hid
              have sp := stealL_spec s (stealCount s i).toNat (L i) (L (blk % NBUCKETS))
                (R.nodup i hi)
              obtain ⟨mv, h1', _, _, _, h5⟩ := sp.moved
              have eL : stealLists s L (blk % NBUCKETS) i
                  = upd (upd L i (stealL s (stealCount s i).toNat (L i)
                      (L (blk % NBUCKETS))).1) (blk % NBUCKETS)
                    (stealL s (stealCount s i).toNat (L i) (L (blk % NBUCKETS))).2 := by
                unfold stealLists; rw [if_pos hz]
              rcases h5 c hci with h | h
              · exact ⟨i, hi, by rw [eL, upd_other _ _ _ _ hit, upd_same]; exact h⟩
              · exact ⟨blk % NBUCKETS, hh, by
                  rw [eL, upd_same, h1']; exact List.mem_append_right _ h⟩
            · refine ⟨i, hi, ?_⟩
              have eL : stealLists s L (blk % NBUCKETS) d i = L i := by
                unfold stealLists
                rw [if_pos hz, upd_other _ _ _ _ hit, upd_other _ _ _ _ hid]
              rw [eL]; exact hci
        cases hc : lastFree s1 (stealLists s L (blk % NBUCKETS) d (blk % NBUCKETS)) with
        | none =>
          left
          rw [hc] at hb
          rw [lastFree_congr hr] at hc
          exact ⟨_, hb, hf, Or.inr (Or.inr ⟨h0, d, hd, h1, hdh, Or.inr ⟨hz, hc⟩⟩)⟩
        | some b =>
          right
          rw [hc] at hb
          refine ⟨b, _, stealLists s L (blk % NBUCKETS) d, hb, ?_⟩
          refine alloc_out (s := s) (L := L) hcov hc hf hdev hbn hv hr hl hk hda hdi hre hwr
            hrel.1 ?_ hrel.2.2 ?_ (Or.inr ⟨h0, d, hd, h1, hdh, hz, rfl, hfl⟩)
          · obtain ⟨mv, hm, hmv, _⟩ := hrel.2.1
            exact ⟨mv, hm, fun c hc => (hmv c hc).1⟩
          · intro H A
            have := steal_inv S H A hh hd hdh R1 hbn hr hfl
            exact ⟨this.2.1, this.2.2⟩

/-- Loop invariant of the first loop of `binit`. -/
theorem binit_bucket_loop (nbuf : Nat) (s : State) :
    ∀ n, (∀ i, i < n →
        ((List.range n).foldl (binit_bucket nbuf) s).next (nbuf + i) = nbuf + i ∧
        ((List.range n).foldl (binit_bucket nbuf) s).prev (nbuf + i) = nbuf + i ∧
        ((List.range n).foldl (binit_bucket nbuf) s).freelist i = 0) ∧
      ((List.range n).foldl (binit_bucket nbuf) s).refcnt = s.refcnt ∧
      ((List.range n).foldl (binit_bucket nbuf) s).locked = s.locked ∧
      ((List.range n).foldl (binit_bucket nbuf) s).dev = s.dev ∧
      ((List.range n).foldl (binit_bucket nbuf) s).blockno = s.blockno ∧
      ((List.range n).foldl (binit_bucket nbuf) s).valid = s.valid
  | 0 => by simp
  | n + 1 => by
    obtain ⟨h1, h2, h3, h4, h5, h6⟩ := binit_bucket_loop nbuf s n
    rw [List.range_succ, List.foldl_append]
    simp only [List.foldl_cons, List.foldl_nil]
    refine ⟨?_, h2, h3, h4, h5, h6⟩
    intro i hi
    by_cases hin : i = n
    · subst hin
      simp [binit_bucket, bucketAddr, upd]
    · have hlt : i < n := by omega
      have hne : nbuf + i ≠ nbuf + n := by omega
      obtain ⟨a, b, c⟩ := h1 i hlt
      simp [binit_bucket, bucketAddr, upd, hne, hin, a, b, c]

/-- Loop invariant of the second loop of `binit`: after the buffers below `k`. -/
theorem binit_buf_loop (nbuf : Nat) (s : State)
    (hR : Rings nbuf s.next s.prev (fun _ => []))
    (hf : ∀ i, i < NBUCKETS → s.freelist i = 0) :
    ∀ k, k ≤ nbuf → ∃ L, Rings nbuf ((List.range k).foldl (binit_buf nbuf) s).next
        ((List.range k).foldl (binit_buf nbuf) s).prev L ∧
      (∀ i, i < NBUCKETS → ∀ b, b ∈ L i ↔ (b < k ∧ b % NBUCKETS = i)) ∧
      (∀ i, i < NBUCKETS →
        ((List.range k).foldl (binit_buf nbuf) s).freelist i = ((L i).length : Int)) ∧
      ((List.range k).foldl (binit_buf nbuf) s).refcnt = s.refcnt ∧
      ((List.range k).foldl (binit_buf nbuf) s).dev = s.dev ∧
      ((List.range k).foldl (binit_buf nbuf) s).blockno = s.blockno ∧
      ((List.range k).foldl (binit_buf nbuf) s).valid = s.valid ∧
      (∀ b, b < k → ((List.range k).foldl (binit_buf nbuf) s).locked b = false)
  | 0, _ => by
    refine ⟨fun _ => [], by simpa using hR, by simp, by simpa using hf, rfl, rfl, rfl, rfl, by simp⟩
  | k + 1, hk => by
    obtain ⟨L, R, hm, hfl, h1, h2, h3, h4, h5⟩ := binit_buf_loop nbuf s hR hf k (by omega)
    rw [List.range_succ, List.foldl_append]
    simp only [List.foldl_cons, List.foldl_nil]
    generalize (List.range k).foldl (binit_buf nbuf) s = sk at R hfl h1 h2 h3 h4 h5
    have hki : k % NBUCKETS < NBUCKETS := Nat.mod_lt _ (by decide)
    have hnot : ∀ j, j < NBUCKETS → k ∉ L j := by
      intro j hj hmem
      have := (hm j hj k).1 hmem
      omega
    have R1 : Rings nbuf (initsleeplock sk k).next (initsleeplock sk k).prev L := R
    have R2 := R1.ring_insert_head (b := k) hki (by omega) hnot
    refine ⟨upd L (k % NBUCKETS) (k :: L (k % NBUCKETS)), R2, ?_, ?_, h1, h2, h3, h4, ?_⟩
    · intro i hi b
      by_cases hik : i = k % NBUCKETS
      · subst hik
        simp only [upd_same, List.mem_cons, hm _ hi b]
        constructor
        · rintro (rfl | ⟨h, h'⟩)
          · exact ⟨by omega, rfl⟩
          · exact ⟨by omega, h'⟩
        · rintro ⟨h, h'⟩
          by_cases hbk : b = k
          · left; exact hbk
          · right; exact ⟨by omega, h'⟩
      · rw [upd_other _ _ _ _ hik, hm i hi b]
        constructor
        · rintro ⟨h, h'⟩; exact ⟨by omega, h'⟩
        · rintro ⟨h, h'⟩
          refine ⟨?_, h'⟩
          by_cases hbk : b = k
          · subst hbk; exact absurd h'.symm hik
          · omega
    · intro i hi
      by_cases hik : i = k % NBUCKETS
      · subst hik
        have := hfl _ hi
        simp [binit_buf, buf_insert_head, initsleeplock, upd, this]
      · have := hfl _ hi
        simp [binit_buf, buf_insert_head, initsleeplock, upd, hik, this]
    · intro b hb
      by_cases hbk : b = k
      · subst hbk
        simp [binit_buf, buf_insert_head, initsleeplock, upd]
      · have := h5 b (by omega)
        simp [binit_buf, buf_insert_head, initsleeplock, upd, hbk, this]

/-- The state after `binit`: the lists partition the pool round-robin, every
buffer is free and unlocked and carries the identity `(0, 0)`. -/
theorem binit_spec (nbuf : Nat) (disk : Nat → Nat → Nat) :
    ∃ L, Rings nbuf (binit nbuf (boot nbuf disk)).next (binit nbuf (boot nbuf disk)).prev L ∧
      (∀ i, i < NBUCKETS → ∀ b, b ∈ L i ↔ (b < nbuf ∧ b % NBUCKETS = i)) ∧
      (∀ i, i < NBUCKETS → (binit nbuf (boot nbuf disk)).freelist i = ((L i).length : Int)) ∧
      (binit nbuf (boot nbuf disk)).refcnt = (fun _ => 0) ∧
      (binit nbuf (boot nbuf disk)).dev = (fun _ => 0) ∧
      (binit nbuf (boot nbuf disk)).blockno = (fun _ => 0) ∧
      (binit nbuf (boot nbuf disk)).valid = (fun _ => 0) ∧
      (∀ b, b < nbuf → (binit nbuf (boot nbuf disk)).locked b = false) := by
  obtain ⟨h1, h2, h3, h4, h5, h6⟩ := binit_bucket_loop nbuf (boot nbuf disk) NBUCKETS
  have hR : Rings nbuf ((List.range NBUCKETS).foldl (binit_bucket nbuf) (boot nbuf disk)).next
      ((List.range NBUCKETS).foldl (binit_bucket nbuf) (boot nbuf disk)).prev (fun _ => []) := by
    refine ⟨fun i hi => ?_, by simp, by simp, by simp⟩
    exact ⟨(h1 i hi).1, (h1 i hi).2.1⟩
  obtain ⟨L, R, hm, hfl, g1, g2, g3, g4, g5⟩ :=
    binit_buf_loop nbuf _ hR (fun i hi => (h1 i hi).2.2) nbuf (le_refl _)
  refine ⟨L, R, hm, hfl, ?_, ?_, ?_, ?_, g5⟩
  · unfold binit; rw [g1, h2]; rfl
  · unfold binit; rw [g2, h4]; rfl
  · unfold binit; rw [g3, h5]; rfl
  · unfold binit; rw [g4, h6]; rfl

theorem init_inv (nbuf : Nat) (disk : Nat → Nat → Nat) : ∃ L, Inv nbuf (init nbuf disk) L := by
  obtain ⟨L, R, hm, hfl, h1, _, _, h4, h5⟩ := binit_spec nbuf disk
  refine ⟨L, ⟨R, fun b hb => ⟨b % NBUCKETS, Nat.mod_lt _ (by decide), ?_⟩⟩, ?_, ?_, ?_, ?_, ?_, ?_⟩
  · exact (hm _ (Nat.mod_lt _ (by decide)) b).2 ⟨hb, rfl⟩
  · intro i _ b _ hr
    exact absurd (by show (init nbuf disk).st.refcnt b = 0; simp only [init]; rw [h1]) hr
  · intro i hi
    have : nfree (init nbuf disk).st (L i) = (L i).length :=
      nfree_all_free (fun c _ => by show (init nbuf disk).st.refcnt c = 0; simp only [init]; rw [h1])
    rw [this]
    exact le_of_eq (hfl i hi)
  · intro b hb
    have e1 : (init nbuf disk).st.refcnt b = 0 := by simp only [init]; rw [h1]
    have e2 : (init nbuf disk).st.locked b = false := h5 b hb
    rw [e1, e2]
    exact ⟨rfl, by decide⟩
  · intro i _
    exact List.pairwise_of_forall (fun x y hx => by simp [init] at hx)
  · intro b
    exact le_refl _
  · intro b
    left
    show (init nbuf disk).st.valid b = 0
    simp only [init]; rw [h4]

theorem bread_fill_next (s : State) (b : Nat) : (bread_fill s b).next = s.next := by
  unfold bread_fill; split <;> rfl

theorem bread_fill_prev (s : State) (b : Nat) : (bread_fill s b).prev = s.prev := by
  unfold bread_fill; split <;> rfl

theorem bread_fill_dev (s : State) (b : Nat) : (bread_fill s b).dev = s.dev := by
  unfold bread_fill; split <;> rfl

theorem bread_fill_blockno (s : State) (b : Nat) : (bread_fill s b).blockno = s.blockno := by
  unfold bread_fill; split <;> rfl

theorem bread_fill_refcnt (s : State) (b : Nat) : (bread_fill s b).refcnt = s.refcnt := by
  unfold bread_fill; split <;> rfl

theorem bread_fill_freelist (s : State) (b : Nat) : (bread_fill s b).freelist = s.freelist := by
  unfold bread_fill; split <;> rfl

theorem bread_fill_locked (s : State) (b : Nat) : (bread_fill s b).locked = s.locked := by
  unfold bread_fill; split <;> rfl

theorem bread_fill_lkpid (s : State) (b : Nat) : (bread_fill s b).lkpid = s.lkpid := by
  unfold bread_fill; split <;> rfl

theorem bread_fill_valid (s : State) (b : Nat) :
    (bread_fill s b).valid = upd s.valid b (if s.valid b = 0 then 1 else s.valid b) := by
  unfold bread_fill; split
  · rename_i h; simp [virtio_disk_rw, h]
  · rename_i h; simp [h, upd_self]

theorem bread_fill_reads (s : State) (b : Nat) :
    (bread_fill s b).reads = s.reads + (if s.valid b = 0 then 1 else 0) := by
  unfold bread_fill; split
  · rename_i h; simp [virtio_disk_rw]
  · rename_i h; simp

theorem bread_fill_data (s : State) (b : Nat) :
    (bread_fill s b).data
      = if s.valid b = 0 then upd s.data b (s.disk (s.dev b) (s.blockno b)) else s.data := by
  unfold bread_fill; split
  · rename_i h; simp [virtio_disk_rw]
  · rfl

/-- The lists stay ordered by release time after a `bread`: the buffers that
entered the home bucket are no longer marked as placed. -/
theorem order_bget {nbuf : Nat} {g : Sys} {s2 : State} {L L1 : Nat → List Nat} {h : Nat}
    (pend : Nat → Nat) (hh : h < NBUCKETS)
    (hL : bucketList nbuf g.st h = L h) (hL1 : bucketList nbuf s2 h = L1 h)
    (hord : ∀ i, i < NBUCKETS →
      (L i).Pairwise (fun x y => g.placed x = true → g.placed y = true → g.rel y < g.rel x))
    (hsub : ∀ i, i ≠ h → (L1 i).Sublist (L i))
    (happ : ∃ mv, L1 h = L h ++ mv ∧ ∀ c ∈ mv, c ∉ L h) :
    ∀ i, i < NBUCKETS →
      (L1 i).Pairwise (fun x y => (afterBget nbuf g s2 h pend).placed x = true →
        (afterBget nbuf g s2 h pend).placed y = true →
        (afterBget nbuf g s2 h pend).rel y < (afterBget nbuf g s2 h pend).rel x) := by
  have hpl : ∀ c, (afterBget nbuf g s2 h pend).placed c = true → g.placed c = true := by
    intro c hc
    simp only [afterBget, Bool.and_eq_true] at hc
    exact hc.1
  intro i hi
  by_cases hih : i = h
  · subst hih
    obtain ⟨mv, hm, hmv⟩ := happ
    have hmig : ∀ c ∈ mv, (afterBget nbuf g s2 i pend).placed c = false := by
      intro c hc
      have : migrated nbuf g.st s2 i c = true := by
        simp only [migrated, hL, hL1, hm, decide_eq_true_eq]
        exact ⟨List.mem_append_right _ hc, hmv c hc⟩
      simp [afterBget, this]
    rw [hm, List.pairwise_append]
    refine ⟨(hord i hi).imp (fun {x y} hr hx hy => hr (hpl x hx) (hpl y hy)), ?_, ?_⟩
    · apply List.pairwise_of_forall_mem_list
      intro x hx y _ hpx
      rw [hmig x hx] at hpx
      exact absurd hpx (by simp)
    · intro x _ y hy _ hpy
      rw [hmig y hy] at hpy
      exact absurd hpy (by simp)
  · exact ((hord i hi).sublist (hsub i hih)).imp (fun {x y} hr hx hy => hr (hpl x hx) (hpl y hy))

/-- The reference counts match the outstanding references after a change at
the buffer `b` only. -/
theorem refs_upd {nbuf : Nat} {r q : Nat → Nat} {l : Nat → Bool} (b : Nat) (r1 q1 : Nat → Nat)
    (l1 : Nat → Bool)
    (h : ∀ x, x < nbuf → r x = (if l x then 1 else 0) + q x ∧ r x + 1 < UINT)
    (hr : ∀ x, x ≠ b → r1 x = r x) (hl : ∀ x, x ≠ b → l1 x = l x)
    (hq : ∀ x, x ≠ b → q1 x = q x)
    (hb : b < nbuf → r1 b = (if l1 b then 1 else 0) + q1 b ∧ r1 b + 1 < UINT) :
    ∀ x, x < nbuf → r1 x = (if l1 x then 1 else 0) + q1 x ∧ r1 x + 1 < UINT := by
  intro x hx
  by_cases hxb : x = b
  · subst hxb; exact hb hx
  · rw [hr x hxb, hl x hxb, hq x hxb]; exact h x hx

theorem afterBget_st (nbuf : Nat) (g : Sys) (s1 : State) (i : Nat) (pend : Nat → Nat) :
    (afterBget nbuf g s1 i pend).st = s1 := rfl

theorem afterBget_pend (nbuf : Nat) (g : Sys) (s1 : State) (i : Nat) (pend : Nat → Nat) :
    (afterBget nbuf g s1 i pend).pend = pend := rfl

theorem bread_of_bget_ok {nbuf p dev blk : Nat} {s s1 : State} {b : Nat}
    (h : bget nbuf p dev blk s = Res.ok b s1) :
    bread nbuf p dev blk s = Res.ok b (bread_fill s1 b) := by
  simp [bread, h]

theorem bread_of_bget_sleep {nbuf p dev blk : Nat} {s s1 : State} {b : Nat}
    (h : bget nbuf p dev blk s = Res.sleep b s1) :
    bread nbuf p dev blk s = Res.sleep b s1 := by
  simp [bread, h]

theorem bread_of_bget_panic {nbuf p dev blk : Nat} {s s1 : State} {m : Panic}
    (h : bget nbuf p dev blk s = Res.panic m s1) :
    bread nbuf p dev blk s = Res.panic m s1 := by
  simp [bread, h]

theorem exec_bread_inv {nbuf : Nat} {g g1 : Sys} {L : Nat → List Nat} {p dev blk : Nat}
    (I : Inv nbuf g L) (h : exec nbuf g (Call.bread p dev blk) = some g1) :
    ∃ L1, Inv nbuf g1 L1 := by
  have hh : blk % NBUCKETS < NBUCKETS := Nat.mod_lt _ (by decide)
  rcases bget_out I.shape p dev blk with ⟨s1, hb, _⟩ | ⟨b, s1, L1, hb, O⟩
  · simp [exec, bread_of_bget_panic hb] at h
  have hbn : b < nbuf := O.shape.rings.lt _ hh b O.mem
  obtain ⟨hrf, hU⟩ := I.refs b hbn
  have hmod : (g.st.refcnt b + 1) % UINT = g.st.refcnt b + 1 := Nat.mod_eq_of_lt hU
  have hrc := O.refcnt
  rw [hmod] at hrc
  obtain ⟨H1, A1⟩ := O.inv I.home I.acct
  have hval : ∀ c, s1.valid c = 0 ∨ s1.valid c = 1 := by
    intro c
    by_cases hcb : c = b
    · subst hcb
      rcases O.kind with ⟨_, _, hv, _⟩ | ⟨_, _, hv, _⟩
      · rw [hv]; exact I.valid c
      · exact Or.inl hv
    · rw [(O.frame c hcb).2.2]; exact I.valid c
  rcases acquiresleep_cases s1 p b with ⟨hl, ha⟩ | ⟨hl, ha⟩
  · rw [ha] at hb
    simp only [exec, bread_of_bget_sleep hb] at h
    split at h
    swap
    · exact absurd h (by simp)
    rename_i hguard
    injection h with h
    subst h
    refine ⟨L1, O.shape, H1, A1, ?_, ?_, I.clock, hval⟩
    · refine refs_upd b _ _ _ I.refs ?_ ?_ ?_ ?_
      · intro x hx; rw [afterBget_st, hrc, upd_other _ _ _ _ hx]
      · intro x _; rw [afterBget_st, O.locked]
      · intro x hx; rw [afterBget_pend, upd_other _ _ _ _ hx]
      · intro _
        rw [afterBget_st, afterBget_pend, hrc, upd_same, upd_same]
        rw [O.locked] at hl
        rw [O.locked, hl]
        rw [hl] at hrf
        simp only [if_true] at hrf ⊢
        omega
    · exact order_bget _ hh (bucketList_ring I.shape.rings hh) (bucketList_ring O.shape.rings hh)
        I.order O.sub O.app
  · rw [ha] at hb
    simp only [exec, bread_of_bget_ok hb] at h
    split at h
    swap
    · exact absurd h (by simp)
    rename_i hguard
    injection h with h
    subst h
    refine ⟨L1, ?_, ?_, ?_, ?_, ?_, I.clock, ?_⟩
    · rw [afterBget_st]
      exact O.shape.shape_congr (by rw [bread_fill_next]; rfl) (by rw [bread_fill_prev]; rfl)
    · rw [afterBget_st]
      exact H1.home_congr (by rw [bread_fill_blockno]; rfl) (by rw [bread_fill_refcnt]; rfl)
    · rw [afterBget_st]
      exact A1.acct_congr (by rw [bread_fill_freelist]; rfl) (by rw [bread_fill_refcnt]; rfl)
    · have e1 : (afterBget nbuf g (bread_fill (lockedBy s1 p b) b) (hash dev blk)
          g.pend).st.refcnt = upd g.st.refcnt b (g.st.refcnt b + 1) := by
        rw [afterBget_st, bread_fill_refcnt, ← hrc]; rfl
      have e2 : (afterBget nbuf g (bread_fill (lockedBy s1 p b) b) (hash dev blk)
          g.pend).st.locked = upd g.st.locked b true := by
        rw [afterBget_st, bread_fill_locked, ← O.locked]; rfl
      refine refs_upd b _ _ _ I.refs ?_ ?_ ?_ ?_
      · intro x hx; rw [e1, upd_other _ _ _ _ hx]
      · intro x hx; rw [e2, upd_other _ _ _ _ hx]
      · intro x _; rfl
      · intro _
        rw [e1, e2, afterBget_pend, upd_same, upd_same]
        rw [O.locked] at hl
        rw [hl] at hrf
        simp at hrf
        simp only [if_true]
        omega
    · refine order_bget _ hh (bucketList_ring I.shape.rings hh) (bucketList_ring ?_ hh)
        I.order O.sub O.app
      rw [bread_fill_next, bread_fill_prev]
      exact O.shape.rings
    · intro c
      have e3 : (afterBget nbuf g (bread_fill (lockedBy s1 p b) b) (hash dev blk)
          g.pend).st.valid = upd s1.valid b (if s1.valid b = 0 then 1 else s1.valid b) := by
        rw [afterBget_st, bread_fill_valid]; rfl
      rw [e3]
      by_cases hcb : c = b
      · rw [hcb, upd_same]
        rcases hval b with h0 | h1
        · rw [if_pos h0]; right; rfl
        · rw [if_neg (by omega)]; right; exact h1
      · rw [upd_other _ _ _ _ hcb]
        exact hval c

theorem exec_wake_inv {nbuf : Nat} {g g1 : Sys} {L : Nat → List Nat} {p b : Nat}
    (I : Inv nbuf g L) (h : exec nbuf g (Call.wake p b) = some g1) : Inv nbuf g1 L := by
  simp only [exec] at h
  split at h
  swap
  · exact absurd h (by simp)
  rename_i hg
  obtain ⟨hbn, hpend⟩ := hg
  rcases acquiresleep_cases g.st p b with ⟨hl, ha⟩ | ⟨hl, ha⟩
  · simp [bread_resume, ha] at h
  simp only [bread_resume, ha] at h
  injection h with h
  subst h
  refine ⟨?_, ?_, ?_, ?_, I.order, I.clock, ?_⟩
  · exact I.shape.shape_congr (by rw [bread_fill_next]; rfl) (by rw [bread_fill_prev]; rfl)
  · exact I.home.home_congr (by rw [bread_fill_blockno]; rfl) (by rw [bread_fill_refcnt]; rfl)
  · exact I.acct.acct_congr (by rw [bread_fill_freelist]; rfl) (by rw [bread_fill_refcnt]; rfl)
  · have e1 : (bread_fill (lockedBy g.st p b) b).refcnt = g.st.refcnt := by
      rw [bread_fill_refcnt]; rfl
    have e2 : (bread_fill (lockedBy g.st p b) b).locked = upd g.st.locked b true := by
      rw [bread_fill_locked]; rfl
    refine refs_upd b _ _ _ I.refs ?_ ?_ ?_ ?_
    · intro x _; show (bread_fill (lockedBy g.st p b) b).refcnt x = _; rw [e1]
    · intro x hx; show (bread_fill (lockedBy g.st p b) b).locked x = _
      rw [e2, upd_other _ _ _ _ hx]
    · intro x hx; show upd g.pend b (g.pend b - 1) x = _; rw [upd_other _ _ _ _ hx]
    · intro _
      show (bread_fill (lockedBy g.st p b) b).refcnt b
        = (if (bread_fill (lockedBy g.st p b) b).locked b then 1 else 0)
          + upd g.pend b (g.pend b - 1) b ∧ (bread_fill (lockedBy g.st p b) b).refcnt b + 1 < UINT
      rw [e1, e2, upd_same, upd_same]
      obtain ⟨h1, h2⟩ := I.refs b hbn
      rw [hl] at h1
      simp at h1
      simp only [if_true]
      omega
  · intro c
    have e3 : (bread_fill (lockedBy g.st p b) b).valid
        = upd g.st.valid b (if g.st.valid b = 0 then 1 else g.st.valid b) := by
      rw [bread_fill_valid]; rfl
    show (bread_fill (lockedBy g.st p b) b).valid c = 0 ∨ _
    rw [e3]
    by_cases hcb : c = b
    · rw [hcb, upd_same]
      rcases I.valid b with h0 | h1
      · rw [if_pos h0]; right; rfl
      · rw [if_neg (by omega)]; right; exact h1
    · rw [upd_other _ _ _ _ hcb]
      exact I.valid c

theorem exec_bwrite_inv {nbuf : Nat} {g g1 : Sys} {L : Nat → List Nat} {p b : Nat}
    (I : Inv nbuf g L) (h : exec nbuf g (Call.bwrite p b) = some g1) : Inv nbuf g1 L := by
  simp only [exec, bwrite] at h
  split at h
  swap
  · exact absurd h (by simp)
  split at h
  swap
  · exact absurd h (by simp)
  rename_i _ _ _ s1 hres
  split at hres
  swap
  · exact absurd hres (by simp)
  injection hres with _ hs
  subst hs
  injection h with h
  subst h
  exact ⟨I.shape.shape_congr rfl rfl, I.home.home_congr rfl rfl, I.acct.acct_congr rfl rfl, I.refs, I.order,
    I.clock, I.valid⟩

theorem exec_bpin_inv {nbuf : Nat} {g g1 : Sys} {L : Nat → List Nat} {b : Nat}
    (I : Inv nbuf g L) (h : exec nbuf g (Call.bpin b) = some g1) : Inv nbuf g1 L := by
  simp only [exec] at h
  split at h
  swap
  · exact absurd h (by simp)
  rename_i hg
  obtain ⟨hbn, hpos, hlim⟩ := hg
  injection h with h
  subst h
  obtain ⟨i, hi, hbi⟩ := I.shape.cover b hbn
  have hmod : (g.st.refcnt b + 1) % UINT = g.st.refcnt b + 1 := Nat.mod_eq_of_lt (by omega)
  have e1 : (bpin g.st b).refcnt = upd g.st.refcnt b (g.st.refcnt b + 1) := by
    show upd g.st.refcnt b ((g.st.refcnt b + 1) % UINT) = _
    rw [hmod]
  refine ⟨I.shape.shape_congr rfl rfl, ?_, ?_, ?_, I.order, I.clock, I.valid⟩
  · refine Home.refcnt _ b I.home rfl ?_ ?_
    · intro x hx; rw [e1, upd_other _ _ _ _ hx]
    · intro _ j hj hbj
      exact I.home j hj b hbj (by omega)
  · refine Acct.step _ b I.shape.rings I.acct hi hbi ?_ ?_ ?_
    · intro x hx; rw [e1, upd_other _ _ _ _ hx]
    · intro j _; rfl
    · rw [e1, upd_same]
      have : (bpin g.st b).freelist = g.st.freelist := rfl
      rw [this]
      have h1 : ¬ g.st.refcnt b = 0 := by omega
      simp [h1]
  · refine refs_upd b _ _ _ I.refs ?_ ?_ ?_ ?_
    · intro x hx; show (bpin g.st b).refcnt x = _; rw [e1, upd_other _ _ _ _ hx]
    · intro x _; rfl
    · intro x hx; show upd g.pend b (g.pend b + 1) x = _; rw [upd_other _ _ _ _ hx]
    · intro _
      show (bpin g.st b).refcnt b = (if g.st.locked b then 1 else 0)
        + upd g.pend b (g.pend b + 1) b ∧ (bpin g.st b).refcnt b + 1 < UINT
      rw [e1, upd_same, upd_same]
      obtain ⟨h1, _⟩ := I.refs b hbn
      omega

theorem exec_bunpin_inv {nbuf : Nat} {g g1 : Sys} {L : Nat → List Nat} {b : Nat}
    (I : Inv nbuf g L) (h : exec nbuf g (Call.bunpin b) = some g1) : Inv nbuf g1 L := by
  simp only [exec] at h
  split at h
  swap
  · exact absurd h (by simp)
  rename_i hg
  obtain ⟨hbn, hpend⟩ := hg
  injection h with h
  subst h
  obtain ⟨i, hi, hbi⟩ := I.shape.cover b hbn
  obtain ⟨hr1, hr2⟩ := I.refs b hbn
  have hpos : 0 < g.st.refcnt b := by omega
  have hmod : (g.st.refcnt b + UINT - 1) % UINT = g.st.refcnt b - 1 := by
    have : g.st.refcnt b + UINT - 1 = (g.st.refcnt b - 1) + UINT := by omega
    rw [this, Nat.add_mod_right]
    exact Nat.mod_eq_of_lt (by omega)
  have e1 : (bunpin g.st b).refcnt = upd g.st.refcnt b (g.st.refcnt b - 1) := by
    show upd g.st.refcnt b ((g.st.refcnt b + UINT - 1) % UINT) = _
    rw [hmod]
  refine ⟨I.shape.shape_congr rfl rfl, ?_, ?_, ?_, I.order, I.clock, I.valid⟩
  · refine Home.refcnt _ b I.home rfl ?_ ?_
    · intro x hx; rw [e1, upd_other _ _ _ _ hx]
    · intro _ j hj hbj
      exact I.home j hj b hbj (by omega)
  · refine Acct.step _ b I.shape.rings I.acct hi hbi ?_ ?_ ?_
    · intro x hx; rw [e1, upd_other _ _ _ _ hx]
    · intro j _; rfl
    · rw [e1, upd_same]
      have : (bunpin g.st b).freelist = g.st.freelist := rfl
      rw [this]
      have h1 : ¬ g.st.refcnt b = 0 := by omega
      simp only [h1, if_false]
      split_ifs <;> omega
  · refine refs_upd b _ _ _ I.refs ?_ ?_ ?_ ?_
    · intro x hx; show (bunpin g.st b).refcnt x = _; rw [e1, upd_other _ _ _ _ hx]
    · intro x _; rfl
    · intro x hx; show upd g.pend b (g.pend b - 1) x = _; rw [upd_other _ _ _ _ hx]
    · intro _
      show (bunpin g.st b).refcnt b = (if g.st.locked b then 1 else 0)
        + upd g.pend b (g.pend b - 1) b ∧ (bunpin g.st b).refcnt b + 1 < UINT
      rw [e1, upd_same, upd_same]
      omega

/-- State after `brelse` of the last reference: the buffer goes to the head of
the list of the bucket of its identity and the counter of that bucket grows. -/
theorem brelse_cs_zero (nbuf b : Nat) (s : State)
    (hz : (s.refcnt b + UINT - 1) % UINT = 0) :
    brelse_cs nbuf b s
      = { buf_insert_head (buf_unlink s b) (nbuf + s.blockno b % NBUCKETS) b with
          refcnt := upd s.refcnt b 0,
          freelist := upd s.freelist (s.blockno b % NBUCKETS)
            (s.freelist (s.blockno b % NBUCKETS) + 1),
          locked := upd s.locked b false,
          lkpid := upd s.lkpid b 0,
          log := s.log ++ [Ev.releasesleep b, Ev.acquire (s.blockno b % NBUCKETS),
            Ev.release (s.blockno b % NBUCKETS)] } := by
  simp [brelse_cs, logEv, releasesleep, hash, bucketAddr, upd_same, hz, buf_insert_head,
    buf_unlink]

/-- State after `brelse` when references remain: only the counter of the buffer
and its access lock change. -/
theorem brelse_cs_pos (nbuf b : Nat) (s : State)
    (hz : (s.refcnt b + UINT - 1) % UINT ≠ 0) :
    brelse_cs nbuf b s
      = { s with
          refcnt := upd s.refcnt b ((s.refcnt b + UINT - 1) % UINT),
          locked := upd s.locked b false,
          lkpid := upd s.lkpid b 0,
          log := s.log ++ [Ev.releasesleep b, Ev.acquire (s.blockno b % NBUCKETS),
            Ev.release (s.blockno b % NBUCKETS)] } := by
  simp [brelse_cs, logEv, releasesleep, hash, upd_same, hz]

theorem afterBrelse_st (g : Sys) (s1 : State) (b : Nat) : (afterBrelse g s1 b).st = s1 := rfl

theorem afterBrelse_pend (g : Sys) (s1 : State) (b : Nat) : (afterBrelse g s1 b).pend = g.pend :=
  rfl

theorem exec_brelse_inv {nbuf : Nat} {g g1 : Sys} {L : Nat → List Nat} {p b : Nat}
    (I : Inv nbuf g L) (h : exec nbuf g (Call.brelse p b) = some g1) :
    ∃ L1, Inv nbuf g1 L1 := by
  simp only [exec, brelse] at h
  split at h
  swap
  · exact absurd h (by simp)
  rename_i hbn
  split at h
  swap
  · exact absurd h (by simp)
  rename_i hres
  split at hres
  swap
  · exact absurd hres (by simp)
  rename_i hold
  injection hres with _ hs
  subst hs
  injection h with h
  subst h
  have hlk : g.st.locked b = true := by
    simp only [holdingsleep, Bool.and_eq_true] at hold
    exact hold.1
  obtain ⟨hr1, hr2⟩ := I.refs b hbn
  rw [hlk] at hr1
  simp only [if_true] at hr1
  have hpos : g.st.refcnt b ≠ 0 := by omega
  have hmod : (g.st.refcnt b + UINT - 1) % UINT = g.st.refcnt b - 1 := by
    have : g.st.refcnt b + UINT - 1 = (g.st.refcnt b - 1) + UINT := by omega
    rw [this, Nat.add_mod_right]
    exact Nat.mod_eq_of_lt (by omega)
  obtain ⟨i, hi, hbi⟩ := I.shape.cover b hbn
  have hhome : g.st.blockno b % NBUCKETS = i := I.home i hi b hbi hpos
  by_cases hz : (g.st.refcnt b + UINT - 1) % UINT = 0
  · have e := brelse_cs_zero nbuf b g.st hz
    rw [hhome] at e
    have hp0 : g.pend b = 0 := by omega
    obtain ⟨S1, H1, A1⟩ := release_inv (brelse_cs nbuf b g.st) I.shape I.home I.acct hi hbi hpos
      (by rw [e]) (by rw [e]) (by rw [e]; rfl) (by rw [e]) (by rw [e])
    have erc : (brelse_cs nbuf b g.st).refcnt = upd g.st.refcnt b 0 := by rw [e]
    have elk : (brelse_cs nbuf b g.st).locked = upd g.st.locked b false := by rw [e]
    have evl : (brelse_cs nbuf b g.st).valid = g.st.valid := by rw [e]; rfl
    refine ⟨upd L i (b :: (L i).erase b), S1, H1, A1, ?_, ?_, ?_, ?_⟩
    · refine refs_upd b _ _ _ I.refs ?_ ?_ ?_ ?_
      · intro x hx; rw [afterBrelse_st, erc, upd_other _ _ _ _ hx]
      · intro x hx; rw [afterBrelse_st, elk, upd_other _ _ _ _ hx]
      · intro x _; rfl
      · intro _
        rw [afterBrelse_st, afterBrelse_pend, erc, elk, upd_same, upd_same, hp0]
        exact ⟨rfl, by decide⟩
    · intro j hj
      have hpl : (afterBrelse g (brelse_cs nbuf b g.st) b).placed = upd g.placed b true := by
        show upd g.placed b (decide ((brelse_cs nbuf b g.st).refcnt b = 0)) = _
        rw [erc, upd_same]; rfl
      have hrl : (afterBrelse g (brelse_cs nbuf b g.st) b).rel = upd g.rel b (g.clock + 1) := rfl
      rw [hpl, hrl]
      have hkeep : ∀ l : List Nat, b ∉ l →
          l.Pairwise (fun x y => g.placed x = true → g.placed y = true → g.rel y < g.rel x) →
          l.Pairwise (fun x y => upd g.placed b true x = true → upd g.placed b true y = true →
            upd g.rel b (g.clock + 1) y < upd g.rel b (g.clock + 1) x) := by
        intro l hbl hp
        refine hp.imp_of_mem ?_
        intro x y hx hy hr
        have hxb : x ≠ b := fun e => hbl (e ▸ hx)
        have hyb : y ≠ b := fun e => hbl (e ▸ hy)
        simpa [upd, hxb, hyb] using hr
      by_cases hji : j = i
      · subst hji
        rw [upd_same]
        have hbe : b ∉ (L j).erase b :=
          fun hm => ((List.Nodup.mem_erase_iff (I.shape.rings.nodup j hj)).1 hm).1 rfl
        refine List.pairwise_cons.2 ⟨?_, hkeep _ hbe ((I.order j hj).sublist (List.erase_sublist _ _))⟩
        intro y hy _ _
        have hyb : y ≠ b := fun e => hbe (e ▸ hy)
        rw [upd_same, upd_other _ _ _ _ hyb]
        have := I.clock y
        omega
      · rw [upd_other _ _ _ _ hji]
        exact hkeep _ (fun hm => hji (I.shape.rings.disj j i hj hi b hm hbi)) (I.order j hj)
    · intro c
      show upd g.rel b (g.clock + 1) c ≤ g.clock + 1
      by_cases hcb : c = b
      · rw [hcb, upd_same]
      · rw [upd_other _ _ _ _ hcb]
        have := I.clock c
        omega
    · intro c
      rw [afterBrelse_st, evl]
      exact I.valid c
  · have e := brelse_cs_pos nbuf b g.st hz
    have erc : (brelse_cs nbuf b g.st).refcnt = upd g.st.refcnt b (g.st.refcnt b - 1) := by
      rw [e, hmod]
    have elk : (brelse_cs nbuf b g.st).locked = upd g.st.locked b false := by rw [e]
    have evl : (brelse_cs nbuf b g.st).valid = g.st.valid := by rw [e]
    have hne : g.st.refcnt b - 1 ≠ 0 := by rw [← hmod]; exact hz
    refine ⟨L, ?_, ?_, ?_, ?_, ?_, ?_, ?_⟩
    · rw [afterBrelse_st]
      exact I.shape.shape_congr (by rw [e]) (by rw [e])
    · rw [afterBrelse_st]
      refine Home.refcnt _ b I.home (by rw [e]) ?_ ?_
      · intro x hx; rw [erc, upd_other _ _ _ _ hx]
      · intro _ j hj hbj
        exact I.home j hj b hbj hpos
    · rw [afterBrelse_st]
      refine Acct.step _ b I.shape.rings I.acct hi hbi ?_ ?_ ?_
      · intro x hx; rw [erc, upd_other _ _ _ _ hx]
      · intro j _; rw [e]
      · rw [erc, upd_same]
        have : (brelse_cs nbuf b g.st).freelist = g.st.freelist := by rw [e]
        rw [this]
        simp [hpos, hne]
    · refine refs_upd b _ _ _ I.refs ?_ ?_ ?_ ?_
      · intro x hx; rw [afterBrelse_st, erc, upd_other _ _ _ _ hx]
      · intro x hx; rw [afterBrelse_st, elk, upd_other _ _ _ _ hx]
      · intro x _; rfl
      · intro _
        rw [afterBrelse_st, afterBrelse_pend, erc, elk, upd_same, upd_same]
        simp
        omega
    · intro j hj
      have hpl : (afterBrelse g (brelse_cs nbuf b g.st) b).placed = upd g.placed b false := by
        show upd g.placed b (decide ((brelse_cs nbuf b g.st).refcnt b = 0)) = _
        rw [erc, upd_same]
        simp [hne]
      have hrl : (afterBrelse g (brelse_cs nbuf b g.st) b).rel = upd g.rel b (g.clock + 1) := rfl
      rw [hpl, hrl]
      refine (I.order j hj).imp ?_
      intro x y hr hx hy
      have hxb : x ≠ b := by
        intro e; rw [e, upd_same] at hx; exact absurd hx (by simp)
      have hyb : y ≠ b := by
        intro e; rw [e, upd_same] at hy; exact absurd hy (by simp)
      rw [upd_other _ _ _ _ hxb] at hx ⊢
      rw [upd_other _ _ _ _ hyb] at hy ⊢
      exact hr hx hy
    · intro c
      show upd g.rel b (g.clock + 1) c ≤ g.clock + 1
      by_cases hcb : c = b
      · rw [hcb, upd_same]
      · rw [upd_other _ _ _ _ hcb]
        have := I.clock c
        omega
    · intro c
      rw [afterBrelse_st, evl]
      exact I.valid c

/-- Every call made under the caller contract preserves the invariant. -/
theorem exec_inv {nbuf : Nat} {g g1 : Sys} {L : Nat → List Nat} (I : Inv nbuf g L) :
    ∀ c, exec nbuf g c = some g1 → ∃ L1, Inv nbuf g1 L1
  | Call.bread _ _ _, h => exec_bread_inv I h
  | Call.wake _ _, h => ⟨L, exec_wake_inv I h⟩
  | Call.bwrite _ _, h => ⟨L, exec_bwrite_inv I h⟩
  | Call.brelse _ _, h => exec_brelse_inv I h
  | Call.bpin _, h => ⟨L, exec_bpin_inv I h⟩
  | Call.bunpin _, h => ⟨L, exec_bunpin_inv I h⟩

theorem run_inv {nbuf : Nat} :
    ∀ (cs : List Call) (g g1 : Sys) (L : Nat → List Nat), Inv nbuf g L →
      run nbuf g cs = some g1 → ∃ L1, Inv nbuf g1 L1
  | [], g, g1, L, I, h => by
    simp only [run] at h
    injection h with h
    subst h
    exact ⟨L, I⟩
  | c :: cs, g, g1, L, I, h => by
    simp only [run] at h
    split at h
    · exact absurd h (by simp)
    · rename_i g2 hc
      obtain ⟨L2, I2⟩ := exec_inv I c hc
      exact run_inv cs g2 g1 L2 I2 h

/-- The invariant holds in every reachable state. -/
theorem reach_inv {nbuf : Nat} {g : Sys} (h : Reach nbuf g) : ∃ L, Inv nbuf g L := by
  obtain ⟨disk, cs, hr⟩ := h
  obtain ⟨L0, I0⟩ := init_inv nbuf disk
  exact run_inv cs _ g L0 I0 hr

/-- Lists after the two unlinking statements and `buf_insert_head` on a buffer
of bucket `h`: the buffer moves to the head of the list of `h`. -/
theorem rings_release {nbuf : Nat} {s : State} {L : Nat → List Nat} {h b : Nat}
    (R : Rings nbuf s.next s.prev L) (hh : h < NBUCKETS) (hb : b ∈ L h) :
    Rings nbuf (buf_insert_head (buf_unlink s b) (nbuf + h) b).next
      (buf_insert_head (buf_unlink s b) (nbuf + h) b).prev (upd L h (b :: (L h).erase b)) := by
  have hbn1 : b < nbuf := R.lt h hh b hb
  have hbe : b ∉ (L h).erase b := fun hm => ((List.Nodup.mem_erase_iff (R.nodup h hh)).1 hm).1 rfl
  have R1 := R.ring_unlink hh hb
  have R2 := R1.ring_insert_head (b := b) hh hbn1 (by
    intro j hj
    by_cases hjh : j = h
    · subst hjh; simpa [upd] using hbe
    · simp only [upd, hjh, if_false]
      exact fun hm => hjh (R.disj j h hj hh b hm hb))
  rw [upd_same, upd_upd_same] at R2
  exact R2

/-- A `bread` that returns has run `bget` up to the access lock, taken the
free lock and filled the buffer. -/
theorem bread_ok_out {nbuf : Nat} {s s1 : State} {L : Nat → List Nat} {p dev blk b : Nat}
    (S : Shape nbuf s L) (h : bread nbuf p dev blk s = Res.ok b s1) :
    ∃ sc L1, BgetOut nbuf s L dev blk b sc L1 ∧ sc.locked b = false ∧
      bget nbuf p dev blk s = Res.ok b (lockedBy sc p b) ∧
      s1 = bread_fill (lockedBy sc p b) b := by
  rcases bget_out S p dev blk with ⟨s2, hb, _⟩ | ⟨c, sc, L1, hb, O⟩
  · rw [bread_of_bget_panic hb] at h
    exact absurd h (by simp)
  rcases acquiresleep_cases sc p c with ⟨hl, ha⟩ | ⟨hl, ha⟩
  · rw [ha] at hb
    rw [bread_of_bget_sleep hb] at h
    exact absurd h (by simp)
  · rw [ha] at hb
    rw [bread_of_bget_ok hb] at h
    injection h with h1 h2
    subst h1
    exact ⟨sc, L1, O, hl, hb, h2.symm⟩

theorem sub_one_mod_of_one : (1 + UINT - 1) % UINT = 0 := by decide

/-- A lookup that finds `b` first returns `b` when the access lock is free,
without any device read when the content is valid. -/
theorem bread_hit {nbuf : Nat} {s : State} {L : Nat → List Nat} {q dev blk b : Nat}
    (R : Rings nbuf s.next s.prev L)
    (hf : (L (blk % NBUCKETS)).find? (sameId s dev blk) = some b)
    (hl : s.locked b = false) (hv : s.valid b = 1) :
    ∃ s3, bread nbuf q dev blk s = Res.ok b s3 ∧ s3.valid b = 1 ∧ s3.data = s.data ∧
      s3.reads = s.reads := by
  rcases bget_cases R q dev blk with ⟨c, hc, hb⟩ | ⟨hc, _⟩
  swap
  · rw [hf] at hc; exact absurd hc (by simp)
  rw [hf] at hc
  injection hc with hc
  subst hc
  rcases acquiresleep_cases (bget_hit_cs (logEv s (Ev.acquire (blk % NBUCKETS)))
    (blk % NBUCKETS) b) q b with ⟨hl1, _⟩ | ⟨_, ha⟩
  · have : (bget_hit_cs (logEv s (Ev.acquire (blk % NBUCKETS))) (blk % NBUCKETS) b).locked b
        = s.locked b := rfl
    rw [this, hl] at hl1
    exact absurd hl1 (by simp)
  rw [ha] at hb
  refine ⟨_, bread_of_bget_ok hb, ?_, ?_, ?_⟩
  · rw [bread_fill_valid, upd_same]
    have : (lockedBy (bget_hit_cs (logEv s (Ev.acquire (blk % NBUCKETS))) (blk % NBUCKETS) b)
        q b).valid b = s.valid b := rfl
    rw [this, hv]
    rfl
  · rw [bread_fill_data]
    have : (lockedBy (bget_hit_cs (logEv s (Ev.acquire (blk % NBUCKETS))) (blk % NBUCKETS) b)
        q b).valid b = s.valid b := rfl
    rw [this, hv]
    rfl
  · rw [bread_fill_reads]
    have : (lockedBy (bget_hit_cs (logEv s (Ev.acquire (blk % NBUCKETS))) (blk % NBUCKETS) b)
        q b).valid b = s.valid b := rfl
    rw [this, hv]
    rfl

/-- In every reachable state, a `bread (dev, blockno)` that returns the buffer
`b` without waiting for its access lock, followed at once by `brelse b` and by
a second `bread (dev, blockno)` of any process, returns the same buffer `b`;
`valid` is 1 after the first and after the second `bread`, the content is the
same, and neither `brelse` nor the second `bread` issues a device read. -/
theorem release_then_reacquire_hits (nbuf : Nat) (g : Sys) (p dev blk b : Nat) (s1 : State)
    (hr : Reach nbuf g) (h : bread nbuf p dev blk g.st = Res.ok b s1) :
    s1.valid b = 1 ∧ brelse nbuf p b s1 = Res.ok () (brelse_cs nbuf b s1) ∧
      (brelse_cs nbuf b s1).reads = s1.reads ∧
      ∀ q, ∃ s3, bread nbuf q dev blk (brelse_cs nbuf b s1) = Res.ok b s3 ∧
        s3.valid b = 1 ∧ s3.data b = s1.data b ∧ s3.reads = s1.reads := by
  obtain ⟨L, I⟩ := reach_inv hr
  obtain ⟨sc, L1, O, _, _, hs1⟩ := bread_ok_out I.shape h
  have hh : blk % NBUCKETS < NBUCKETS := Nat.mod_lt _ (by decide)
  have e_next : s1.next = sc.next := by rw [hs1, bread_fill_next]; rfl
  have e_prev : s1.prev = sc.prev := by rw [hs1, bread_fill_prev]; rfl
  have e_dev : s1.dev = sc.dev := by rw [hs1, bread_fill_dev]; rfl
  have e_blk : s1.blockno = sc.blockno := by rw [hs1, bread_fill_blockno]; rfl
  have e_ref : s1.refcnt = sc.refcnt := by rw [hs1, bread_fill_refcnt]; rfl
  have e_lk : s1.locked b = true := by
    rw [hs1, bread_fill_locked]; show upd sc.locked b true b = true; rw [upd_same]
  have e_pid : s1.lkpid b = p := by
    rw [hs1, bread_fill_lkpid]; show upd sc.lkpid b p b = p; rw [upd_same]
  have hscv : sc.valid b = 0 ∨ sc.valid b = 1 := by
    rcases O.kind with ⟨_, _, hv, _⟩ | ⟨_, _, hv, _⟩
    · rw [hv]; exact I.valid b
    · exact Or.inl hv
  have e_val : s1.valid b = 1 := by
    rw [hs1, bread_fill_valid, upd_same]
    show (if sc.valid b = 0 then 1 else sc.valid b) = 1
    rcases hscv with h0 | h1
    · rw [if_pos h0]
    · rw [if_neg (by omega)]; exact h1
  have hold : holdingsleep s1 p b = true := by
    simp [holdingsleep, e_lk, e_pid]
  have hbr : brelse nbuf p b s1 = Res.ok () (brelse_cs nbuf b s1) := by
    simp [brelse, hold]
  have R1 : Rings nbuf s1.next s1.prev L1 := by rw [e_next, e_prev]; exact O.shape.rings
  have hblk : s1.blockno b = blk := by rw [e_blk]; exact O.blockno_eq
  have hdev : s1.dev b = dev := by rw [e_dev]; exact O.dev_eq
  refine ⟨e_val, hbr, ?_, ?_⟩
  · by_cases hz : (s1.refcnt b + UINT - 1) % UINT = 0
    · rw [brelse_cs_zero nbuf b s1 hz]; rfl
    · rw [brelse_cs_pos nbuf b s1 hz]
  intro q
  by_cases hz : (s1.refcnt b + UINT - 1) % UINT = 0
  · have e := brelse_cs_zero nbuf b s1 hz
    rw [hblk] at e
    have R2 : Rings nbuf (brelse_cs nbuf b s1).next (brelse_cs nbuf b s1).prev
        (upd L1 (blk % NBUCKETS) (b :: (L1 (blk % NBUCKETS)).erase b)) := by
      have := rings_release R1 hh O.mem
      rw [e]
      exact this
    have hfind : (upd L1 (blk % NBUCKETS) (b :: (L1 (blk % NBUCKETS)).erase b)
        (blk % NBUCKETS)).find? (sameId (brelse_cs nbuf b s1) dev blk) = some b := by
      rw [upd_same, List.find?_cons]
      have : sameId (brelse_cs nbuf b s1) dev blk b = true := by
        have e1 : (brelse_cs nbuf b s1).dev = s1.dev := by rw [e]; rfl
        have e2 : (brelse_cs nbuf b s1).blockno = s1.blockno := by rw [e]; rfl
        simp [sameId, e1, e2, hdev, hblk]
      rw [this]
    have hl2 : (brelse_cs nbuf b s1).locked b = false := by
      rw [e]; show upd s1.locked b false b = false; rw [upd_same]
    have hv2 : (brelse_cs nbuf b s1).valid b = 1 := by
      have : (brelse_cs nbuf b s1).valid = s1.valid := by rw [e]; rfl
      rw [this]; exact e_val
    obtain ⟨s3, g1, g2, g3, g4⟩ := bread_hit (q := q) R2 hfind hl2 hv2
    refine ⟨s3, g1, g2, ?_, ?_⟩
    · rw [g3, e]; rfl
    · rw [g4, e]; rfl
  · have e := brelse_cs_pos nbuf b s1 hz
    have R2 : Rings nbuf (brelse_cs nbuf b s1).next (brelse_cs nbuf b s1).prev L1 := by
      rw [e]; exact R1
    have hfind : (L1 (blk % NBUCKETS)).find? (sameId (brelse_cs nbuf b s1) dev blk)
        = some b := by
      rcases O.kind with ⟨hf, hL, _, hd, hbn, _⟩ | ⟨_, hlf, _⟩
      · have : sameId (brelse_cs nbuf b s1) dev blk = sameId g.st dev blk := by
          have e1 : (brelse_cs nbuf b s1).dev = g.st.dev := by rw [e]; rw [← hd, ← e_dev]
          have e2 : (brelse_cs nbuf b s1).blockno = g.st.blockno := by
            rw [e]; rw [← hbn, ← e_blk]
          funext c; simp [sameId, e1, e2]
        rw [this, hL]; exact hf
      · exfalso
        have h0 := (lastFree_some hlf).2
        have : s1.refcnt b = 1 := by
          rw [e_ref, O.refcnt, upd_same, h0]; decide
        rw [this] at hz
        exact hz sub_one_mod_of_one
    have hl2 : (brelse_cs nbuf b s1).locked b = false := by
      rw [e]; show upd s1.locked b false b = false; rw [upd_same]
    have hv2 : (brelse_cs nbuf b s1).valid b = 1 := by
      have : (brelse_cs nbuf b s1).valid = s1.valid := by rw [e]
      rw [this]; exact e_val
    obtain ⟨s3, g1, g2, g3, g4⟩ := bread_hit (q := q) R2 hfind hl2 hv2
    refine ⟨s3, g1, g2, ?_, ?_⟩
    · rw [g3, e]
    · rw [g4, e]

/-- C7: for every state and buffer, `brelse` and `bwrite` panic exactly when
the caller does not hold the access lock of the buffer, and the kernel then
halts in the unchanged state (no `refcnt`, counter or link is modified);
otherwise both complete; and a `brelse` that follows a completed `brelse` of
the same caller on the same buffer panics. -/
theorem lock_discipline (nbuf : Nat) (s : State) (p b : Nat) :
    (holdingsleep s p b = false →
      brelse nbuf p b s = Res.panic Panic.brelse s ∧ bwrite p b s = Res.panic Panic.bwrite s) ∧
    (holdingsleep s p b = true →
      brelse nbuf p b s = Res.ok () (brelse_cs nbuf b s) ∧
      bwrite p b s = Res.ok () (virtio_disk_rw s b true)) ∧
    (∀ s1, brelse nbuf p b s = Res.ok () s1 → brelse nbuf p b s1 = Res.panic Panic.brelse s1) := by
  refine ⟨fun h => ?_, fun h => ?_, fun s1 h => ?_⟩
  · simp [brelse, bwrite, h]
  · simp [brelse, bwrite, h]
  · have hold : holdingsleep s p b = true := by
      by_contra hc
      simp [brelse, hc] at h
    simp only [brelse, hold, if_true] at h
    injection h with _ h
    subst h
    have hl : (brelse_cs nbuf b s).locked b = false := by
      by_cases hz : (s.refcnt b + UINT - 1) % UINT = 0
      · rw [brelse_cs_zero nbuf b s hz]; show upd s.locked b false b = false; rw [upd_same]
      · rw [brelse_cs_pos nbuf b s hz]; show upd s.locked b false b = false; rw [upd_same]
    simp [brelse, holdingsleep, hl]

/-- C3 (amended): in every reachable state in which the home bucket `X` of a
block has `freelist[X] == 0`, some bucket `Y` has `freelist[Y] >= 2` and the
lookup does not find the block in the list of `X`, `bread` of the block returns
a buffer (it neither panics nor hangs nor sleeps); the donor is the bucket `D`
returned by `find_richest_bucket`, which differs from `X` and has
`freelist[D] >= freelist[Y]`; afterwards `freelist[D]` is smaller by
`freelist[D] / 2 >= 1`, `freelist[X]` is `freelist[D] / 2 - 1`, and every other
counter is unchanged. -/
theorem rebalance_effect (nbuf : Nat) (g : Sys) (p dev blk Y : Nat) (hr : Reach nbuf g)
    (hX : g.st.freelist (blk % NBUCKETS) = 0) (hY : Y < NBUCKETS) (hY2 : 2 ≤ g.st.freelist Y)
    (hmiss : (bucketList nbuf g.st (blk % NBUCKETS)).find? (sameId g.st dev blk) = none) :
    ∃ b s1 D, bread nbuf p dev blk g.st = Res.ok b s1 ∧ D < NBUCKETS ∧
      find_richest_bucket g.st = (D : Int) ∧ D ≠ blk % NBUCKETS ∧
      g.st.freelist Y ≤ g.st.freelist D ∧
      s1.freelist D = g.st.freelist D - g.st.freelist D / 2 ∧
      s1.freelist D < g.st.freelist D ∧
      s1.freelist (blk % NBUCKETS) = g.st.freelist D / 2 - 1 ∧
      0 ≤ s1.freelist (blk % NBUCKETS) ∧
      ∀ i, i ≠ D → i ≠ blk % NBUCKETS → s1.freelist i = g.st.freelist i := by
  obtain ⟨L, I⟩ := reach_inv hr
  have hh : blk % NBUCKETS < NBUCKETS := Nat.mod_lt _ (by decide)
  have R := I.shape.rings
  rw [bucketList_ring R hh] at hmiss
  -- the donor
  obtain ⟨D, hD, hfr, hDpos, hDmax, _⟩ : ∃ D, D < NBUCKETS ∧ find_richest_bucket g.st = (D : Int) ∧
      0 < g.st.freelist D ∧ (∀ i, i < NBUCKETS → g.st.freelist i ≤ g.st.freelist D) ∧
      ∀ i, i < D → g.st.freelist i < g.st.freelist D := by
    rcases find_richest_spec g.st with ⟨_, h2⟩ | h
    · have := h2 Y hY; omega
    · exact h
  have hDY := hDmax Y hY
  have hDX : D ≠ blk % NBUCKETS := by intro e; rw [e, hX] at hDpos; omega
  have hk : stealCount g.st D = g.st.freelist D / 2 := stealCount_of_nonneg (le_of_lt hDpos)
  have hkpos : 0 < stealCount g.st D := by rw [hk]; omega
  have hAD := I.acct D hD
  have huniq : ∀ d : Nat, find_richest_bucket g.st = (d : Int) → d = D := by
    intro d hd; rw [hfr] at hd; exact (Int.ofNat.inj hd).symm
  rcases bget_out I.shape p dev blk with ⟨s2, _, _, hwhy⟩ | ⟨b, sc, L1, hb, O⟩
  · exfalso
    rcases hwhy with ⟨h0, _⟩ | ⟨_, hneg⟩ | ⟨_, d, _, hd, _, hcase⟩
    · exact h0 hX
    · rw [hfr] at hneg; omega
    · have := huniq d hd
      subst this
      rcases hcase with hz | ⟨_, hlf⟩
      · omega
      · obtain ⟨_, ⟨mv, hm, hmv, hlen⟩, _⟩ := stealLists_rel R hh hD hDX
        have hn := lastFree_eq_none_iff.1 hlf
        rw [hm, nfree_append, nfree_all_free (fun c hc => (hmv c hc).2.2), hlen] at hn
        have : 0 < min (stealCount g.st d).toNat (nfree g.st (L d)) := by
          apply Nat.lt_min.2
          constructor <;> omega
        omega
  rcases O.kind with ⟨hf, _⟩ | ⟨_, hlf, _, F, hF, hcase⟩
  · rw [hf] at hmiss; exact absurd hmiss (by simp)
  rcases hcase with ⟨h0, _⟩ | ⟨_, d, _, hd, _, _, _, hFe⟩
  · exact absurd hX h0
  have := huniq d hd
  subst this
  have hb0 : g.st.refcnt b = 0 := (lastFree_some hlf).2
  have hbn : b < nbuf := O.shape.rings.lt _ hh b O.mem
  have hlk : sc.locked b = false := by
    rw [O.locked]
    have h1 := (I.refs b hbn).1
    rw [hb0] at h1
    cases hl : g.st.locked b with
    | false => rfl
    | true => rw [hl] at h1; simp at h1; omega
  rcases acquiresleep_cases sc p b with ⟨hl, _⟩ | ⟨_, ha⟩
  · rw [hlk] at hl; exact absurd hl (by simp)
  rw [ha] at hb
  have hfl : (bread_fill (lockedBy sc p b) b).freelist
      = upd F (blk % NBUCKETS) (F (blk % NBUCKETS) - 1) := by
    rw [bread_fill_freelist, ← hF]; rfl
  have hFv : F = upd (upd g.st.freelist (blk % NBUCKETS)
      (g.st.freelist (blk % NBUCKETS) + stealCount g.st d)) d
      (g.st.freelist d - stealCount g.st d) := by
    rw [hFe]; unfold stealFl; rw [if_pos hkpos, upd_other _ _ _ _ hDX]
  refine ⟨b, _, d, bread_of_bget_ok hb, hD, hfr, hDX, hDY, ?_, ?_, ?_, ?_, ?_⟩
  · rw [hfl, upd_other _ _ _ _ hDX, hFv, upd_same, hk]
  · rw [hfl, upd_other _ _ _ _ hDX, hFv, upd_same, hk]; omega
  · rw [hfl, upd_same, hFv, upd_other _ _ _ _ (Ne.symm hDX), upd_same, hX, hk]; omega
  · rw [hfl, upd_same, hFv, upd_other _ _ _ _ (Ne.symm hDX), upd_same, hX, hk]; omega
  · intro i hiD hiX
    rw [hfl, upd_other _ _ _ _ hiX, hFv, upd_other _ _ _ _ hiD, upd_other _ _ _ _ hiX]

theorem lastFree_split {s : State} {l : List Nat} {c : Nat} (h : lastFree s l = some c) :
    ∃ l1 l2, l = l1 ++ c :: l2 ∧ (∀ x ∈ l2, s.refcnt x ≠ 0) ∧ s.refcnt c = 0 := by
  unfold lastFree at h
  obtain ⟨hc, as, bs, e, hn⟩ := List.find?_eq_some.1 h
  refine ⟨bs.reverse, as.reverse, ?_, ?_, by simpa [isFree] using hc⟩
  · have := congrArg List.reverse e
    simpa using this
  · intro x hx
    have := hn x (by simpa using hx)
    simpa [isFree] using this

theorem lru_scan_free (s : State) (h : Nat) :
    ∀ (fuel x c : Nat), lru_scan s h fuel x = some (some c) → s.refcnt c = 0
  | 0, _, _, e => by simp [lru_scan] at e
  | fuel + 1, x, c, e => by
    simp only [lru_scan] at e
    split at e
    · simp at e
    · split at e
      · rename_i h0
        simp at e
        rw [← e]; exact h0
      · exact lru_scan_free s h fuel _ c e

theorem hit_scan_match (s : State) (h dev blk : Nat) :
    ∀ (fuel x c : Nat), hit_scan s h dev blk fuel x = some (some c) →
      s.dev c = dev ∧ s.blockno c = blk
  | 0, _, _, e => by simp [hit_scan] at e
  | fuel + 1, x, c, e => by
    simp only [hit_scan] at e
    split at e
    · simp at e
    · split at e
      · rename_i h0
        simp at e
        rw [← e]; exact h0
      · exact hit_scan_match s h dev blk fuel _ c e

theorem buf_remove_lru_out {nbuf : Nat} {s s1 : State} {head : Nat} {r : Option Nat}
    (e : buf_remove_lru nbuf s head = some (r, s1)) :
    (r = none ∧ s1 = s) ∨ (∃ c, r = some c ∧ s.refcnt c = 0 ∧ s1 = buf_unlink s c) := by
  unfold buf_remove_lru at e
  split at e
  · simp at e
  · simp at e; exact Or.inl ⟨e.1.symm, e.2.symm⟩
  · rename_i c hc
    simp at e
    exact Or.inr ⟨c, e.1.symm, lru_scan_free s head _ _ c hc, e.2.symm⟩

theorem steal_loop_relinked (nbuf t d : Nat) :
    ∀ (k : Nat) (s s1 : State), steal_loop nbuf t d k s = some s1 → Relinked s s1
  | 0, s, s1, e => by
    simp [steal_loop] at e
    rw [e]; exact Relinked.refl _
  | k + 1, s, s1, e => by
    simp only [steal_loop] at e
    split at e
    · simp at e
    · rename_i s2 hrm
      rcases buf_remove_lru_out hrm with ⟨_, h2⟩ | ⟨c, h1, _, _⟩
      · rw [h2] at e
        exact steal_loop_relinked nbuf t d k s s1 e
      · simp at h1
    · rename_i c s2 hrm
      rcases buf_remove_lru_out hrm with ⟨h1, _⟩ | ⟨c1, _, _, h3⟩
      · simp at h1
      · have := steal_loop_relinked nbuf t d k _ s1 e
        have h0 : Relinked s (buf_insert_tail s2 (bucketAddr nbuf t) c) := by
          rw [h3]; rfl
        exact Relinked.trans h0 this

theorem steal_buffers_same {nbuf t : Nat} {d n : Int} {s s1 : State}
    (e : steal_buffers nbuf t d s = some (n, s1)) :
    s1.dev = s.dev ∧ s1.blockno = s.blockno ∧ s1.valid = s.valid ∧ s1.data = s.data ∧
      s1.refcnt = s.refcnt := by
  unfold steal_buffers at e
  split at e
  · simp at e; rw [← e.2]; exact ⟨rfl, rfl, rfl, rfl, rfl⟩
  · simp only at e
    split at e
    · split at e
      · simp at e
      · rename_i s3 hl
        have hrl := steal_loop_relinked _ _ _ _ _ _ hl
        unfold Relinked at hrl
        simp at e
        rw [← e.2, hrl]
        exact ⟨rfl, rfl, rfl, rfl, rfl⟩
    · simp at e; rw [← e.2]; exact ⟨rfl, rfl, rfl, rfl, rfl⟩

theorem sameBuf_acquire {s sc s1 : State} {p c b x : Nat}
    (h : acquiresleep sc p c = Res.ok x s1 ∨ acquiresleep sc p c = Res.sleep x s1)
    (hs : SameBuf s sc b) : x = c ∧ SameBuf s s1 b := by
  rcases acquiresleep_cases sc p c with ⟨_, ha⟩ | ⟨_, ha⟩
  · rw [ha] at h
    rcases h with h | h
    · exact absurd h (by simp)
    · injection h with h1 h2
      rw [← h2]; exact ⟨h1.symm, hs⟩
  · rw [ha] at h
    rcases h with h | h
    · injection h with h1 h2
      rw [← h2]; exact ⟨h1.symm, hs⟩
    · exact absurd h (by simp)

theorem acquiresleep_no_panic {sc s1 : State} {p c : Nat} {m : Panic}
    (h : acquiresleep sc p c = Res.panic m s1) : False := by
  rcases acquiresleep_cases sc p c with ⟨_, ha⟩ | ⟨_, ha⟩ <;> rw [ha] at h <;> exact absurd h (by simp)

theorem untouched_hang (s : State) (b : Nat) : Untouched s b Res.hang :=
  ⟨fun c s1 h => by rcases h with h | h <;> exact absurd h (by simp),
    fun m s1 h => absurd h (by simp)⟩

theorem untouched_panic {s s2 : State} {b : Nat} (m : Panic) (h : SameBuf s s2 b) :
    Untouched s b (Res.panic m s2) := by
  refine ⟨fun c s1 h => by rcases h with h | h <;> exact absurd h (by simp), fun m1 s1 e => ?_⟩
  injection e with _ e
  rw [← e]; exact h

theorem untouched_acquire {s sc : State} {p c b : Nat} (hne : c ≠ b) (h : SameBuf s sc b) :
    Untouched s b (acquiresleep sc p c) := by
  refine ⟨fun x s1 e => ?_, fun m s1 e => (acquiresleep_no_panic e).elim⟩
  obtain ⟨e1, hsame⟩ := sameBuf_acquire e h
  exact ⟨by rw [e1]; exact hne, hsame⟩

/-- The allocation scan never selects a buffer with `refcnt > 0` and leaves
its fields as they are. -/
theorem alloc_raw {nbuf : Nat} {s s2 : State} {p h dev blk b : Nat}
    (hs : s2.dev = s.dev ∧ s2.blockno = s.blockno ∧ s2.valid = s.valid ∧ s2.data = s.data ∧
      s2.refcnt = s.refcnt) (hb : s.refcnt b ≠ 0) :
    Untouched s b (bget_alloc nbuf s2 p h dev blk) := by
  obtain ⟨h1, h2, h3, h4, h5⟩ := hs
  unfold bget_alloc
  split
  · exact untouched_hang s b
  · exact untouched_panic _ ⟨by rw [h1], by rw [h2], by rw [h3], by rw [h4], by rw [h5]⟩
  · rename_i c hc
    have hc0 : s2.refcnt c = 0 := lru_scan_free _ _ _ _ c hc
    have hne : b ≠ c := by
      intro e; rw [← e, h5] at hc0; exact hb hc0
    refine untouched_acquire (Ne.symm hne) ⟨?_, ?_, ?_, ?_, ?_⟩
    · simp [bget_claim, logEv, upd, hne, h1]
    · simp [bget_claim, logEv, upd, hne, h2]
    · simp [bget_claim, logEv, upd, hne, h3]
    · simp [bget_claim, logEv, h4]
    · simp [bget_claim, logEv, upd, hne, h5]

/-- No path through `bget` for another block selects a buffer with
`refcnt > 0` or changes its fields. -/
theorem bget_raw {nbuf : Nat} {s : State} {p dev blk b : Nat} (hb : s.refcnt b ≠ 0)
    (hid : ¬ (s.dev b = dev ∧ s.blockno b = blk)) :
    Untouched s b (bget nbuf p dev blk s) := by
  have hsame0 : SameBuf s (logEv s (Ev.acquire (hash dev blk))) b := ⟨rfl, rfl, rfl, rfl, rfl⟩
  unfold bget
  simp only
  split
  · exact untouched_hang s b
  · rename_i c hc
    have hm := hit_scan_match _ _ _ _ _ _ c hc
    have hne : b ≠ c := by
      intro e; rw [← e] at hm; exact hid hm
    unfold bget_hit
    refine untouched_acquire (Ne.symm hne) ⟨rfl, rfl, rfl, rfl, ?_⟩
    simp [bget_hit_cs, logEv, upd, hne]
  · unfold bget_miss
    split
    · simp only
      split
      · exact untouched_panic _ hsame0
      · split
        · exact untouched_hang s b
        · rename_i n s2 hst
          have hs2 := steal_buffers_same hst
          split
          · exact untouched_panic _ ⟨by rw [hs2.1]; rfl, by rw [hs2.2.1]; rfl,
              by rw [hs2.2.2.1]; rfl, by rw [hs2.2.2.2.1]; rfl, by rw [hs2.2.2.2.2]; rfl⟩
          · exact alloc_raw hs2 hb
    · exact alloc_raw ⟨rfl, rfl, rfl, rfl, rfl⟩ hb

theorem mem_iff_of_keep {nbuf : Nat} {s s1 : State} {L L1 : Nat → List Nat} {b : Nat}
    (S : Shape nbuf s L) (R1 : Rings nbuf s1.next s1.prev L1)
    (hkeep : ∀ i x, x ∈ L i → s.refcnt x ≠ 0 → x ∈ L1 i) (hb : s.refcnt b ≠ 0) :
    ∀ j, j < NBUCKETS → (b ∈ bucketList nbuf s1 j ↔ b ∈ bucketList nbuf s j) := by
  intro j hj
  rw [bucketList_ring R1 hj, bucketList_ring S.rings hj]
  constructor
  · intro h1
    obtain ⟨i, hi, hbi⟩ := S.cover b (R1.lt j hj b h1)
    have := R1.disj i j hi hj b (hkeep i b hbi hb) h1
    rw [← this]; exact hbi
  · intro h; exact hkeep j b h hb

/-- C9: for every state and every buffer `b` with `refcnt > 0`: a `bget` for
another block never returns `b` and leaves `dev`, `blockno`, `valid`, the
content and `refcnt` of `b` as they are, whatever its outcome; so do
`steal_buffers` and `buf_remove_lru`, which never returns `b`; and on
well-formed lists `b` stays in the list of the same bucket through `bget`,
`steal_buffers` and `buf_remove_lru`, which all terminate. -/
theorem pin_durability (nbuf : Nat) (s : State) (b : Nat) (hb : s.refcnt b ≠ 0) :
    (∀ p dev blk, ¬ (s.dev b = dev ∧ s.blockno b = blk) →
      (∀ c s1, bget nbuf p dev blk s = Res.ok c s1 ∨ bget nbuf p dev blk s = Res.sleep c s1 →
        c ≠ b ∧ SameBuf s s1 b) ∧
      (∀ m s1, bget nbuf p dev blk s = Res.panic m s1 → SameBuf s s1 b)) ∧
    (∀ t d n s1, steal_buffers nbuf t d s = some (n, s1) → SameBuf s s1 b) ∧
    (∀ head r s1, buf_remove_lru nbuf s head = some (r, s1) → r ≠ some b ∧ SameBuf s s1 b) ∧
    (∀ L, Shape nbuf s L →
      (∀ p dev blk, bget nbuf p dev blk s ≠ Res.hang ∧
        ∀ c s1, bget nbuf p dev blk s = Res.ok c s1 ∨ bget nbuf p dev blk s = Res.sleep c s1 →
          ∀ j, j < NBUCKETS → (b ∈ bucketList nbuf s1 j ↔ b ∈ bucketList nbuf s j)) ∧
      (∀ t d, t < NBUCKETS → d < NBUCKETS → d ≠ t →
        ∃ n s1, steal_buffers nbuf t (d : Int) s = some (n, s1) ∧
          ∀ j, j < NBUCKETS → (b ∈ bucketList nbuf s1 j ↔ b ∈ bucketList nbuf s j)) ∧
      (∀ i, i < NBUCKETS →
        ∃ r s1, buf_remove_lru nbuf s (bucketAddr nbuf i) = some (r, s1) ∧
          ∀ j, j < NBUCKETS → (b ∈ bucketList nbuf s1 j ↔ b ∈ bucketList nbuf s j))) := by
  refine ⟨fun p dev blk hid => bget_raw hb hid, ?_, ?_, ?_⟩
  · intro t d n s1 e
    obtain ⟨h1, h2, h3, h4, h5⟩ := steal_buffers_same e
    exact ⟨by rw [h1], by rw [h2], by rw [h3], by rw [h4], by rw [h5]⟩
  · intro head r s1 e
    rcases buf_remove_lru_out e with ⟨h1, h2⟩ | ⟨c, h1, h2, h3⟩
    · rw [h1, h2]; exact ⟨by simp, rfl, rfl, rfl, rfl, rfl⟩
    · rw [h1, h3]
      refine ⟨?_, rfl, rfl, rfl, rfl, rfl⟩
      intro e1
      injection e1 with e1
      rw [e1] at h2; exact hb h2
  · intro L S
    have R := S.rings
    refine ⟨fun p dev blk => ⟨?_, ?_⟩, ?_, ?_⟩
    · rcases bget_out S p dev blk with ⟨s2, hbg, _⟩ | ⟨c, sc, L1, hbg, _⟩
      · rw [hbg]; simp
      · rw [hbg]
        rcases acquiresleep_cases sc p c with ⟨_, ha⟩ | ⟨_, ha⟩ <;> rw [ha] <;> simp
    · intro c s1 hres
      rcases bget_out S p dev blk with ⟨s2, hbg, _⟩ | ⟨x, sc, L1, hbg, O⟩
      · rcases hres with h | h <;> rw [hbg] at h <;> exact absurd h (by simp)
      have R1 : Rings nbuf s1.next s1.prev L1 := by
        rcases acquiresleep_cases sc p x with ⟨_, ha⟩ | ⟨_, ha⟩
        · rw [ha] at hbg
          rcases hres with h | h <;> rw [hbg] at h
          · exact absurd h (by simp)
          · injection h with _ h2
            rw [← h2]; exact O.shape.rings
        · rw [ha] at hbg
          rcases hres with h | h <;> rw [hbg] at h
          · injection h with _ h2
            rw [← h2]; exact O.shape.rings
          · exact absurd h (by simp)
      exact mem_iff_of_keep S R1 O.keep hb
    · intro t d ht hd hdt
      obtain ⟨s1, e1, _, R1⟩ := steal_buffers_spec R ht hd hdt
      exact ⟨_, s1, e1, mem_iff_of_keep S R1 (stealLists_rel R ht hd hdt).2.2 hb⟩
    · intro i hi
      refine ⟨_, _, buf_remove_lru_ring R hi, ?_⟩
      cases hlf : lastFree s (L i) with
      | none => exact fun j _ => Iff.rfl
      | some c =>
        have hc := lastFree_some hlf
        refine mem_iff_of_keep S (R.ring_unlink hi hc.1) ?_ hb
        intro k x hx hrx
        by_cases hki : k = i
        · subst hki
          rw [upd_same]
          have hxc : x ≠ c := fun e => hrx (by rw [e]; exact hc.2)
          exact (List.mem_erase_of_ne hxc).2 hx
        · rw [upd_other _ _ _ _ hki]; exact hx

theorem reach_after (nbuf : Nat) (cs : List Call)
    (h : (run nbuf (init nbuf blankDisk) cs).isSome = true) : Reach nbuf (after nbuf cs) := by
  unfold after
  cases hr : run nbuf (init nbuf blankDisk) cs with
  | none => rw [hr] at h; exact absurd h (by simp)
  | some g => exact ⟨blankDisk, cs, hr⟩

theorem res_ok_eq (r : Res Nat) (d : State) (h : r.isOk = true) : r = Res.ok r.val (r.st d) := by
  cases r
  · rfl
  · simp [Res.isOk] at h
  · simp [Res.isOk] at h
  · simp [Res.isOk] at h

/-- C1 (defect): after the calls `callsTwice` on a pool of 30 buffers, which
respect the caller contract, the buffers 0 and 13 both have `refcnt == 1` and
both carry the identity `(0, 13)`. -/
theorem uniqueness_broken_after_steal :
    Reach 30 (after 30 callsTwice) ∧
      (after 30 callsTwice).st.refcnt 0 = 1 ∧ (after 30 callsTwice).st.refcnt 13 = 1 ∧
      (after 30 callsTwice).st.dev 0 = 0 ∧ (after 30 callsTwice).st.blockno 0 = 13 ∧
      (after 30 callsTwice).st.dev 13 = 0 ∧ (after 30 callsTwice).st.blockno 13 = 13 :=
  ⟨reach_after 30 callsTwice (by decide), by decide, by decide, by decide, by decide, by decide,
    by decide⟩

/-- C2 (defect): after a read of block 0, a pin, the release and the unpin of
the buffer on a pool of 30 buffers, the list of bucket 0 holds 3 buffers with
`refcnt == 0` and `freelist[0]` is 2. -/
theorem accounting_broken_by_bunpin :
    Reach 30 (after 30 callsPin) ∧ (after 30 callsPin).st.refcnt 26 = 0 ∧
      (after 30 callsPin).st.freelist 0 = 2 ∧ freeCount 30 (after 30 callsPin).st 0 = 3 :=
  ⟨reach_after 30 callsPin (by decide), by decide, by decide, by decide⟩

/-- C3 (counterexample): on a pool of 30 buffers with the two buffers of bucket
4 taken, `freelist[4]` is 0 and `freelist[1]` is 3, no buffer carries block 30,
and `bread` of block 30 (bucket `X = 4`) returns, but it is not the case that
`freelist[1]` is smaller and `freelist[4]` larger afterwards: the donor was
bucket 0, `freelist[1]` is still 3 and `freelist[4]` is still 0. -/
theorem rebalance_leaves_other_bucket :
    Reach 30 (after 30 callsTake4) ∧ hash 0 30 = 4 ∧
      (after 30 callsTake4).st.freelist 4 = 0 ∧ 2 ≤ (after 30 callsTake4).st.freelist 1 ∧
      (∀ c, c < 30 → ¬ ((after 30 callsTake4).st.dev c = 0 ∧
        (after 30 callsTake4).st.blockno c = 30)) ∧
      (bread 30 1 0 30 (after 30 callsTake4).st).isOk = true ∧
      ¬ (((bread 30 1 0 30 (after 30 callsTake4).st).st (after 30 callsTake4).st).freelist 1
            < (after 30 callsTake4).st.freelist 1 ∧
          (after 30 callsTake4).st.freelist 4
            < ((bread 30 1 0 30 (after 30 callsTake4).st).st
                (after 30 callsTake4).st).freelist 4) ∧
      ((bread 30 1 0 30 (after 30 callsTake4).st).st (after 30 callsTake4).st).freelist 1 = 3 ∧
      ((bread 30 1 0 30 (after 30 callsTake4).st).st (after 30 callsTake4).st).freelist 4 = 0 ∧
      ((bread 30 1 0 30 (after 30 callsTake4).st).st (after 30 callsTake4).st).freelist 0 = 2 :=
  ⟨reach_after 30 callsTake4 (by decide), by decide, by decide, by decide, by decide, by decide,
    by decide, by decide, by decide, by decide⟩

/-- C4 (defect): on a pool of 30 buffers with bucket 0 drained and one free
buffer left in every other bucket, no buffer carries block 39, bucket 1 holds a
buffer with `refcnt == 0`, and `bget` of block 39 (bucket 0) panics. -/
theorem panic_with_free_buffers :
    Reach 30 (after 30 callsDrain) ∧ hash 0 39 = 0 ∧
      (∀ c, c < 30 → ¬ ((after 30 callsDrain).st.dev c = 0 ∧
        (after 30 callsDrain).st.blockno c = 39)) ∧
      (∀ i, i < 13 → i ≠ 0 → freeCount 30 (after 30 callsDrain).st i = 1) ∧
      (after 30 callsDrain).st.refcnt 27 = 0 ∧
      (bget 30 1 0 39 (after 30 callsDrain).st).isPanic = true :=
  ⟨reach_after 30 callsDrain (by decide), by decide, by decide, by decide, by decide, by decide⟩

/-- C6 (defect): after the calls `callsStale` on a pool of 30 buffers, buffer
13 carries block `(0, 13)` with `refcnt == 1` after a `bread` that has not been
released, and a second `bread` of block `(0, 13)` returns buffer 0, with
`refcnt` 1 on both buffers and `freelist[0]` lowered from 1 to 0. -/
theorem reacquire_returns_other_buffer :
    Reach 30 (after 30 callsStale) ∧
      (after 30 callsStale).st.refcnt 13 = 1 ∧ (after 30 callsStale).st.dev 13 = 0 ∧
      (after 30 callsStale).st.blockno 13 = 13 ∧ (after 30 callsStale).st.locked 13 = true ∧
      (after 30 callsStale).st.freelist 0 = 1 ∧
      (bread 30 2 0 13 (after 30 callsStale).st).isOk = true ∧
      (bread 30 2 0 13 (after 30 callsStale).st).val = 0 ∧
      ((bread 30 2 0 13 (after 30 callsStale).st).st (after 30 callsStale).st).refcnt 13 = 1 ∧
      ((bread 30 2 0 13 (after 30 callsStale).st).st (after 30 callsStale).st).refcnt 0 = 1 ∧
      ((bread 30 2 0 13 (after 30 callsStale).st).st (after 30 callsStale).st).freelist 0 = 0 :=
  ⟨reach_after 30 callsStale (by decide), by decide, by decide, by decide, by decide, by decide,
    by decide, by decide, by decide, by decide, by decide⟩

/-- Witness of `rebalance_effect`: the theorem at the pool of 30 buffers with
the two buffers of bucket 4 taken, for block 30 and the bucket `Y = 1`. -/
theorem rebalance_effect_witness :
    (after 30 callsTake4).st.freelist (30 % NBUCKETS) = 0 ∧
    2 ≤ (after 30 callsTake4).st.freelist 1 ∧
    ∃ b s1 D, bread 30 1 0 30 (after 30 callsTake4).st = Res.ok b s1 ∧ D < NBUCKETS ∧
      find_richest_bucket (after 30 callsTake4).st = (D : Int) ∧ D ≠ 30 % NBUCKETS ∧
      (after 30 callsTake4).st.freelist 1 ≤ (after 30 callsTake4).st.freelist D ∧
      s1.freelist D = (after 30 callsTake4).st.freelist D
        - (after 30 callsTake4).st.freelist D / 2 ∧
      s1.freelist D < (after 30 callsTake4).st.freelist D ∧
      s1.freelist (30 % NBUCKETS) = (after 30 callsTake4).st.freelist D / 2 - 1 ∧
      0 ≤ s1.freelist (30 % NBUCKETS) ∧
      ∀ i, i ≠ D → i ≠ 30 % NBUCKETS → s1.freelist i = (after 30 callsTake4).st.freelist i :=
  ⟨by decide, by decide,
    rebalance_effect 30 (after 30 callsTake4) 1 0 30 1 (reach_after 30 callsTake4 (by decide))
      (by decide) (by decide) (by decide) (by decide)⟩

/-- Witness of `release_then_reacquire_hits`: the theorem at the first read of
block 0 on a fresh pool of 30 buffers. -/
theorem release_then_reacquire_hits_witness :
    (bread 30 1 0 0 (after 30 []).st).isOk = true ∧
    ((bread 30 1 0 0 (after 30 []).st).st (after 30 []).st).valid
        (bread 30 1 0 0 (after 30 []).st).val = 1 ∧
    ∀ q, ∃ s3, bread 30 q 0 0 (brelse_cs 30 (bread 30 1 0 0 (after 30 []).st).val
        ((bread 30 1 0 0 (after 30 []).st).st (after 30 []).st))
          = Res.ok (bread 30 1 0 0 (after 30 []).st).val s3 ∧
      s3.valid (bread 30 1 0 0 (after 30 []).st).val = 1 ∧
      s3.data (bread 30 1 0 0 (after 30 []).st).val
        = ((bread 30 1 0 0 (after 30 []).st).st (after 30 []).st).data
          (bread 30 1 0 0 (after 30 []).st).val ∧
      s3.reads = ((bread 30 1 0 0 (after 30 []).st).st (after 30 []).st).reads :=
  ⟨by decide,
    (release_then_reacquire_hits 30 (after 30 []) 1 0 0 _ _ (reach_after 30 [] (by decide))
      (res_ok_eq _ _ (by decide))).1,
    (release_then_reacquire_hits 30 (after 30 []) 1 0 0 _ _ (reach_after 30 [] (by decide))
      (res_ok_eq _ _ (by decide))).2.2.2⟩

/-- Witness of `lock_discipline`: on a fresh pool of 30 buffers process 1 reads
block 0 into buffer 26; its first `brelse` completes and its second `brelse`
panics in the state the first one left. -/
theorem lock_discipline_witness :
    holdingsleep (after 30 [Call.bread 1 0 0]).st 1 26 = true ∧
    brelse 30 1 26 (brelse_cs 30 26 (after 30 [Call.bread 1 0 0]).st)
      = Res.panic Panic.brelse (brelse_cs 30 26 (after 30 [Call.bread 1 0 0]).st) :=
  ⟨by decide,
    (lock_discipline 30 (after 30 [Call.bread 1 0 0]).st 1 26).2.2 _
      ((lock_discipline 30 (after 30 [Call.bread 1 0 0]).st 1 26).2.1 (by decide)).1⟩

/-- Witness of `pin_durability`: on a pool of 30 buffers buffer 0 holds block
13; a `bget` of block 26 by another process does not return buffer 0 and
leaves its fields as they are. -/
theorem pin_durability_witness :
    (after 30 [Call.bread 1 0 13]).st.refcnt 0 ≠ 0 ∧
    ∀ c s1, bget 30 2 0 26 (after 30 [Call.bread 1 0 13]).st = Res.ok c s1 ∨
        bget 30 2 0 26 (after 30 [Call.bread 1 0 13]).st = Res.sleep c s1 →
      c ≠ 0 ∧ SameBuf (after 30 [Call.bread 1 0 13]).st s1 0 :=
  ⟨by decide,
    ((pin_durability 30 (after 30 [Call.bread 1 0 13]).st 0 (by decide)).1 2 0 26
      (by decide)).1⟩

/-- C14: for every array of free counters, `find_richest_bucket` returns -1
exactly when no bucket has `freelist > 0`; otherwise it returns an index below
`NBUCKETS` whose counter is the maximum over all buckets and is strictly larger
than the counter of every lower index; and when the counter of a bucket `t` is
0, as it is for the home bucket when `bget` calls it, the result is not `t`. -/
theorem donor_selection (s : State) :
    (find_richest_bucket s = -1 ↔ ∀ i, i < NBUCKETS → s.freelist i ≤ 0) ∧
    (find_richest_bucket s ≠ -1 →
      ∃ d, d < NBUCKETS ∧ find_richest_bucket s = (d : Int) ∧ 0 < s.freelist d ∧
        (∀ i, i < NBUCKETS → s.freelist i ≤ s.freelist d) ∧
        ∀ i, i < d → s.freelist i < s.freelist d) ∧
    (∀ t, s.freelist t = 0 → find_richest_bucket s ≠ (t : Int)) := by
  rcases find_richest_spec s with ⟨h1, h2⟩ | ⟨d, hd, h1, h2, h3, h4⟩
  · refine ⟨⟨fun _ => h2, fun _ => h1⟩, fun h => absurd h1 h, fun t _ => ?_⟩
    rw [h1]; omega
  · refine ⟨⟨fun h => ?_, fun h => ?_⟩, fun _ => ⟨d, hd, h1, h2, h3, h4⟩, fun t ht e => ?_⟩
    · rw [h1] at h; omega
    · have := h d hd; omega
    · rw [h1] at e
      have e1 : d = t := by omega
      rw [e1] at h2; omega

/-- Witness of `donor_selection`: after `binit` on a pool of 30 buffers the
donor is bucket 0, the lowest of the four buckets with three free buffers. -/
theorem donor_selection_witness :
    find_richest_bucket (after 30 []).st ≠ -1 ∧
    ∃ d, d < NBUCKETS ∧ find_richest_bucket (after 30 []).st = (d : Int) ∧
      0 < (after 30 []).st.freelist d ∧
      (∀ i, i < NBUCKETS → (after 30 []).st.freelist i ≤ (after 30 []).st.freelist d) ∧
      ∀ i, i < d → (after 30 []).st.freelist i < (after 30 []).st.freelist d :=
  ⟨by decide, (donor_selection (after 30 []).st).2.1 (by decide)⟩

/-- C20: in every reachable state a pool buffer with `refcnt > 0` is in the
list of the bucket `hash (dev, blockno)`, which is `blockno % 13` whatever
`dev` is, and in the list of no other bucket. -/
theorem held_in_home_bucket (nbuf : Nat) (g : Sys) (b : Nat) (hr : Reach nbuf g) (hb : b < nbuf)
    (hc : 0 < g.st.refcnt b) :
    (∀ dev, hash dev (g.st.blockno b) = g.st.blockno b % 13) ∧
    hash (g.st.dev b) (g.st.blockno b) < NBUCKETS ∧
    b ∈ bucketList nbuf g.st (hash (g.st.dev b) (g.st.blockno b)) ∧
    ∀ i, i < NBUCKETS → b ∈ bucketList nbuf g.st i → i = hash (g.st.dev b) (g.st.blockno b) := by
  obtain ⟨L, I⟩ := reach_inv hr
  have hlt : g.st.blockno b % NBUCKETS < NBUCKETS := Nat.mod_lt _ (by decide)
  obtain ⟨i, hi, hbi⟩ := I.shape.cover b hb
  have hh : g.st.blockno b % NBUCKETS = i := I.home i hi b hbi (by omega)
  refine ⟨fun _ => rfl, hlt, ?_, fun j hj hbj => ?_⟩
  · show b ∈ bucketList nbuf g.st (g.st.blockno b % NBUCKETS)
    rw [hh, bucketList_ring I.shape.rings hi]; exact hbi
  · show j = g.st.blockno b % NBUCKETS
    rw [bucketList_ring I.shape.rings hj] at hbj
    rw [hh]; exact I.shape.rings.disj j i hj hi b hbj hbi

/-- Witness of `held_in_home_bucket`: the buffer that `bread` of block 13
returns on a pool of 30 buffers. -/
theorem held_in_home_bucket_witness :
    0 < (after 30 [Call.bread 1 0 13]).st.refcnt 0 ∧
    0 ∈ bucketList 30 (after 30 [Call.bread 1 0 13]).st
      (hash ((after 30 [Call.bread 1 0 13]).st.dev 0) ((after 30 [Call.bread 1 0 13]).st.blockno 0)) :=
  ⟨by decide, (held_in_home_bucket 30 (after 30 [Call.bread 1 0 13]) 0
    (reach_after 30 _ (by decide)) (by decide) (by decide)).2.2.1⟩

theorem Path.inverse {nx pv : Nat → Nat} :
    ∀ (l : List Nat) (a z : Nat), Path nx pv a l z →
      (∀ x ∈ a :: l, pv (nx x) = x) ∧ (∀ x ∈ l ++ [z], nx (pv x) = x)
  | [], a, z, h => by
    simp only [Path] at h
    refine ⟨fun x hx => ?_, fun x hx => ?_⟩
    · simp at hx; rw [hx, h.1, h.2]
    · simp at hx; rw [hx, h.2, h.1]
  | y :: ys, a, z, h => by
    simp only [Path] at h
    obtain ⟨ih1, ih2⟩ := Path.inverse ys y z h.2
    refine ⟨fun x hx => ?_, fun x hx => ?_⟩
    · rcases List.mem_cons.1 hx with e | hx
      · rw [e, h.1.1, h.1.2]
      · exact ih1 x hx
    · rcases List.mem_cons.1 hx with e | hx
      · rw [e, h.1.2, h.1.1]
      · exact ih2 x hx

/-- The lists of a well-formed partition of the pool hold `nbuf` buffers in
all. -/
theorem Shape.total {nbuf : Nat} {s : State} {L : Nat → List Nat} (S : Shape nbuf s L) :
    Finset.sum (Finset.range NBUCKETS) (fun i => (L i).length) = nbuf := by
  have hd : ∀ i ∈ Finset.range NBUCKETS, ∀ j ∈ Finset.range NBUCKETS, i ≠ j →
      Disjoint (L i).toFinset (L j).toFinset := by
    intro i hi j hj hij
    rw [Finset.disjoint_left]
    intro b h1 h2
    exact hij (S.rings.disj i j (Finset.mem_range.1 hi) (Finset.mem_range.1 hj) b
      (List.mem_toFinset.1 h1) (List.mem_toFinset.1 h2))
  have hu : (Finset.range NBUCKETS).biUnion (fun i => (L i).toFinset) = Finset.range nbuf := by
    ext b
    simp only [Finset.mem_biUnion, Finset.mem_range, List.mem_toFinset]
    constructor
    · rintro ⟨i, hi, hb⟩; exact S.rings.lt i hi b hb
    · intro hb; exact S.cover b hb
  have hc := Finset.card_biUnion hd
  rw [hu, Finset.card_range] at hc
  rw [hc]
  refine Finset.sum_congr rfl (fun i hi => ?_)
  exact (List.toFinset_card_of_nodup (S.rings.nodup i (Finset.mem_range.1 hi))).symm

/-- C17: in every reachable state each pool buffer is in the list of exactly
one bucket, no list holds a buffer twice or anything but pool buffers, every
list is a chain from its sentinel through its buffers back to the sentinel in
which `next` and `prev` are mutually inverse on every node of the arena, and
the lists hold `NBUF` buffers in all. -/
theorem single_membership (nbuf : Nat) (g : Sys) (hr : Reach nbuf g) :
    (∀ b, b < nbuf → ∃ i, i < NBUCKETS ∧ b ∈ bucketList nbuf g.st i ∧
      ∀ j, j < NBUCKETS → b ∈ bucketList nbuf g.st j → j = i) ∧
    (∀ i, i < NBUCKETS → (bucketList nbuf g.st i).Nodup ∧
      ∀ b ∈ bucketList nbuf g.st i, b < nbuf) ∧
    (∀ i, i < NBUCKETS → Path g.st.next g.st.prev (bucketAddr nbuf i) (bucketList nbuf g.st i)
      (bucketAddr nbuf i)) ∧
    (∀ x, x < nbuf + NBUCKETS →
      g.st.prev (g.st.next x) = x ∧ g.st.next (g.st.prev x) = x) ∧
    Finset.sum (Finset.range NBUCKETS) (fun i => (bucketList nbuf g.st i).length) = nbuf := by
  obtain ⟨L, I⟩ := reach_inv hr
  have R := I.shape.rings
  have hL : ∀ i, i < NBUCKETS → bucketList nbuf g.st i = L i := fun i hi => bucketList_ring R hi
  refine ⟨fun b hb => ?_, fun i hi => ?_, fun i hi => ?_, fun x hx => ?_, ?_⟩
  · obtain ⟨i, hi, hbi⟩ := I.shape.cover b hb
    refine ⟨i, hi, by rw [hL i hi]; exact hbi, fun j hj hbj => ?_⟩
    rw [hL j hj] at hbj
    exact R.disj j i hj hi b hbj hbi
  · rw [hL i hi]; exact ⟨R.nodup i hi, R.lt i hi⟩
  · rw [hL i hi]; exact R.path i hi
  · by_cases hb : x < nbuf
    · obtain ⟨i, hi, hbi⟩ := I.shape.cover x hb
      obtain ⟨h1, h2⟩ := Path.inverse _ _ _ (R.path i hi)
      exact ⟨h1 x (List.mem_cons_of_mem _ hbi), h2 x (List.mem_append_left _ hbi)⟩
    · have hi : x - nbuf < NBUCKETS := by omega
      have e : nbuf + (x - nbuf) = x := by omega
      obtain ⟨h1, h2⟩ := Path.inverse _ _ _ (R.path (x - nbuf) hi)
      rw [e] at h1 h2
      exact ⟨h1 x (List.mem_cons_self _ _), h2 x (by simp)⟩
  · have ht := Shape.total I.shape
    rw [← ht]
    refine Finset.sum_congr rfl (fun i hi => ?_)
    rw [ht, hL i (Finset.mem_range.1 hi)]

/-- Witness of `single_membership`: the state after `callsStale` on a pool of
30 buffers, in which buffers have moved between buckets twice. -/
theorem single_membership_witness :
    Finset.sum (Finset.range NBUCKETS)
      (fun i => (bucketList 30 (after 30 callsStale).st i).length) = 30 :=
  (single_membership 30 (after 30 callsStale) (reach_after 30 _ (by decide))).2.2.2.2

/-- Well-formed lists are the lists that `bucketList` reads off the pointers. -/
theorem rings_bucketList {nbuf : Nat} {s : State} {L : Nat → List Nat}
    (R : Rings nbuf s.next s.prev L) : Rings nbuf s.next s.prev (bucketList nbuf s) := by
  have hL : ∀ i, i < NBUCKETS → bucketList nbuf s i = L i := fun i hi => bucketList_ring R hi
  refine ⟨fun i hi => ?_, fun i hi => ?_, fun i hi => ?_, fun i j hi hj b hbi hbj => ?_⟩
  · rw [hL i hi]; exact R.path i hi
  · rw [hL i hi]; exact R.lt i hi
  · rw [hL i hi]; exact R.nodup i hi
  · rw [hL i hi] at hbi
    rw [hL j hj] at hbj
    exact R.disj i j hi hj b hbi hbj

/-- The lists of a reachable state are well-formed. -/
theorem reach_rings {nbuf : Nat} {g : Sys} (hr : Reach nbuf g) :
    Rings nbuf g.st.next g.st.prev (bucketList nbuf g.st) := by
  obtain ⟨L, I⟩ := reach_inv hr
  exact rings_bucketList I.shape.rings

theorem walk_congr {s s1 : State} (h : s1.next = s.next) (head : Nat) :
    ∀ (fuel b : Nat), walk s1 head fuel b = walk s head fuel b
  | 0, _ => rfl
  | fuel + 1, b => by
    simp only [walk]
    rw [walk_congr h head fuel, h]

/-- The list of a bucket depends on the `next` pointers only. -/
theorem bucketList_congr {s s1 : State} (h : s1.next = s.next) (nbuf i : Nat) :
    bucketList nbuf s1 i = bucketList nbuf s i := by
  unfold bucketList
  rw [walk_congr h, h]

/-- C12: for every state with well-formed lists in which the caller `p` holds
the access lock of `b` and `b` is in the list of the bucket `h` of its block
number, `brelse` returns and lowers `refcnt` of `b` by 1 (modulo `2^32`); when
the result is 0, `b` is the first buffer of the list of `h`, the other buffers
of `h` keep their order and `freelist[h]` grows by 1; when it is not 0, the
list of `h`, the link pointers and `freelist[h]` are as before; in both cases
the lists and counters of the other buckets, the reference counters of the
other buffers and `dev`, `blockno`, `valid` and the content of every buffer
are unchanged. -/
theorem release_effect (nbuf : Nat) (s : State) (p b : Nat)
    (R : Rings nbuf s.next s.prev (bucketList nbuf s))
    (hl : holdingsleep s p b = true)
    (hb : b ∈ bucketList nbuf s (s.blockno b % NBUCKETS)) :
    ∃ s1, brelse nbuf p b s = Res.ok () s1 ∧
      s1.refcnt b = (s.refcnt b + UINT - 1) % UINT ∧
      (0 < s.refcnt b → s.refcnt b < UINT → s1.refcnt b + 1 = s.refcnt b) ∧
      (s1.refcnt b = 0 →
        bucketList nbuf s1 (s.blockno b % NBUCKETS)
          = b :: (bucketList nbuf s (s.blockno b % NBUCKETS)).erase b ∧
        (bucketList nbuf s1 (s.blockno b % NBUCKETS)).erase b
          = (bucketList nbuf s (s.blockno b % NBUCKETS)).erase b ∧
        s1.freelist (s.blockno b % NBUCKETS) = s.freelist (s.blockno b % NBUCKETS) + 1) ∧
      (s1.refcnt b ≠ 0 →
        bucketList nbuf s1 (s.blockno b % NBUCKETS) = bucketList nbuf s (s.blockno b % NBUCKETS) ∧
        s1.next = s.next ∧ s1.prev = s.prev ∧
        s1.freelist (s.blockno b % NBUCKETS) = s.freelist (s.blockno b % NBUCKETS)) ∧
      (∀ i, i < NBUCKETS → i ≠ s.blockno b % NBUCKETS →
        bucketList nbuf s1 i = bucketList nbuf s i) ∧
      (∀ i, i ≠ s.blockno b % NBUCKETS → s1.freelist i = s.freelist i) ∧
      (∀ x, x ≠ b → s1.refcnt x = s.refcnt x) ∧
      s1.dev = s.dev ∧ s1.blockno = s.blockno ∧ s1.valid = s.valid ∧ s1.data = s.data := by
  have hh : s.blockno b % NBUCKETS < NBUCKETS := Nat.mod_lt _ (by decide)
  refine ⟨brelse_cs nbuf b s, by simp [brelse, hl], ?_⟩
  by_cases hz : (s.refcnt b + UINT - 1) % UINT = 0
  · have R1 := rings_release R hh hb
    rw [brelse_cs_zero nbuf b s hz]
    have hL1 : ∀ i, i < NBUCKETS →
        bucketList nbuf { buf_insert_head (buf_unlink s b) (nbuf + s.blockno b % NBUCKETS) b with
          refcnt := upd s.refcnt b 0,
          freelist := upd s.freelist (s.blockno b % NBUCKETS)
            (s.freelist (s.blockno b % NBUCKETS) + 1),
          locked := upd s.locked b false,
          lkpid := upd s.lkpid b 0,
          log := s.log ++ [Ev.releasesleep b, Ev.acquire (s.blockno b % NBUCKETS),
            Ev.release (s.blockno b % NBUCKETS)] } i
        = upd (bucketList nbuf s) (s.blockno b % NBUCKETS)
            (b :: (bucketList nbuf s (s.blockno b % NBUCKETS)).erase b) i :=
      fun i hi => bucketList_ring (s := { buf_insert_head (buf_unlink s b)
          (nbuf + s.blockno b % NBUCKETS) b with
          refcnt := upd s.refcnt b 0,
          freelist := upd s.freelist (s.blockno b % NBUCKETS)
            (s.freelist (s.blockno b % NBUCKETS) + 1),
          locked := upd s.locked b false,
          lkpid := upd s.lkpid b 0,
          log := s.log ++ [Ev.releasesleep b, Ev.acquire (s.blockno b % NBUCKETS),
            Ev.release (s.blockno b % NBUCKETS)] }) R1 hi
    have hbe : b ∉ (bucketList nbuf s (s.blockno b % NBUCKETS)).erase b :=
      fun hm => ((List.Nodup.mem_erase_iff (R.nodup _ hh)).1 hm).1 rfl
    refine ⟨?_, ?_, ?_, ?_, ?_, ?_, ?_, rfl, rfl, rfl, rfl⟩
    · show upd s.refcnt b 0 b = _
      rw [upd_same, hz]
    · intro h0 h1
      show upd s.refcnt b 0 b + 1 = _
      rw [upd_same]
      have : s.refcnt b + UINT - 1 = (s.refcnt b - 1) + UINT := by omega
      rw [this, Nat.add_mod_right, Nat.mod_eq_of_lt (by omega)] at hz
      omega
    · intro _
      rw [hL1 _ hh, upd_same]
      refine ⟨rfl, ?_, ?_⟩
      · rw [List.erase_cons_head]
      · show upd s.freelist _ _ _ = _
        rw [upd_same]
    · intro h0
      exact absurd (show upd s.refcnt b 0 b = 0 from upd_same _ _ _) h0
    · intro i hi hne
      rw [hL1 i hi, upd_other _ _ _ _ hne]
    · intro i hne
      show upd s.freelist _ _ i = _
      rw [upd_other _ _ _ _ hne]
    · intro x hx
      show upd s.refcnt b 0 x = _
      rw [upd_other _ _ _ _ hx]
  · rw [brelse_cs_pos nbuf b s hz]
    have hL1 : ∀ i, i < NBUCKETS →
        bucketList nbuf { s with
          refcnt := upd s.refcnt b ((s.refcnt b + UINT - 1) % UINT),
          locked := upd s.locked b false,
          lkpid := upd s.lkpid b 0,
          log := s.log ++ [Ev.releasesleep b, Ev.acquire (s.blockno b % NBUCKETS),
            Ev.release (s.blockno b % NBUCKETS)] } i = bucketList nbuf s i :=
      fun i hi => by apply bucketList_congr; rfl
    refine ⟨?_, ?_, ?_, ?_, ?_, ?_, ?_, rfl, rfl, rfl, rfl⟩
    · show upd s.refcnt b _ b = _
      rw [upd_same]
    · intro h0 h1
      show upd s.refcnt b _ b + 1 = _
      rw [upd_same]
      have : s.refcnt b + UINT - 1 = (s.refcnt b - 1) + UINT := by omega
      rw [this, Nat.add_mod_right, Nat.mod_eq_of_lt (by omega)]
      omega
    · intro h0
      exact absurd (by rw [← h0]; exact (upd_same _ _ _).symm) hz
    · intro _
      exact ⟨hL1 _ hh, rfl, rfl, rfl⟩
    · intro i hi _
      exact hL1 i hi
    · intro i _
      rfl
    · intro x hx
      show upd s.refcnt b _ x = _
      rw [upd_other _ _ _ _ hx]

/-- Witness of `release_effect`: the `brelse` of the buffer that `bread` of
block 13 returned on a pool of 30 buffers. -/
theorem release_effect_witness :
    holdingsleep (after 30 [Call.bread 1 0 13]).st 1 0 = true ∧
    0 ∈ bucketList 30 (after 30 [Call.bread 1 0 13]).st
      ((after 30 [Call.bread 1 0 13]).st.blockno 0 % NBUCKETS) ∧
    ∃ s1, brelse 30 1 0 (after 30 [Call.bread 1 0 13]).st = Res.ok () s1 ∧
      s1.refcnt 0 = ((after 30 [Call.bread 1 0 13]).st.refcnt 0 + UINT - 1) % UINT :=
  ⟨by decide, by decide,
    (release_effect 30 (after 30 [Call.bread 1 0 13]).st 1 0
      (reach_rings (reach_after 30 _ (by decide))) (by decide) (by decide)).imp
      (fun _ h => ⟨h.1, h.2.1⟩)⟩

/-- C13: for every state with well-formed lists in which no buffer of the home
bucket `h = blockno % NBUCKETS` carries `(dev, blockno)`, `freelist[h] > 0` and
`freelist[h]` is the number of free buffers of the list of `h`, `bget` claims
the buffer `b` with `refcnt == 0` nearest the tail of that list: it returns `b`
when the access lock of `b` is free and sleeps on that lock otherwise, in both
cases with `dev` and `blockno` of `b` set to the request, `valid == 0`,
`refcnt == 1` and `freelist[h]` lowered by 1, and with the link pointers, the
lists, the other counters, the content and the fields of every other buffer
unchanged. -/
theorem miss_allocation (nbuf : Nat) (s : State) (p dev blk : Nat)
    (R : Rings nbuf s.next s.prev (bucketList nbuf s))
    (hmiss : ∀ c ∈ bucketList nbuf s (blk % NBUCKETS), ¬ (s.dev c = dev ∧ s.blockno c = blk))
    (hpos : 0 < s.freelist (blk % NBUCKETS))
    (hacct : s.freelist (blk % NBUCKETS) = (freeCount nbuf s (blk % NBUCKETS) : Int)) :
    ∃ b l1 l2 s1, bucketList nbuf s (blk % NBUCKETS) = l1 ++ b :: l2 ∧
      s.refcnt b = 0 ∧ (∀ x ∈ l2, s.refcnt x ≠ 0) ∧
      bget nbuf p dev blk s = (if s.locked b then Res.sleep b s1 else Res.ok b s1) ∧
      s1.dev b = dev ∧ s1.blockno b = blk ∧ s1.valid b = 0 ∧ s1.refcnt b = 1 ∧
      s1.freelist (blk % NBUCKETS) = s.freelist (blk % NBUCKETS) - 1 ∧
      (∀ i, i ≠ blk % NBUCKETS → s1.freelist i = s.freelist i) ∧
      s1.next = s.next ∧ s1.prev = s.prev ∧
      (∀ i, bucketList nbuf s1 i = bucketList nbuf s i) ∧
      (∀ x, x ≠ b → s1.dev x = s.dev x ∧ s1.blockno x = s.blockno x ∧ s1.valid x = s.valid x ∧
        s1.refcnt x = s.refcnt x ∧ s1.locked x = s.locked x ∧ s1.lkpid x = s.lkpid x) ∧
      s1.data = s.data ∧ s1.disk = s.disk ∧ s1.reads = s.reads ∧ s1.writes = s.writes := by
  have hh : blk % NBUCKETS < NBUCKETS := Nat.mod_lt _ (by decide)
  have hnone : (bucketList nbuf s (blk % NBUCKETS)).find? (sameId s dev blk) = none := by
    rw [List.find?_eq_none]
    intro c hc
    simpa [sameId] using hmiss c hc
  have hsome : ∃ b, lastFree s (bucketList nbuf s (blk % NBUCKETS)) = some b := by
    cases hlf : lastFree s (bucketList nbuf s (blk % NBUCKETS)) with
    | some b => exact ⟨b, rfl⟩
    | none =>
      have h0 := lastFree_eq_none_iff.1 hlf
      unfold freeCount at hacct
      rw [h0] at hacct
      omega
  obtain ⟨b, hlf⟩ := hsome
  obtain ⟨l1, l2, hsplit, hl2, hb0⟩ := lastFree_split hlf
  have halloc : bget nbuf p dev blk s
      = acquiresleep (bget_claim (logEv s (Ev.acquire (blk % NBUCKETS))) (blk % NBUCKETS)
          dev blk b) p b := by
    rcases bget_cases R p dev blk with ⟨c, hc, _⟩ | ⟨_, h | h | h⟩
    · rw [hnone] at hc; exact absurd hc (by simp)
    · have e : lastFree (logEv s (Ev.acquire (blk % NBUCKETS)))
          (bucketList nbuf s (blk % NBUCKETS)) = some b := by
        rw [← hlf]; exact lastFree_congr rfl _
      rw [h.2, bget_alloc_ring (s := logEv s (Ev.acquire (blk % NBUCKETS))) R hh, e]
    · omega
    · omega
  have hcases := acquiresleep_cases (bget_claim (logEv s (Ev.acquire (blk % NBUCKETS)))
    (blk % NBUCKETS) dev blk b) p b
  have hlk : (bget_claim (logEv s (Ev.acquire (blk % NBUCKETS))) (blk % NBUCKETS)
      dev blk b).locked = s.locked := rfl
  rw [hlk] at hcases
  rcases hcases with ⟨hl, ha⟩ | ⟨hl, ha⟩
  · refine ⟨b, l1, l2, bget_claim (logEv s (Ev.acquire (blk % NBUCKETS))) (blk % NBUCKETS)
        dev blk b, hsplit, hb0, hl2, by rw [halloc, ha, hl]; rfl, ?_, ?_, ?_, ?_, ?_, ?_,
      rfl, rfl, fun i => by apply bucketList_congr; rfl, ?_, rfl, rfl, rfl, rfl⟩
    · simp [bget_claim, logEv, upd]
    · simp [bget_claim, logEv, upd]
    · simp [bget_claim, logEv, upd]
    · simp [bget_claim, logEv, upd]
    · simp [bget_claim, logEv, upd]
    · intro i hi; simp [bget_claim, logEv, upd, hi]
    · intro x hx; simp [bget_claim, logEv, upd, hx]
  · refine ⟨b, l1, l2, lockedBy (bget_claim (logEv s (Ev.acquire (blk % NBUCKETS)))
        (blk % NBUCKETS) dev blk b) p b, hsplit, hb0, hl2, by rw [halloc, ha, hl]; rfl,
      ?_, ?_, ?_, ?_, ?_, ?_,
      rfl, rfl, fun i => by apply bucketList_congr; rfl, ?_, rfl, rfl, rfl, rfl⟩
    · simp [lockedBy, bget_claim, logEv, upd]
    · simp [lockedBy, bget_claim, logEv, upd]
    · simp [lockedBy, bget_claim, logEv, upd]
    · simp [lockedBy, bget_claim, logEv, upd]
    · simp [lockedBy, bget_claim, logEv, upd]
    · intro i hi; simp [lockedBy, bget_claim, logEv, upd, hi]
    · intro x hx; simp [lockedBy, bget_claim, logEv, upd, hx]

/-- Witness of `miss_allocation`: block 13 on a pool of 30 buffers after
`binit`; the buffer nearest the tail of bucket 0 is buffer 0. -/
theorem miss_allocation_witness :
    0 < (after 30 []).st.freelist (13 % NBUCKETS) ∧
    (after 30 []).st.freelist (13 % NBUCKETS) = (freeCount 30 (after 30 []).st (13 % NBUCKETS) : Int) ∧
    ∃ b l1 l2 s1, bucketList 30 (after 30 []).st (13 % NBUCKETS) = l1 ++ b :: l2 ∧
      (after 30 []).st.refcnt b = 0 ∧ (∀ x ∈ l2, (after 30 []).st.refcnt x ≠ 0) ∧
      bget 30 1 0 13 (after 30 []).st
        = (if (after 30 []).st.locked b then Res.sleep b s1 else Res.ok b s1) ∧
      s1.dev b = 0 ∧ s1.blockno b = 13 ∧ s1.valid b = 0 ∧ s1.refcnt b = 1 :=
  ⟨by decide, by decide,
    (miss_allocation 30 (after 30 []).st 1 0 13 (reach_rings (reach_after 30 _ (by decide)))
      (by decide) (by decide) (by decide)).imp (fun _ h => h.imp (fun _ h => h.imp (fun _ h =>
        h.imp (fun _ h => ⟨h.1, h.2.1, h.2.2.1, h.2.2.2.1, h.2.2.2.2.1, h.2.2.2.2.2.1,
          h.2.2.2.2.2.2.1, h.2.2.2.2.2.2.2.1⟩))))⟩

theorem filter_free_nil {s : State} {l : List Nat} (h : ∀ x ∈ l, s.refcnt x ≠ 0) :
    l.filter (isFree s) = [] := by
  rw [List.filter_eq_nil_iff]
  intro x hx
  simpa [isFree] using h x hx

/-- The loop of `steal_buffers` on lists: it moves the `k` free buffers nearest
the tail of the donor (all of them when there are fewer), the one nearest the
tail first, to the tail of the target. -/
theorem stealL_exact (s : State) :
    ∀ (k : Nat) (ld lt : List Nat), ld.Nodup →
      stealL s k ld lt
        = (ld.filter (fun c => decide (c ∉ ((ld.filter (isFree s)).reverse.take k))),
           lt ++ (ld.filter (isFree s)).reverse.take k)
  | 0, ld, lt, _ => by simp [stealL]
  | k + 1, ld, lt, hnd => by
    simp only [stealL]
    cases hlf : lastFree s ld with
    | none =>
      have h0 : ld.filter (isFree s) = [] := filter_free_nil (lastFree_none hlf)
      have ih := stealL_exact s k ld lt hnd
      rw [h0] at ih ⊢
      simpa using ih
    | some b =>
      obtain ⟨l1, l2, e, hl2, hb0⟩ := lastFree_split hlf
      subst e
      have hb1 : b ∉ l1 := by
        intro hm
        have := List.nodup_append.1 hnd
        exact this.2.2 hm (List.mem_cons_self _ _)
      have hb2 : b ∉ l2 := by
        have := (List.nodup_append.1 hnd).2.1
        exact (List.nodup_cons.1 this).1
      have her : (l1 ++ b :: l2).erase b = l1 ++ l2 := by
        rw [List.erase_append_right _ hb1, List.erase_cons_head]
      have hnd1 : (l1 ++ l2).Nodup := by
        rw [← her]; exact hnd.erase b
      have hf2 : l2.filter (isFree s) = [] := filter_free_nil hl2
      have hfb : isFree s b = true := by simpa [isFree] using hb0
      have hF : (l1 ++ b :: l2).filter (isFree s) = l1.filter (isFree s) ++ [b] := by
        rw [List.filter_append, List.filter_cons_of_pos hfb, hf2]
      have hF1 : (l1 ++ l2).filter (isFree s) = l1.filter (isFree s) := by
        rw [List.filter_append, hf2, List.append_nil]
      have ih := stealL_exact s k (l1 ++ l2) (lt ++ [b]) hnd1
      simp only
      rw [her, ih, hF, hF1, List.reverse_append, List.reverse_singleton, List.singleton_append,
        List.take_succ_cons, List.append_assoc, List.singleton_append]
      congr 1
      rw [List.filter_append, List.filter_append, List.filter_cons_of_neg (by simp)]
      congr 1
      · apply List.filter_congr
        intro c hc
        have : c ≠ b := fun e => hb1 (e ▸ hc)
        simp [this]
      · apply List.filter_congr
        intro c hc
        have : c ≠ b := fun e => hb2 (e ▸ hc)
        simp [this]

/-- C16: for every state with well-formed lists in which `freelist[donor]` is
the number `f` of free buffers of the donor's list and `target != donor`,
`steal_buffers` returns `f / 2` and moves exactly `f / 2` buffers: the free
buffers of the donor nearest the tail, which are appended to the tail of the
target's list, the one nearest the donor's tail first; the buffers that stay in
the donor and those already in the target keep their order, the other lists
are unchanged, `freelist[donor]` drops and `freelist[target]` grows by `f / 2`,
so that their sum is unchanged, and no field of a buffer other than the links
changes. -/
theorem steal_selection (nbuf : Nat) (s : State) (t d : Nat)
    (R : Rings nbuf s.next s.prev (bucketList nbuf s))
    (ht : t < NBUCKETS) (hd : d < NBUCKETS) (hdt : t ≠ d)
    (hacct : s.freelist d = (freeCount nbuf s d : Int)) :
    ∃ s1 mv, steal_buffers nbuf t (d : Int) s = some (s.freelist d / 2, s1) ∧
      (mv.length : Int) = s.freelist d / 2 ∧
      mv = ((bucketList nbuf s d).filter (isFree s)).reverse.take mv.length ∧
      bucketList nbuf s1 t = bucketList nbuf s t ++ mv ∧
      bucketList nbuf s1 d = (bucketList nbuf s d).filter (fun c => decide (c ∉ mv)) ∧
      (∀ i, i < NBUCKETS → i ≠ t → i ≠ d → bucketList nbuf s1 i = bucketList nbuf s i) ∧
      s1.freelist d = s.freelist d - s.freelist d / 2 ∧
      s1.freelist t = s.freelist t + s.freelist d / 2 ∧
      s1.freelist d + s1.freelist t = s.freelist d + s.freelist t ∧
      (∀ i, i ≠ t → i ≠ d → s1.freelist i = s.freelist i) ∧
      s1.dev = s.dev ∧ s1.blockno = s.blockno ∧ s1.valid = s.valid ∧ s1.data = s.data ∧
      s1.refcnt = s.refcnt := by
  obtain ⟨s1, hst, hs1, R1⟩ := steal_buffers_spec R ht hd (Ne.symm hdt)
  have hnn : 0 ≤ s.freelist d := by rw [hacct]; exact Int.natCast_nonneg _
  have hsc : stealCount s d = s.freelist d / 2 := stealCount_of_nonneg hnn
  have hfl : s1.freelist = stealFl s t d := by rw [hs1]
  have hL1 : ∀ i, i < NBUCKETS → bucketList nbuf s1 i = stealLists s (bucketList nbuf s) t d i :=
    fun i hi => bucketList_ring R1 hi
  have hlen : ((bucketList nbuf s d).filter (isFree s)).length = freeCount nbuf s d := rfl
  have hk : (stealCount s d).toNat ≤ ((bucketList nbuf s d).filter (isFree s)).length := by
    rw [hlen, hsc]; omega
  have hmvlen : (((bucketList nbuf s d).filter (isFree s)).reverse.take
      (stealCount s d).toNat).length = (stealCount s d).toNat := by
    rw [List.length_take, List.length_reverse]; omega
  have hsame : s1.dev = s.dev ∧ s1.blockno = s.blockno ∧ s1.valid = s.valid ∧ s1.data = s.data ∧
      s1.refcnt = s.refcnt := by
    rw [hs1]; exact ⟨rfl, rfl, rfl, rfl, rfl⟩
  refine ⟨s1, ((bucketList nbuf s d).filter (isFree s)).reverse.take (stealCount s d).toNat,
    by rw [hst, hsc], ?_, by rw [hmvlen], ?_, ?_, ?_, ?_, ?_, ?_, ?_, hsame⟩
  · rw [hmvlen, hsc]; omega
  · rw [hL1 t ht]
    unfold stealLists
    split
    · rw [upd_same, stealL_exact s _ _ _ (R.nodup d hd)]
    · have h0 : (stealCount s d).toNat = 0 := by omega
      rw [h0]; simp
  · rw [hL1 d hd]
    unfold stealLists
    split
    · rw [upd_other _ _ _ _ (Ne.symm hdt), upd_same, stealL_exact s _ _ _ (R.nodup d hd)]
    · have h0 : (stealCount s d).toNat = 0 := by omega
      rw [h0]; simp
  · intro i hi hit hid
    rw [hL1 i hi]
    unfold stealLists
    split
    · rw [upd_other _ _ _ _ hit, upd_other _ _ _ _ hid]
    · rfl
  · rw [hfl]
    unfold stealFl
    split
    · rw [upd_same, upd_other _ _ _ _ (Ne.symm hdt), hsc]
    · have h0 : s.freelist d / 2 = 0 := by omega
      rw [h0]; omega
  · rw [hfl]
    unfold stealFl
    split
    · rw [upd_other _ _ _ _ hdt, upd_same, hsc]
    · have h0 : s.freelist d / 2 = 0 := by omega
      rw [h0]; omega
  · rw [hfl]
    unfold stealFl
    split
    · rw [upd_same, upd_other _ _ _ _ (Ne.symm hdt), upd_other _ _ _ _ hdt, upd_same]
      omega
    · rfl
  · intro i hit hid
    rw [hfl]
    unfold stealFl
    split
    · rw [upd_other _ _ _ _ hid, upd_other _ _ _ _ hit]
    · rfl

/-- Witness of `steal_selection`: after `callsGrow` on a pool of 30 buffers
bucket 0 holds four free buffers, and `steal_buffers (4, 0)` moves two. -/
theorem steal_selection_witness :
    (after 30 callsGrow).st.freelist 0 = (freeCount 30 (after 30 callsGrow).st 0 : Int) ∧
    ∃ s1 mv, steal_buffers 30 4 ((0 : Nat) : Int) (after 30 callsGrow).st
        = some ((after 30 callsGrow).st.freelist 0 / 2, s1) ∧
      (mv.length : Int) = (after 30 callsGrow).st.freelist 0 / 2 ∧
      mv = ((bucketList 30 (after 30 callsGrow).st 0).filter
        (isFree (after 30 callsGrow).st)).reverse.take mv.length ∧
      bucketList 30 s1 4 = bucketList 30 (after 30 callsGrow).st 4 ++ mv :=
  ⟨by decide,
    (steal_selection 30 (after 30 callsGrow).st 4 0 (reach_rings (reach_after 30 _ (by decide)))
      (by decide) (by decide) (by decide) (by decide)).imp (fun _ h => h.imp (fun _ h =>
        ⟨h.1, h.2.1, h.2.2.1, h.2.2.2.1⟩))⟩

theorem steal_buffers_log {nbuf t : Nat} {d n : Int} {s s1 : State} (hd : 0 ≤ d)
    (e : steal_buffers nbuf t d s = some (n, s1)) :
    s1.log = s.log ++ [Ev.acquire d.toNat, Ev.release d.toNat] := by
  unfold steal_buffers at e
  split at e
  · omega
  · simp only at e
    split at e
    · split at e
      · simp at e
      · rename_i s3 hl
        have hrl := steal_loop_relinked _ _ _ _ _ _ hl
        unfold Relinked at hrl
        simp at e
        rw [← e.2, hrl]
        simp [logEv]
    · simp at e; rw [← e.2]; simp [logEv]

theorem locksOut_hang (nbuf : Nat) (s : State) (h : Nat) : LocksOut nbuf s h Res.hang :=
  ⟨fun _ _ e => absurd e (by simp), fun _ _ e => absurd e (by simp)⟩

theorem locksOut_panic (nbuf : Nat) (s : State) (h : Nat) (m : Panic) (s2 : State) :
    LocksOut nbuf s h (Res.panic m s2) :=
  ⟨fun _ _ e => absurd e (by simp), fun _ _ e => absurd e (by simp)⟩

theorem locksOut_acquire {nbuf : Nat} {s sc : State} {h : Nat} {evs : List Ev} (p c : Nat)
    (hb : BgetLocks nbuf s h evs) (hl : sc.log = s.log ++ evs) :
    LocksOut nbuf s h (acquiresleep sc p c) := by
  rcases acquiresleep_cases sc p c with ⟨_, ha⟩ | ⟨_, ha⟩
  · rw [ha]
    refine ⟨fun _ _ e => absurd e (by simp), fun b s1 e => ?_⟩
    injection e with _ e2
    exact ⟨evs, hb, by rw [← e2, hl]⟩
  · rw [ha]
    refine ⟨fun b s1 e => ?_, fun _ _ e => absurd e (by simp)⟩
    injection e with e1 e2
    refine ⟨evs, hb, ?_⟩
    rw [← e2, ← e1]
    simp [lockedBy, logEv, hl]

theorem locksOut_alloc {nbuf : Nat} {s s2 : State} {h : Nat} (evs0 : List Ev) (p dev blk : Nat)
    (hb : BgetLocks nbuf s h (evs0 ++ [Ev.release h])) (hl : s2.log = s.log ++ evs0) :
    LocksOut nbuf s h (bget_alloc nbuf s2 p h dev blk) := by
  unfold bget_alloc
  split
  · exact locksOut_hang nbuf s h
  · exact locksOut_panic nbuf s h _ _
  · rename_i c _
    refine locksOut_acquire p c hb ?_
    simp [bget_claim, logEv, hl]

/-- Every path through `bget` that reaches the access lock has taken and
released the bucket locks in the order of `BgetLocks`. -/
theorem bget_locks (nbuf : Nat) (s : State) (p dev blk : Nat) :
    LocksOut nbuf s (hash dev blk) (bget nbuf p dev blk s) := by
  unfold bget
  simp only
  split
  · exact locksOut_hang nbuf s _
  · rename_i c _
    unfold bget_hit
    refine locksOut_acquire p c (Or.inl rfl) ?_
    simp [bget_hit_cs, logEv]
  · unfold bget_miss
    split
    · rename_i h0
      simp only
      split
      · exact locksOut_panic nbuf s _ _ _
      · rename_i hneg
        split
        · exact locksOut_hang nbuf s _
        · rename_i n s2 hst
          split
          · exact locksOut_panic nbuf s _ _ _
          · rcases find_richest_spec (logEv s (Ev.acquire (hash dev blk))) with
              ⟨h1, _⟩ | ⟨d, hd, h1, h2, _, _⟩
            · rw [h1] at hneg; omega
            · rw [h1] at hst
              have hne : d ≠ hash dev blk := by
                intro e
                rw [e] at h2
                have h0a : (logEv s (Ev.acquire (hash dev blk))).freelist (hash dev blk) = 0 := h0
                omega
              have hlog := steal_buffers_log (by omega) hst
              simp only [Int.toNat_ofNat] at hlog
              have hlog1 : s2.log = s.log ++ [Ev.acquire (hash dev blk)]
                  ++ [Ev.acquire d, Ev.release d] := by
                rw [hlog]; rfl
              refine locksOut_alloc [Ev.acquire (hash dev blk), Ev.acquire d,
                Ev.release d] p dev blk (Or.inr ⟨d, n, s2, hd, hne, hst, hlog1, rfl⟩) ?_
              rw [hlog1]; simp
    · exact locksOut_alloc [Ev.acquire (hash dev blk)] p dev blk (Or.inl rfl) rfl

theorem lockRun_bget {nbuf : Nat} {s : State} {h : Nat} {evs : List Ev}
    (hb : BgetLocks nbuf s h evs) (b : Nat) :
    lockRun [] evs = some [] ∧ lockRun [] (evs ++ [Ev.acquiresleep b]) = some [] := by
  rcases hb with e | ⟨d, _, _, _, hne, _, _, e⟩
  · rw [e]; simp [lockRun, lockStep]
  · rw [e]; simp [lockRun, lockStep, hne]

/-- C19: the lock events that one call appends to the log.  A `bget` that
returns or sleeps has taken the lock of the home bucket `h`, possibly taken and
released the lock of one donor `d != h` inside `steal_buffers (h, d)`, released
the lock of `h`, and only then acquired the access lock; `steal_buffers` takes
and releases the lock of the donor only; `brelse` releases the access lock and
then takes and releases one bucket lock; `bpin` and `bunpin` take and release
one bucket lock.  Each of these sequences passes `lockRun`: no access lock is
acquired under a bucket lock, at most two bucket locks are held, the last one
taken is released first, and none is held at the end. -/
theorem lock_order_within_call (nbuf : Nat) (s : State) :
    (∀ p dev blk b s1, bget nbuf p dev blk s = Res.ok b s1 →
      ∃ evs, BgetLocks nbuf s (hash dev blk) evs ∧
        s1.log = s.log ++ evs ++ [Ev.acquiresleep b] ∧
        lockRun [] (evs ++ [Ev.acquiresleep b]) = some []) ∧
    (∀ p dev blk b s1, bget nbuf p dev blk s = Res.sleep b s1 →
      ∃ evs, BgetLocks nbuf s (hash dev blk) evs ∧ s1.log = s.log ++ evs ∧
        lockRun [] evs = some []) ∧
    (∀ (t d : Nat) n s1, steal_buffers nbuf t (d : Int) s = some (n, s1) →
      s1.log = s.log ++ [Ev.acquire d, Ev.release d]) ∧
    (∀ p b s1, brelse nbuf p b s = Res.ok () s1 →
      s1.log = s.log ++ [Ev.releasesleep b, Ev.acquire (hash (s.dev b) (s.blockno b)),
        Ev.release (hash (s.dev b) (s.blockno b))] ∧
      lockRun [] [Ev.releasesleep b, Ev.acquire (hash (s.dev b) (s.blockno b)),
        Ev.release (hash (s.dev b) (s.blockno b))] = some []) ∧
    (∀ b, (bpin s b).log = s.log ++ [Ev.acquire (hash (s.dev b) (s.blockno b)),
        Ev.release (hash (s.dev b) (s.blockno b))] ∧
      (bunpin s b).log = s.log ++ [Ev.acquire (hash (s.dev b) (s.blockno b)),
        Ev.release (hash (s.dev b) (s.blockno b))] ∧
      lockRun [] [Ev.acquire (hash (s.dev b) (s.blockno b)),
        Ev.release (hash (s.dev b) (s.blockno b))] = some []) := by
  refine ⟨fun p dev blk b s1 e => ?_, fun p dev blk b s1 e => ?_, fun t d n s1 e => ?_,
    fun p b s1 e => ?_, fun b => ?_⟩
  · obtain ⟨evs, hb, hl⟩ := (bget_locks nbuf s p dev blk).1 b s1 e
    exact ⟨evs, hb, hl, (lockRun_bget hb b).2⟩
  · obtain ⟨evs, hb, hl⟩ := (bget_locks nbuf s p dev blk).2 b s1 e
    exact ⟨evs, hb, hl, (lockRun_bget hb b).1⟩
  · have := steal_buffers_log (by omega) e
    simpa using this
  · unfold brelse at e
    split at e
    · injection e with _ e2
      rw [← e2]
      refine ⟨?_, by simp [lockRun, lockStep]⟩
      by_cases hz : (s.refcnt b + UINT - 1) % UINT = 0
      · rw [brelse_cs_zero nbuf b s hz]; rfl
      · rw [brelse_cs_pos nbuf b s hz]; rfl
    · exact absurd e (by simp)
  · refine ⟨by simp [bpin, logEv], by simp [bunpin, logEv], by simp [lockRun, lockStep]⟩

/-- Witness of `lock_order_within_call`: a `bread` that steals, on a pool of
30 buffers with the two buffers of bucket 4 taken. -/
theorem lock_order_within_call_witness :
    (bget 30 1 0 30 (after 30 callsTake4).st).isOk = true ∧
    ∃ evs, BgetLocks 30 (after 30 callsTake4).st (hash 0 30) evs ∧
      ((bget 30 1 0 30 (after 30 callsTake4).st).st (after 30 callsTake4).st).log
        = (after 30 callsTake4).st.log ++ evs
          ++ [Ev.acquiresleep (bget 30 1 0 30 (after 30 callsTake4).st).val] ∧
      lockRun [] (evs ++ [Ev.acquiresleep (bget 30 1 0 30 (after 30 callsTake4).st).val])
        = some [] :=
  ⟨by decide, (lock_order_within_call 30 (after 30 callsTake4).st).1 1 0 30 _ _
    (res_ok_eq _ (after 30 callsTake4).st (by decide))⟩

/-- C11 (defect): on a pool of 30 buffers, after `callsStarve` the free buffer
0 carries `(0, 13)` with `valid == 1` in its home bucket 0; the next `bread`
(of block 30) has `steal_buffers` move it to bucket 4 with the same identity;
after the further calls of `callsStale`, all within the caller contract, the
lookup of `bget (0, 13)` stops at buffer 0 in bucket 0, and `bread` returns it
through the hit path with `valid` still 1 and without a device read, while
buffer 13 holds the same block. -/
theorem migrated_buffer_hit_again :
    Reach 30 (after 30 callsStarve) ∧
      (after 30 callsStarve).st.dev 0 = 0 ∧ (after 30 callsStarve).st.blockno 0 = 13 ∧
      (after 30 callsStarve).st.refcnt 0 = 0 ∧ (after 30 callsStarve).st.valid 0 = 1 ∧
      hash 0 13 = 0 ∧ 0 ∈ bucketList 30 (after 30 callsStarve).st 0 ∧
      Reach 30 (after 30 callsMoved) ∧
      0 ∉ bucketList 30 (after 30 callsMoved).st 0 ∧
      0 ∈ bucketList 30 (after 30 callsMoved).st 4 ∧
      (after 30 callsMoved).st.dev 0 = 0 ∧ (after 30 callsMoved).st.blockno 0 = 13 ∧
      Reach 30 (after 30 callsStale) ∧
      (after 30 callsStale).st.refcnt 13 = 1 ∧ (after 30 callsStale).st.dev 13 = 0 ∧
      (after 30 callsStale).st.blockno 13 = 13 ∧
      hit_scan (logEv (after 30 callsStale).st (Ev.acquire (hash 0 13)))
        (bucketAddr 30 (hash 0 13)) 0 13 (scanFuel 30)
        ((logEv (after 30 callsStale).st (Ev.acquire (hash 0 13))).next
          (bucketAddr 30 (hash 0 13))) = some (some 0) ∧
      (bread 30 2 0 13 (after 30 callsStale).st).isOk = true ∧
      (bread 30 2 0 13 (after 30 callsStale).st).val = 0 ∧
      ((bread 30 2 0 13 (after 30 callsStale).st).st (after 30 callsStale).st).valid 0 = 1 ∧
      ((bread 30 2 0 13 (after 30 callsStale).st).st (after 30 callsStale).st).reads
        = (after 30 callsStale).st.reads :=
  ⟨reach_after 30 callsStarve (by decide), by decide, by decide, by decide, by decide, by decide,
    by decide, reach_after 30 callsMoved (by decide), by decide, by decide, by decide, by decide,
    reach_after 30 callsStale (by decide), by decide, by decide, by decide, by decide, by decide,
    by decide, by decide, by decide⟩

theorem run_append_eq (nbuf : Nat) :
    ∀ (cs ds : List Call) (g : Sys), run nbuf g (cs ++ ds)
      = match run nbuf g cs with
        | none => none
        | some g1 => run nbuf g1 ds
  | [], ds, g => by simp [run]
  | c :: cs, ds, g => by
    simp only [run, List.cons_append]
    cases exec nbuf g c with
    | none => rfl
    | some g3 => exact run_append_eq nbuf cs ds g3

/-- The system after one more permitted call. -/
theorem exec_after (nbuf : Nat) (cs : List Call) (c : Call)
    (h : (run nbuf (init nbuf blankDisk) (cs ++ [c])).isSome = true) :
    exec nbuf (after nbuf cs) c = some (after nbuf (cs ++ [c])) := by
  unfold after
  rw [run_append_eq] at h ⊢
  cases hr : run nbuf (init nbuf blankDisk) cs with
  | none => rw [hr] at h; exact absurd h (by simp)
  | some g1 =>
    rw [hr] at h
    simp only [run] at h ⊢
    cases he : exec nbuf g1 c with
    | none => rw [he] at h; exact absurd h (by simp)
    | some g2 => simp [he]

/-- The system after further permitted calls. -/
theorem run_after (nbuf : Nat) (cs ds : List Call)
    (h : (run nbuf (init nbuf blankDisk) (cs ++ ds)).isSome = true) :
    run nbuf (after nbuf cs) ds = some (after nbuf (cs ++ ds)) := by
  unfold after
  rw [run_append_eq] at h ⊢
  cases hr : run nbuf (init nbuf blankDisk) cs with
  | none => rw [hr] at h; exact absurd h (by simp)
  | some g1 =>
    rw [hr] at h
    simp only at h ⊢
    cases he : run nbuf g1 ds with
    | none => rw [he] at h; exact absurd h (by simp)
    | some g2 => simp [he]

/-- C5 (defect): on a pool of 30 buffers, in the reachable state after
`callsTwice` the `bread` of block `(0, 13)` by process 3 sleeps on the access
lock of buffer 0; woken after the calls of `callsWait`, all within the caller
contract, it has returned buffer 0 with `valid == 1`, which process 3 holds;
the `brelse` of buffer 0 by process 3 returns, and the `bread` of block
`(0, 13)` that follows it at once returns buffer 13, not buffer 0. -/
theorem reacquire_after_wait_returns_other_buffer :
    Reach 30 (after 30 callsTwice) ∧
      (bread 30 3 0 13 (after 30 callsTwice).st).isSleep = true ∧
      (bread 30 3 0 13 (after 30 callsTwice).st).val = 0 ∧
      exec 30 (after 30 callsTwice) (Call.bread 3 0 13)
        = some (after 30 (callsTwice ++ [Call.bread 3 0 13])) ∧
      run 30 (after 30 (callsTwice ++ [Call.bread 3 0 13]))
          [Call.bpin 0, Call.brelse 2 0, Call.brelse 1 13]
        = some (after 30 (callsTwice ++ [Call.bread 3 0 13]
            ++ [Call.bpin 0, Call.brelse 2 0, Call.brelse 1 13])) ∧
      exec 30 (after 30 (callsTwice ++ [Call.bread 3 0 13]
            ++ [Call.bpin 0, Call.brelse 2 0, Call.brelse 1 13])) (Call.wake 3 0)
        = some (after 30 callsWait) ∧
      Reach 30 (after 30 callsWait) ∧
      holdingsleep (after 30 callsWait).st 3 0 = true ∧
      (after 30 callsWait).st.dev 0 = 0 ∧ (after 30 callsWait).st.blockno 0 = 13 ∧
      (after 30 callsWait).st.valid 0 = 1 ∧
      (brelse 30 3 0 (after 30 callsWait).st).isOk = true ∧
      (bread 30 3 0 13 ((brelse 30 3 0 (after 30 callsWait).st).st (after 30 callsWait).st)).isOk
        = true ∧
      (bread 30 3 0 13 ((brelse 30 3 0 (after 30 callsWait).st).st (after 30 callsWait).st)).val
        = 13 :=
  ⟨reach_after 30 callsTwice (by decide), by decide, by decide,
    exec_after 30 callsTwice _ (by decide),
    run_after 30 (callsTwice ++ [Call.bread 3 0 13]) _ (by decide),
    exec_after 30 _ _ (by decide),
    reach_after 30 callsWait (by decide), by decide, by decide, by decide, by decide, by decide,
    by decide, by decide⟩

end Bcache
